import Mathlib

/-!
Verification of the policytree exhaustive policy-tree search.

This file embeds the two C++ implementations of the exact tree search
(`src/tree_search.cpp` and `r-package/policytree/src/tree_search.cpp`)
as executable Lean functions and proves properties of them.

Covariate and reward entries are modelled as rationals (the C++ uses
`double`; the algorithm only adds and compares entries, so the idealized
exact-arithmetic model is `ℚ`).  Observations are identified by their row
index `i < N`.  A `boost::flat_set` sorted along dimension `j` is modelled
as a `List Nat` kept sorted by the tie-broken comparator `cmpLt`.
-/

namespace PolicyTree

/- The scalar type `α` of covariate and reward entries.  The C++ uses
`double`; the search only adds, subtracts and compares entries, so the
idealized exact-arithmetic model is any linearly ordered additive
commutative group (rationals, reals, or — for concrete runs — integers). -/
variable {α : Type} [LinearOrderedAddCommGroup α]

/-- The data view: `N×p` covariate matrix `X`, `N×d` reward matrix `Y`.
`X i j` is the value of feature `j` for observation `i`; `Y i a` is the
reward of action `a` for observation `i`. -/
structure PData (α : Type) where
  numRows : Nat
  numFeatures : Nat
  numRewards : Nat
  X : Nat → Nat → α
  Y : Nat → Nat → α

/-- The comparator closed over dimension `j` used for every sorted set:
covariate value along `j`, with the sample index as tie-breaker
(`create_sorted_sets`, lambda `cmp_func`). -/
def cmpLt (data : PData α) (j : Nat) (a b : Nat) : Bool :=
  if data.X a j = data.X b j then decide (a < b) else decide (data.X a j < data.X b j)

/-- The propositional form of `cmpLt`. -/
def CmpLtP (data : PData α) (j : Nat) (a b : Nat) : Prop :=
  data.X a j < data.X b j ∨ (data.X a j = data.X b j ∧ a < b)

/-- `flat_set::insert`: place the new element at its unique position in the
sort order; inserting an element already present leaves the set unchanged. -/
def fsInsert (data : PData α) (j : Nat) (i : Nat) : List Nat → List Nat
  | [] => [i]
  | x :: xs =>
      if cmpLt data j x i then x :: fsInsert data j i xs
      else if cmpLt data j i x then i :: x :: xs
      else x :: xs

/-- A sorted-index family: one sorted set per feature, the set at index `j`
ordered along dimension `j`. -/
abbrev Family := List (List Nat)

/-- Insert observation `i` into every sorted set of the family, each with its
own comparator (the per-`j` `insert` calls of the move loop). -/
def famInsertFrom (data : PData α) (i : Nat) : Nat → Family → Family
  | _, [] => []
  | j, s :: rest => fsInsert data j i s :: famInsertFrom data i (j + 1) rest

/-- Insert observation `i` into every sorted set of the family. -/
def famInsert (data : PData α) (i : Nat) (fam : Family) : Family :=
  famInsertFrom data i 0 fam

/-- Erase observation `i` from every sorted set of the family.  In the C++
the set at the split feature erases its begin iterator and the others erase
the result of `find`; both remove exactly the element with sample index `i`
(the comparator ties break on the sample index, so `find` can only return
`i` itself), and at the split feature the erased begin iterator holds `i`. -/
def famErase (i : Nat) (fam : Family) : Family :=
  fam.map (fun s => s.erase i)

/-- `create_sorted_sets(data)`: for each feature `j`, the set holding
observations `0, …, N−1` sorted along dimension `j` (built by repeated
`emplace`, i.e. sorted insertion). -/
def create_sorted_sets (data : PData α) : Family :=
  (List.range data.numFeatures).map
    (fun j => (List.range data.numRows).foldl (fun s i => fsInsert data j i s) [])

/-- `create_sorted_sets(data, true)`: `p` empty sets. -/
def emptyFamily (data : PData α) : Family :=
  List.replicate data.numFeatures []

/-- The output tree node of the r-package implementation.  A leaf is
constructed as `Node(0, 0.0, reward, action_id, depth, 0)` with no
children; an interior node as `Node(split_var, split_val, reward, 0,
depth, height)` with two children.  `css` is the `complete_sorted_sets`
member (default-empty unless assigned). -/
inductive Node (α : Type) where
  | leaf (reward : α) (action_id : Nat) (dep : Nat) (css : Family)
  | split (var : Nat) (val : α) (reward : α) (dep : Nat) (hgt : Nat)
      (l : Node α) (r : Node α) (css : Family)
deriving DecidableEq, Repr

/-- The `reward` field. -/
def Node.reward : Node α → α
  | leaf r _ _ _ => r
  | split _ _ r _ _ _ _ _ => r

/-- The `action_id` field (interior nodes carry `0`). -/
def Node.action_id : Node α → Nat
  | leaf _ a _ _ => a
  | split _ _ _ _ _ _ _ _ => 0

/-- The `depth` field. -/
def Node.dep : Node α → Nat
  | leaf _ _ d _ => d
  | split _ _ _ d _ _ _ _ => d

/-- The `height` field (leaves carry `0`). -/
def Node.hgt : Node α → Nat
  | leaf _ _ _ _ => 0
  | split _ _ _ _ h _ _ _ => h

/-- The `split_var` field (leaves carry `0`). -/
def Node.splitVar : Node α → Nat
  | leaf _ _ _ _ => 0
  | split v _ _ _ _ _ _ _ => v

/-- The `split_val` field (leaves carry `0.0`). -/
def Node.splitVal : Node α → α
  | leaf _ _ _ _ => 0
  | split _ v _ _ _ _ _ _ => v

/-- The `complete_sorted_sets` member. -/
def Node.css : Node α → Family
  | leaf _ _ _ c => c
  | split _ _ _ _ _ _ _ c => c

/-- `is_leaf()`: a node with no children. -/
def Node.isLeaf : Node α → Bool
  | leaf _ _ _ _ => true
  | split _ _ _ _ _ _ _ _ => false

/-- The non-null children, left first (for the hybrid breadth-first walk). -/
def Node.childList : Node α → List (Node α)
  | leaf _ _ _ _ => []
  | split _ _ _ _ _ l r _ => [l, r]

/-- Number of nodes of the tree (a termination measure). -/
def Node.size : Node α → Nat
  | leaf _ _ _ _ => 1
  | split _ _ _ _ _ l r _ => l.size + r.size + 1

/-- Sum of rewards of action `a` over the observations `pts`
(the `reward_sum` accumulation of `level_zero_learning`). -/
def rewardSum (data : PData α) (pts : List Nat) (a : Nat) : α :=
  (pts.map (fun i => data.Y i a)).sum

/-- One step of the running arg-max over actions.  `none` plays the role of
the `-INF` sentinel; the update uses a strict comparison, so the first of
several equal maxima (the smallest action index) wins. -/
def argmaxStep (acc : Option (Nat × α)) (d : Nat) (r : α) : Option (Nat × α) :=
  match acc with
  | none => some (d, r)
  | some (ba, br) => if br < r then some (d, r) else some (ba, br)

/-- First arg-max of `vals` over `d = 0, …, count−1` with its value
(`none` only when `count = 0`). -/
def bestOver (count : Nat) (vals : Nat → α) : Option (Nat × α) :=
  (List.range count).foldl (fun acc d => argmaxStep acc d (vals d)) none

/-- `level_zero_learning` (r-package): the leaf holding the action with the
largest summed reward over the active set, iterating `sorted_sets[0]`.
When `num_rewards = 0` the C++ would report reward `-INF`; that case is
unreachable for valid data (`d ≥ 1`) and is mapped to a zero leaf. -/
def level_zero_learning (data : PData α) (sets : Family) (this_depth : Nat) : Node α :=
  match bestOver data.numRewards (rewardSum data (sets.headD [])) with
  | some (ba, br) => Node.leaf br ba this_depth []
  | none => Node.leaf 0 0 this_depth []

/-- `sum_array[a][k]`: cumulative reward of action `a` over the first `k`
observations of `pts` (`pts` being the active set in feature-`p` order). -/
def cumSum (data : PData α) (pts : List Nat) (a k : Nat) : α :=
  ((pts.take k).map (fun i => data.Y i a)).sum

/-- The best split candidate tracked by `level_one_learning`. -/
structure L1Cand (α : Type) where
  bestReward : α
  leftR : α
  rightR : α
  leftA : Nat
  rightA : Nat
  var : Nat
  val : α
deriving DecidableEq, Repr

/-- Candidate update of `level_one_learning`: strict improvement only, so
among equally good candidates the first encountered wins (`none` is the
`-INF` sentinel). -/
def updL1 (best : Option (L1Cand α)) (c : L1Cand α) : Option (L1Cand α) :=
  match best with
  | none => some c
  | some b => if b.bestReward < c.bestReward then some c else some b

/-- The inner walk of `level_one_learning` over the feature-`p` sorted set.
The walk list is the not-yet-visited tail of `pts0 = sorted_sets[p]`; `n` is
the number of observations already passed (the C++ `n`, which always equals
its `samples_counter`), and `sc` is the `split_counter`.  The walk stops
when `++it` reaches the end, i.e. when at most one element remains.
For each admissible boundary the cumulative-sum arrays give the best left
and right action (two independent running arg-maxima in the C++ `d` loop);
`num_rewards = 0` would leave both at `-INF` and never update the best. -/
def l1Loop (data : PData α) (p : Nat) (pts0 : List Nat) (m split_step min_node_size : Nat) :
    List Nat → Nat → Nat → Option (L1Cand α) → Option (L1Cand α)
  | [], _, _, best => best
  | [_], _, _, best => best
  | i :: nx :: rest, n, sc, best =>
      let n' := n + 1
      let sc' := sc + 1
      if data.X i p = data.X nx p then
        l1Loop data p pts0 m split_step min_node_size (nx :: rest) n' sc' best
      else if n' < min_node_size ∨ m - n' < min_node_size then
        l1Loop data p pts0 m split_step min_node_size (nx :: rest) n' sc' best
      else if split_step ≤ sc' then
        match bestOver data.numRewards (fun d => cumSum data pts0 d n'),
              bestOver data.numRewards (fun d => cumSum data pts0 d m - cumSum data pts0 d n') with
        | some (la, lb), some (ra, rb) =>
            l1Loop data p pts0 m split_step min_node_size (nx :: rest) n' 0
              (updL1 best ⟨lb + rb, lb, rb, la, ra, p, data.X i p⟩)
        | _, _ =>
            l1Loop data p pts0 m split_step min_node_size (nx :: rest) n' 0 best
      else
        l1Loop data p pts0 m split_step min_node_size (nx :: rest) n' sc' best
  termination_by structural walk n sc best => walk

/-- The best candidate of `level_one_learning`: the feature loop over the
per-feature walks. -/
def l1Best (data : PData α) (sets : Family) (split_step min_node_size : Nat) :
    Option (L1Cand α) :=
  (List.range data.numFeatures).foldl
    (fun b p => l1Loop data p (sets.getD p []) (sets.headD []).length split_step
      min_node_size (sets.getD p []) 0 0 b)
    none

/-- The tail of `level_one_learning`: a two-leaf interior node, a pruned
leaf when both best actions agree, or the `level_zero_learning` fallback
when no candidate was admissible. -/
def l1Assemble (data : PData α) (sets : Family) (this_depth : Nat) :
    Option (L1Cand α) → Node α
  | some c =>
      if c.leftA = c.rightA then
        Node.leaf c.bestReward c.leftA this_depth []
      else
        Node.split c.var c.val c.bestReward this_depth 1
          (Node.leaf c.leftR c.leftA (this_depth + 1) [])
          (Node.leaf c.rightR c.rightA (this_depth + 1) [])
          sets
  | none => level_zero_learning data sets (this_depth + 1)

/-- `level_one_learning` (r-package): enumerate all admissible
(feature, threshold) splits using cumulative sums (`num_points` is
`sorted_sets[0].size()`). -/
def level_one_learning (data : PData α) (sets : Family)
    (split_step min_node_size this_depth : Nat) : Node α :=
  l1Assemble data sets this_depth (l1Best data sets split_step min_node_size)

/-- The best split candidate tracked by the recursive case of
`find_best_split`. -/
structure FCand (α : Type) where
  var : Nat
  val : α
  lch : Node α
  rch : Node α
deriving DecidableEq, Repr

/-- Candidate update of the recursive case: strict improvement on the sum of
the children's rewards (`none` is the `best_left_child == nullptr` state). -/
def updF (best : Option (FCand α)) (c : FCand α) : Option (FCand α) :=
  match best with
  | none => some c
  | some b =>
      if b.lch.reward + b.rch.reward < c.lch.reward + c.rch.reward then some c else some b

/-- The incremental move loop of the recursive case of `find_best_split`
for one split feature `p`: `k` counts the remaining of the `m − 1`
iterations; each iteration moves the minimum of `right[p]` into `left` in
every dimension, reads the new minimum of `right[p]`, and (past the
equality, `min_node_size` and `split_step` guards) recurses one level lower
via `rec` on both halves.  An empty `right[p]` would be undefined behaviour
in the C++ (never reached from a coherent family) and ends the loop. -/
def fbsLoop (data : PData α) (rec : Family → Node α) (p m split_step min_node_size : Nat) :
    Nat → Family → Family → Nat → Nat → Option (FCand α) → Option (FCand α)
  | 0, _, _, _, _, best => best
  | k + 1, left, right, n, sc, best =>
      match (right.getD p []).head? with
      | none => best
      | some i =>
          let left' := famInsert data i left
          let right' := famErase i right
          let n' := n + 1
          let sc' := sc + 1
          match (right'.getD p []).head? with
          | none => best
          | some nx =>
              if data.X nx p ≤ data.X i p then
                fbsLoop data rec p m split_step min_node_size k left' right' n' sc' best
              else if n' < min_node_size ∨ m - n' < min_node_size then
                fbsLoop data rec p m split_step min_node_size k left' right' n' sc' best
              else if split_step ≤ sc' then
                fbsLoop data rec p m split_step min_node_size k left' right' n' 0
                  (updF best ⟨p, data.X i p, rec left', rec right'⟩)
              else
                fbsLoop data rec p m split_step min_node_size k left' right' n' sc' best
  termination_by structural k left right n sc best => k

/-- The best candidate of the recursive case: the feature loop over the
incremental move walks, `rec` being the one-level-lower search applied at
depth `this_depth + 1`. -/
def fbsBest (data : PData α) (rec : Family → Node α) (sets : Family)
    (split_step min_node_size : Nat) : Option (FCand α) :=
  (List.range data.numFeatures).foldl
    (fun b p => fbsLoop data rec p (sets.headD []).length split_step min_node_size
        ((sets.headD []).length - 1) (emptyFamily data) sets 0 0 b)
    none

/-- The tail of the recursive case: the pruned leaf (both best children
leaves with equal actions), the interior node, or the
`level_zero_learning` fallback. -/
def fbsAssemble (data : PData α) (sets : Family) (this_depth : Nat) :
    Option (FCand α) → Node α
  | none => level_zero_learning data sets (this_depth + 1)
  | some c =>
      if c.lch.isLeaf && c.rch.isLeaf && c.lch.action_id == c.rch.action_id then
        Node.leaf (c.lch.reward + c.rch.reward) c.lch.action_id this_depth sets
      else
        Node.split c.var c.val (c.lch.reward + c.rch.reward) (this_depth + 1)
          (max c.lch.hgt c.rch.hgt + 1) c.lch c.rch sets

/-- The recursive case of `find_best_split` (level ≥ 2), parameterized by
the one-level-lower search `rec` (`num_points` is
`sorted_sets[0].size()`). -/
def fbsStep (data : PData α) (rec : Family → Nat → Node α) (sets : Family)
    (split_step min_node_size this_depth : Nat) : Node α :=
  fbsAssemble data sets this_depth
    (fbsBest data (fun fam => rec fam (this_depth + 1)) sets split_step min_node_size)

/-- `find_best_split` (r-package): level 0 and 1 are the leaf and depth-1
evaluators; level ≥ 2 is the recursive split enumeration. -/
def find_best_split (data : PData α) (split_step min_node_size : Nat) :
    Nat → Family → Nat → Node α
  | 0, sets, t => level_zero_learning data sets (t + 1)
  | 1, sets, t => level_one_learning data sets split_step min_node_size (t + 1)
  | l + 2, sets, t =>
      fbsStep data (find_best_split data split_step min_node_size (l + 1)) sets
        split_step min_node_size t
  termination_by structural level sets t => level

/-- `tree_search` (r-package entry point). -/
def tree_search (data : PData α) (depth split_step min_node_size : Nat) : Node α :=
  find_best_split data split_step min_node_size depth (create_sorted_sets data) 0

/-- Total node count of a queue (termination measure of the breadth-first
chop walk). -/
def queueSize (q : List (Node α)) : Nat := (q.map Node.size).sum

/-- The breadth-first chop walk of `tree_search_hybrid`: descendants of the
local expansion tree exactly `chop_depth` height levels below its height
`eth` are collected as future expansion points, shallower ones are
descended into, deeper ones are discarded.  The height difference is taken
in `ℤ` as in the C++ `int` arithmetic. -/
def chopLoop (eth : Nat) (chop_depth : Nat) : List (Node α) → List (Node α) → List (Node α)
  | [], acc => acc
  | b :: rest, acc =>
      if (eth : ℤ) - (b.hgt : ℤ) = (chop_depth : ℤ) then
        chopLoop eth chop_depth rest (acc ++ [b])
      else if (eth : ℤ) - (b.hgt : ℤ) < (chop_depth : ℤ) then
        chopLoop eth chop_depth (rest ++ b.childList) acc
      else
        chopLoop eth chop_depth rest acc
  termination_by q _ => queueSize q
  decreasing_by
  · cases b <;> simp [queueSize, Node.size]
  · simp only [queueSize, List.map_append, List.sum_append]
    cases b with
    | leaf r a d c => simp [Node.childList, Node.size]
    | split v vl r d h l rr c =>
        simp only [Node.childList, Node.size, List.map_cons, List.map_nil, List.sum_cons,
          List.sum_nil, List.map_cons]
        omega
  · cases b <;> simp [queueSize, Node.size]

/-- The expansion loop of `tree_search_hybrid`.  The C++ loop runs until the
queue empties; `fuel` bounds the number of iterations (the entry point
passes ample fuel, and the returned tree does not depend on it: the result
pointer `start` is never reassigned inside the loop — the line
`expansion_node = expansion_tree;` only rebinds a local variable, and the
commented-out re-rooting is absent — so every branch returns `start`). -/
def hybridLoop (data : PData α)
    (max_global_depth complete_split_depth chop_depth split_step min_node_size : Nat) :
    Nat → List (Node α) → Node α → Node α
  | 0, _, start => start
  | _ + 1, [], start => start
  | fuel + 1, e :: restQ, start =>
      if e.hgt < 1 then
        hybridLoop data max_global_depth complete_split_depth chop_depth split_step
          min_node_size fuel restQ start
      else if max_global_depth ≤ e.dep then
        hybridLoop data max_global_depth complete_split_depth chop_depth split_step
          min_node_size fuel restQ start
      else
        let T := find_best_split data split_step min_node_size complete_split_depth e.css e.dep
        let newQ := chopLoop T.hgt chop_depth T.childList []
        hybridLoop data max_global_depth complete_split_depth chop_depth split_step
          min_node_size fuel (restQ ++ newQ) start
  termination_by structural fuel q start => fuel

/-- `tree_search_hybrid` (r-package): seed the expansion queue with the
placeholder root `Node(0, 0.0, 0, 0, 0, 0)` carrying the full sorted-set
family, process the queue, and return `start`.  The `repeat_splits`
parameter is unused, as in the source. -/
def tree_search_hybrid (data : PData α)
    (max_global_depth complete_split_depth chop_depth repeat_splits split_step
     min_node_size : Nat) : Node α :=
  let sorted_sets := create_sorted_sets data
  let start := Node.leaf 0 0 0 sorted_sets
  hybridLoop data max_global_depth complete_split_depth chop_depth split_step min_node_size
    (data.numRows + max_global_depth + 1) [start] start

/-!
The standalone implementation `src/tree_search.cpp`.  Its `Node` has no
depth or height fields and no attached sorted sets; interior nodes carry
`action_id = -1` (`size_t`), modelled by the constructor split.  Its
`find_best_split` has no `split_step`/`min_node_size` parameters, and no
`level == 0` base case: only `level == 1` stops the recursion, any other
level (including 0 and below) enumerates splits and recurses with
`level - 1`.  In the C++ the level is an `int` that may go negative; here
the level is a `Nat` and `level - 1` truncates at 0, which is behaviorally
identical because only the test `level == 1` inspects it and neither a
negative C++ level nor a truncated 0 ever equals 1 again.  The recursion
terminates because each recursive call owns strictly fewer points; `fuel`
(strictly decreased on every call, ample at the entry point) is the
structural termination device.
-/

/-- The output tree node of the src implementation: a leaf is
`Node(-1, -1, reward, action_id)`, an interior node is
`Node(split_var, split_val, reward, -1)` with two children.  The `-1`
sentinels of the unused fields are absorbed by the constructors. -/
inductive SNode (α : Type) where
  | leaf (reward : α) (action_id : Nat)
  | split (var : Nat) (val : α) (reward : α) (l : SNode α) (r : SNode α)
deriving DecidableEq, Repr

/-- The `reward` field. -/
def SNode.reward : SNode α → α
  | leaf r _ => r
  | split _ _ r _ _ => r

/-- The `action_id` field; `none` is the `(size_t) -1` sentinel carried by
interior nodes. -/
def SNode.actionId : SNode α → Option Nat
  | leaf _ a => some a
  | split _ _ _ _ _ => none

/-- Whether the node is a leaf. -/
def SNode.isLeaf : SNode α → Bool
  | leaf _ _ => true
  | split _ _ _ _ _ => false

/-- `level_zero_learning` (src): as the r-package one.  `best_action` is
initialized to `-1` (`size_t`) in the source; with `num_rewards = 0` this
sentinel would leak out, a case unreachable for valid data and mapped to a
zero leaf here. -/
def level_zero_learning2 (data : PData α) (sets : Family) : SNode α :=
  match bestOver data.numRewards (rewardSum data (sets.headD [])) with
  | some (ba, br) => SNode.leaf br ba
  | none => SNode.leaf 0 0

/-- The inner walk of the src `level_one_learning`: identical to the
r-package walk except that there are no `min_node_size` and `split_step`
guards — every boundary between distinct consecutive values is a
candidate. -/
def l1Loop2 (data : PData α) (p : Nat) (pts0 : List Nat) (m : Nat) :
    List Nat → Nat → Option (L1Cand α) → Option (L1Cand α)
  | [], _, best => best
  | [_], _, best => best
  | i :: nx :: rest, n, best =>
      let n' := n + 1
      if data.X i p = data.X nx p then
        l1Loop2 data p pts0 m (nx :: rest) n' best
      else
        match bestOver data.numRewards (fun d => cumSum data pts0 d n'),
              bestOver data.numRewards (fun d => cumSum data pts0 d m - cumSum data pts0 d n') with
        | some (la, lb), some (ra, rb) =>
            l1Loop2 data p pts0 m (nx :: rest) n'
              (updL1 best ⟨lb + rb, lb, rb, la, ra, p, data.X i p⟩)
        | _, _ =>
            l1Loop2 data p pts0 m (nx :: rest) n' best
  termination_by structural walk n best => walk

/-- The best candidate of the src `level_one_learning`. -/
def l1Best2 (data : PData α) (sets : Family) : Option (L1Cand α) :=
  (List.range data.numFeatures).foldl
    (fun b p => l1Loop2 data p (sets.getD p []) (sets.headD []).length (sets.getD p []) 0 b)
    none

/-- The tail of the src `level_one_learning`. -/
def l1Assemble2 (data : PData α) (sets : Family) : Option (L1Cand α) → SNode α
  | some c =>
      if c.leftA = c.rightA then
        SNode.leaf c.bestReward c.leftA
      else
        SNode.split c.var c.val c.bestReward
          (SNode.leaf c.leftR c.leftA) (SNode.leaf c.rightR c.rightA)
  | none => level_zero_learning2 data sets

/-- `level_one_learning` (src). -/
def level_one_learning2 (data : PData α) (sets : Family) : SNode α :=
  l1Assemble2 data sets (l1Best2 data sets)

/-- Best split candidate of the src recursive case. -/
structure SFCand (α : Type) where
  var : Nat
  val : α
  lch : SNode α
  rch : SNode α
deriving DecidableEq, Repr

/-- Tracking state of the src recursive case: the best child pair
(`best_left_child`/`best_right_child`, `none` when null) and
`best_ans_as_leaf`. -/
structure FState2 (α : Type) where
  pair : Option (SFCand α)
  leafAns : Option (SNode α)
deriving DecidableEq, Repr

/-- The candidate update of the src recursive case.  A candidate is taken
when the stored pair is null — initially, and again right after any
pruning — or when it strictly improves on the stored pair; a taken
candidate whose children are leaves with equal `action_id` is pruned on
the spot into `best_ans_as_leaf`, nulling the stored pair.  `improves2`
is the acceptance test `best_left_child == nullptr || candidate > best`. -/
def improves2 (st : FState2 α) (L R : SNode α) : Bool :=
  match st.pair with
  | none => true
  | some b => decide (b.lch.reward + b.rch.reward < L.reward + R.reward)

def updF2 (st : FState2 α) (p : Nat) (v : α) (L R : SNode α) : FState2 α :=
  if improves2 st L R then
    if L.actionId.isSome && L.actionId == R.actionId then
      { pair := none,
        leafAns := some (SNode.leaf (L.reward + R.reward) (L.actionId.getD 0)) }
    else
      { pair := some ⟨p, v, L, R⟩, leafAns := st.leafAns }
  else st

/-- The incremental move loop of the src recursive case for one split
feature `p` (as `fbsLoop`, without the `min_node_size`/`split_step`
guards). -/
def fbsLoop2 (data : PData α) (rec : Family → SNode α) (p m : Nat) :
    Nat → Family → Family → FState2 α → FState2 α
  | 0, _, _, st => st
  | k + 1, left, right, st =>
      match (right.getD p []).head? with
      | none => st
      | some i =>
          let left' := famInsert data i left
          let right' := famErase i right
          match (right'.getD p []).head? with
          | none => st
          | some nx =>
              if data.X nx p ≤ data.X i p then
                fbsLoop2 data rec p m k left' right' st
              else
                fbsLoop2 data rec p m k left' right'
                  (updF2 st p (data.X i p) (rec left') (rec right'))
  termination_by structural k left right st => k

/-- The final tracking state of the src recursive case. -/
def fbsState2 (data : PData α) (rec : Family → SNode α) (sets : Family) : FState2 α :=
  (List.range data.numFeatures).foldl
    (fun st p => fbsLoop2 data rec p (sets.headD []).length
      ((sets.headD []).length - 1) (emptyFamily data) sets st)
    ⟨none, none⟩

/-- The tail of the src recursive case. -/
def fbsAssemble2 (data : PData α) (sets : Family) (st : FState2 α) : SNode α :=
  match st.pair with
  | some c => SNode.split c.var c.val (c.lch.reward + c.rch.reward) c.lch c.rch
  | none =>
      match st.leafAns with
      | some lf => lf
      | none => level_zero_learning2 data sets

/-- The recursive case of the src `find_best_split`, parameterized by the
one-level-lower search `rec`. -/
def fbsStep2 (data : PData α) (rec : Family → SNode α) (sets : Family) : SNode α :=
  fbsAssemble2 data sets (fbsState2 data rec sets)

/-- `find_best_split` (src): only `level == 1` stops the recursion; every
other level runs the split enumeration with `level - 1` below.  `fuel`
decreases on every call and the entry point passes more fuel than the
recursion can consume (each recursive call owns strictly fewer points and
point sets are never empty), so the fuel-exhausted branch is never reached
from `tree_search2`. -/
def find_best_split2 (data : PData α) : Nat → Nat → Family → SNode α
  | 0, _, sets => level_zero_learning2 data sets
  | fuel + 1, level, sets =>
      if level = 1 then level_one_learning2 data sets
      else fbsStep2 data (find_best_split2 data fuel (level - 1)) sets
  termination_by structural fuel level sets => fuel

/-- `tree_search` (src entry point). -/
def tree_search2 (data : PData α) (depth : Nat) : SNode α :=
  find_best_split2 data (depth + data.numRows + 1) depth (create_sorted_sets data)

/-!  ## Semantics: routing observations through trees  -/

/-- The action a returned tree assigns to observation `i`: at an interior
node go left iff `X[i, split_var] ≤ split_val`. -/
def Node.assigned (data : PData α) (i : Nat) : Node α → Nat
  | .leaf _ a _ _ => a
  | .split v vl _ _ _ l r _ =>
      if data.X i v ≤ vl then l.assigned data i else r.assigned data i

/-- Total reward collected when the observations `S` follow the tree's
assignments. -/
def policyValue (data : PData α) (S : List Nat) (nd : Node α) : α :=
  (S.map (fun i => data.Y i (nd.assigned data i))).sum

/-- Routing through a src tree. -/
def SNode.assigned (data : PData α) (i : Nat) : SNode α → Nat
  | .leaf _ a => a
  | .split v vl _ l r =>
      if data.X i v ≤ vl then l.assigned data i else r.assigned data i

/-- Total reward collected under a src tree's assignments. -/
def policyValue2 (data : PData α) (S : List Nat) (nd : SNode α) : α :=
  (S.map (fun i => data.Y i (nd.assigned data i))).sum

/-!  ## The space of axis-aligned policy trees (for optimality claims)  -/

/-- An abstract axis-aligned binary policy tree: leaves assign an action,
interior nodes route by `X[i, j] ≤ t` with an arbitrary rational
threshold. -/
inductive PTree (α : Type) where
  | act (a : Nat) : PTree α
  | branch (j : Nat) (t : α) (l : PTree α) (r : PTree α) : PTree α
deriving DecidableEq, Repr

/-- Depth of an abstract policy tree. -/
def PTree.depth : PTree α → Nat
  | act _ => 0
  | branch _ _ l r => max l.depth r.depth + 1

/-- The action an abstract policy tree assigns to observation `i`. -/
def PTree.route (data : PData α) (i : Nat) : PTree α → Nat
  | act a => a
  | branch j t l r => if data.X i j ≤ t then l.route data i else r.route data i

/-- A tree is valid for the data when its leaf actions are actions of `Y`
and its split features are features of `X`. -/
def PTree.valid (data : PData α) : PTree α → Prop
  | act a => a < data.numRewards
  | branch j _ l r => j < data.numFeatures ∧ l.valid data ∧ r.valid data

/-- Total reward collected under an abstract policy tree. -/
def treeValue (data : PData α) (S : List Nat) (T : PTree α) : α :=
  (S.map (fun i => data.Y i (T.route data i))).sum

/-- A set sorted along dimension `j`. -/
abbrev Sortedj (data : PData α) (j : Nat) (l : List Nat) : Prop :=
  l.Pairwise (CmpLtP data j)

/-- `l` holds exactly the observations of `S`, sorted along dimension `j`. -/
def SortedOf (data : PData α) (j : Nat) (S : List Nat) (l : List Nat) : Prop :=
  Sortedj data j l ∧ l.Perm S

/-- A coherent sorted-index family over the observation set `S`. -/
def Coherent (data : PData α) (S : List Nat) (sets : Family) : Prop :=
  sets.length = data.numFeatures ∧
    ∀ j, j < data.numFeatures → SortedOf data j S (sets.getD j [])

/-- The walked-prefix "left" family: the sorted-index family obtained by
inserting, in walk order, the moved observations into an initially empty
family (the `left_sorted_sets` of the move loop after `pref` moves). -/
def leftState (data : PData α) (pref : List Nat) (fam : Family) : Family :=
  pref.foldl (fun f i => famInsert data i f) fam

/-- The "right" family after erasing the walked prefix (the
`right_sorted_sets` of the move loop after `pref` moves). -/
def rightState (pref : List Nat) (fam : Family) : Family :=
  pref.foldl (fun f i => famErase i f) fam

/-- The state of the incremental move loop after `n` moves along the walk
`order` (the feature-`p` sorted set): the left and right families of the
recursion frame. -/
def famMoveN (data : PData α) (order : List Nat) (n : Nat) (sets : Family) :
    Family × Family :=
  (leftState data (order.take n) (emptyFamily data),
   rightState (order.take n) sets)

/-- All recorded `depth` fields of the tree sit in the band
`[base + distance, base + distance + 2]`, where distance is the node's
distance from the tree's root. -/
def Node.depthBandOK (base : Nat) : Node α → Prop
  | .leaf _ _ dd _ => base ≤ dd ∧ dd ≤ base + 2
  | .split _ _ _ dd _ l r _ =>
      base ≤ dd ∧ dd ≤ base + 2 ∧ l.depthBandOK (base + 1) ∧ r.depthBandOK (base + 1)

/-- Every leaf's recorded `depth` field is at most `bound`. -/
def Node.leafDepLE (bound : Nat) : Node α → Prop
  | .leaf _ _ dd _ => dd ≤ bound
  | .split _ _ _ _ _ l r _ => l.leafDepLE bound ∧ r.leafDepLE bound

/-- The number of observations of `S` each leaf subtends is at least `mns`
(observations are routed by the split conditions). -/
def Node.leavesSubtend (data : PData α) (mns : Nat) : Node α → List Nat → Prop
  | .leaf _ _ _ _, S => mns ≤ S.length
  | .split v vl _ _ _ l r _, S =>
      l.leavesSubtend data mns (S.filter (fun i => data.X i v ≤ vl)) ∧
      r.leavesSubtend data mns (S.filter (fun i => ¬ data.X i v ≤ vl))

/-- No interior node has two leaf children carrying the same action. -/
def Node.noTwinLeaves : Node α → Prop
  | .leaf _ _ _ _ => True
  | .split _ _ _ _ _ l r _ =>
      ¬(l.isLeaf = true ∧ r.isLeaf = true ∧ l.action_id = r.action_id) ∧
      l.noTwinLeaves ∧ r.noTwinLeaves

/-- No interior node has two leaf children carrying the same action
(src trees). -/
def SNode.noTwinLeaves : SNode α → Prop
  | .leaf _ _ => True
  | .split _ _ _ l r =>
      ¬(l.isLeaf = true ∧ r.isLeaf = true ∧ l.actionId = r.actionId) ∧
      l.noTwinLeaves ∧ r.noTwinLeaves

/-- Forget the bookkeeping fields of a returned tree, keeping the policy. -/
def Node.toPTree : Node α → PTree α
  | .leaf _ a _ _ => PTree.act a
  | .split v vl _ _ _ l r _ => PTree.branch v vl l.toPTree r.toPTree

/-- Forget the bookkeeping fields of a src tree, keeping the policy. -/
def SNode.toPTree : SNode α → PTree α
  | .leaf _ a => PTree.act a
  | .split v vl _ l r => PTree.branch v vl l.toPTree r.toPTree

/-- Concrete data for counterexamples: `N = 4`, `p = 1`, `d = 2`,
`X = [[0], [1], [2], [3]]`, `Y = [[1,0], [1,0], [0,1], [0,1]]`
(scenario 1 of the specification's test battery). -/
def exA : PData ℤ where
  numRows := 4
  numFeatures := 1
  numRewards := 2
  X := fun i _ => (i : ℤ)
  Y := fun i a => if i < 2 then (if a = 0 then 1 else 0) else (if a = 1 then 1 else 0)

/-- The src candidate state keeps the pruning invariant: stored pairs are
never two equal-action leaves and the stored leaf answer is a leaf. -/
def SInvNoTwin (st : FState2 α) : Prop :=
  (∀ c, st.pair = some c →
    ¬(c.lch.isLeaf = true ∧ c.rch.isLeaf = true ∧ c.lch.actionId = c.rch.actionId) ∧
    c.lch.noTwinLeaves ∧ c.rch.noTwinLeaves) ∧
  (∀ lf, st.leafAns = some lf → lf.isLeaf = true)

/-- The reward of the currently tracked best candidate, `⊥` for the
`-INF`/null sentinel. -/
def bestValL1 : Option (L1Cand α) → WithBot α
  | none => ⊥
  | some c => (c.bestReward : WithBot α)

/-- The summed child rewards of the currently tracked best pair, `⊥` for
the null sentinel. -/
def bestValF : Option (FCand α) → WithBot α
  | none => ⊥
  | some c => ((c.lch.reward + c.rch.reward : α) : WithBot α)

/-- Boundary position `n'` (1-based size of the left part) on feature `p`
that the level-one walk evaluates when `split_step = 1`: both sides
respect `min_node_size` and the neighbouring covariate values differ. -/
def L1Admissible (data : PData α) (sets : Family) (m mns : Nat) (p n' : Nat) : Prop :=
  p < data.numFeatures ∧ 0 < n' ∧ n' < m ∧ mns ≤ n' ∧ mns ≤ m - n' ∧
  data.X ((sets.getD p []).getD (n' - 1) 0) p ≠ data.X ((sets.getD p []).getD n' 0) p

/-- The candidate reward the depth-1 evaluator computes at boundary
`(p, n')` via the cumulative-sum arg-maxima. -/
def l1CandValue (data : PData α) (sets : Family) (m : Nat) (p n' : Nat) : WithBot α :=
  match bestOver data.numRewards (fun d => cumSum data (sets.getD p []) d n'),
        bestOver data.numRewards (fun d => cumSum data (sets.getD p []) d m -
          cumSum data (sets.getD p []) d n') with
  | some lb, some rb => ((lb.2 + rb.2 : α) : WithBot α)
  | _, _ => ⊥

/-- Full description of a candidate delivered by the depth-1 evaluator:
the boundary position, its guards, and the cumulative-sum arg-maxima that
produced the fields. -/
def L1CandOK (data : PData α) (sets : Family) (m mns : Nat) (c : L1Cand α) : Prop :=
  ∃ p n', p < data.numFeatures ∧ 0 < n' ∧ n' < m ∧ mns ≤ n' ∧ mns ≤ m - n' ∧
    data.X ((sets.getD p []).getD (n' - 1) 0) p ≠
      data.X ((sets.getD p []).getD n' 0) p ∧
    bestOver data.numRewards (fun d => cumSum data (sets.getD p []) d n') =
      some (c.leftA, c.leftR) ∧
    bestOver data.numRewards (fun d => cumSum data (sets.getD p []) d m -
      cumSum data (sets.getD p []) d n') = some (c.rightA, c.rightR) ∧
    c.var = p ∧ c.val = data.X ((sets.getD p []).getD (n' - 1) 0) p ∧
    c.bestReward = c.leftR + c.rightR


/-- Full description of a candidate delivered by the recursive split
enumeration (level ≥ 2): the split feature and boundary position with
their guards, the stored split value, and the recursively searched
children on the walked prefix and unwalked suffix families. -/
def FCandOK (data : PData α) (sets : Family) (m mns : Nat) (rec : Family → Node α)
    (c : FCand α) : Prop :=
  ∃ p n', p < data.numFeatures ∧ 0 < n' ∧ n' < m ∧ mns ≤ n' ∧ mns ≤ m - n' ∧
    ¬ data.X ((sets.getD p []).getD n' 0) p ≤
      data.X ((sets.getD p []).getD (n' - 1) 0) p ∧
    c = ⟨p, data.X ((sets.getD p []).getD (n' - 1) 0) p,
         rec (famMoveN data (sets.getD p []) n' sets).1,
         rec (famMoveN data (sets.getD p []) n' sets).2⟩

/-- Full description of a stored pair candidate of the src recursive
case (no guards beyond value-distinct neighbours). -/
def SFCandOK (data : PData α) (sets : Family) (m : Nat) (rec : Family → SNode α)
    (c : SFCand α) : Prop :=
  ∃ p n', p < data.numFeatures ∧ 0 < n' ∧ n' < m ∧
    ¬ data.X ((sets.getD p []).getD n' 0) p ≤
      data.X ((sets.getD p []).getD (n' - 1) 0) p ∧
    c = ⟨p, data.X ((sets.getD p []).getD (n' - 1) 0) p,
         rec (famMoveN data (sets.getD p []) n' sets).1,
         rec (famMoveN data (sets.getD p []) n' sets).2⟩

/-- Description of the src `best_ans_as_leaf` entries: a leaf carrying a
full-frame column sum that dominates all column sums. -/
def LeafDesc (data : PData α) (S : List Nat) (lf : SNode α) : Prop :=
  ∃ a, a < data.numRewards ∧ lf = SNode.leaf (rewardSum data S a) a ∧
    ∀ b, b < data.numRewards → rewardSum data S b ≤ rewardSum data S a

/-- Value of the stored pair of the src tracking state, `⊥` for null. -/
def pairValF (st : FState2 α) : WithBot α :=
  match st.pair with
  | none => ⊥
  | some c => ((c.lch.reward + c.rch.reward : α) : WithBot α)

/-- Value of the stored pruned leaf of the src tracking state, `⊥` for
null. -/
def leafValF (st : FState2 α) : WithBot α :=
  match st.leafAns with
  | none => ⊥
  | some lf => (lf.reward : WithBot α)

/-- The best value the src tracking state can currently deliver. -/
def sValF (st : FState2 α) : WithBot α := max (pairValF st) (leafValF st)

/-- Invariant of the src tracking state: stored pairs are described
candidates and the stored leaf is a dominating full-frame column sum. -/
def SStOK (data : PData α) (S : List Nat) (sets : Family) (m : Nat)
    (rec : Family → SNode α) (st : FState2 α) : Prop :=
  (∀ c, st.pair = some c → SFCandOK data sets m rec c) ∧
  (∀ lf, st.leafAns = some lf → LeafDesc data S lf)

/-!  ## The comparator is a strict total order  -/

theorem cmpLt_iff (data : PData α) (j a b : Nat) :
    cmpLt data j a b = true ↔ CmpLtP data j a b := by
  unfold cmpLt CmpLtP
  by_cases h : data.X a j = data.X b j
  · simp [h]
  · simp only [h, if_false, decide_eq_true_eq]
    constructor
    · intro hlt; exact Or.inl hlt
    · rintro (hlt | ⟨he, _⟩)
      · exact hlt
      · exact he.elim

theorem CmpLtP.irrefl (data : PData α) (j a : Nat) : ¬ CmpLtP data j a a := by
  rintro (h | ⟨_, h⟩) <;> exact absurd h (by simp)

theorem CmpLtP.trans' (data : PData α) (j : Nat) {a b c : Nat}
    (h₁ : CmpLtP data j a b) (h₂ : CmpLtP data j b c) : CmpLtP data j a c := by
  rcases h₁ with h₁ | ⟨e₁, l₁⟩ <;> rcases h₂ with h₂ | ⟨e₂, l₂⟩
  · exact Or.inl (h₁.trans h₂)
  · exact Or.inl (e₂ ▸ h₁)
  · exact Or.inl (e₁ ▸ h₂)
  · exact Or.inr ⟨e₁.trans e₂, l₁.trans l₂⟩

theorem CmpLtP.asymm (data : PData α) (j : Nat) {a b : Nat}
    (h₁ : CmpLtP data j a b) (h₂ : CmpLtP data j b a) : False :=
  CmpLtP.irrefl data j a (CmpLtP.trans' data j h₁ h₂)

theorem CmpLtP.total' (data : PData α) (j : Nat) {a b : Nat} (hne : a ≠ b) :
    CmpLtP data j a b ∨ CmpLtP data j b a := by
  rcases lt_trichotomy (data.X a j) (data.X b j) with h | h | h
  · exact Or.inl (Or.inl h)
  · rcases Nat.lt_or_ge a b with hab | hab
    · exact Or.inl (Or.inr ⟨h, hab⟩)
    · exact Or.inr (Or.inr ⟨h.symm, lt_of_le_of_ne hab (Ne.symm hne)⟩)
  · exact Or.inr (Or.inl h)

/-- Not-less both ways forces equality (used for `find`/duplicate cases). -/
theorem CmpLtP.eq_of_not (data : PData α) (j : Nat) {a b : Nat}
    (h₁ : ¬ CmpLtP data j a b) (h₂ : ¬ CmpLtP data j b a) : a = b := by
  by_contra hne
  rcases CmpLtP.total' data j hne with h | h
  · exact h₁ h
  · exact h₂ h

/-- The comparator orders values weakly monotonically. -/
theorem CmpLtP.le_val (data : PData α) (j : Nat) {a b : Nat}
    (h : CmpLtP data j a b) : data.X a j ≤ data.X b j := by
  rcases h with h | ⟨h, _⟩
  · exact le_of_lt h
  · exact le_of_eq h

/-- Sorted lists over the same set are unique: the strict total order
leaves no freedom in the iteration order. -/
theorem sortedOf_unique (data : PData α) (j : Nat) {S l₁ l₂ : List Nat}
    (h₁ : SortedOf data j S l₁) (h₂ : SortedOf data j S l₂) : l₁ = l₂ := by
  have : IsAntisymm Nat (CmpLtP data j) :=
    ⟨fun a b hab hba => absurd (CmpLtP.trans' data j hab hba) (CmpLtP.irrefl data j a)⟩
  exact List.eq_of_perm_of_sorted (h₁.2.trans h₂.2.symm) h₁.1 h₂.1

theorem fsInsert_perm (data : PData α) (j i : Nat) :
    ∀ l : List Nat, i ∉ l → (fsInsert data j i l).Perm (i :: l) := by
  intro l
  induction l with
  | nil => intro _; simp [fsInsert]
  | cons x xs ih =>
      intro hni
      rw [fsInsert]
      by_cases h₁ : cmpLt data j x i
      · simp only [h₁, if_true]
        have hxi : i ∉ xs := fun h => hni (List.mem_cons_of_mem _ h)
        exact ((ih hxi).cons x).trans (List.Perm.swap i x xs)
      · by_cases h₂ : cmpLt data j i x
        · rw [if_neg h₁, if_pos h₂]
        · exfalso
          have : i = x := by
            refine CmpLtP.eq_of_not data j ?_ ?_
            · exact fun hp => h₂ ((cmpLt_iff data j i x).mpr hp)
            · exact fun hp => h₁ ((cmpLt_iff data j x i).mpr hp)
          exact hni (this ▸ List.mem_cons_self i xs)

theorem fsInsert_sorted (data : PData α) (j i : Nat) :
    ∀ l : List Nat, Sortedj data j l → i ∉ l → Sortedj data j (fsInsert data j i l) := by
  intro l
  induction l with
  | nil => intro _ _; simp [fsInsert, Sortedj]
  | cons x xs ih =>
      intro hs hni
      have hs' : Sortedj data j xs := hs.of_cons
      have hx : ∀ y ∈ xs, CmpLtP data j x y := fun y hy => List.rel_of_pairwise_cons hs hy
      rw [fsInsert]
      by_cases h₁ : cmpLt data j x i
      · simp only [h₁, if_true]
        have hxi : i ∉ xs := fun h => hni (List.mem_cons_of_mem _ h)
        refine List.Pairwise.cons ?_ (ih hs' hxi)
        intro y hy
        have hy' : y ∈ i :: xs := (fsInsert_perm data j i xs hxi).mem_iff.mp hy
        rcases List.mem_cons.mp hy' with rfl | hy''
        · exact (cmpLt_iff data j x y).mp h₁
        · exact hx y hy''
      · by_cases h₂ : cmpLt data j i x
        · rw [if_neg h₁, if_pos h₂]
          refine List.Pairwise.cons ?_ hs
          intro y hy
          rcases List.mem_cons.mp hy with rfl | hy'
          · exact (cmpLt_iff data j i y).mp h₂
          · exact CmpLtP.trans' data j ((cmpLt_iff data j i x).mp h₂) (hx y hy')
        · exfalso
          have : i = x := by
            refine CmpLtP.eq_of_not data j ?_ ?_
            · exact fun hp => h₂ ((cmpLt_iff data j i x).mpr hp)
            · exact fun hp => h₁ ((cmpLt_iff data j x i).mpr hp)
          exact hni (this ▸ List.mem_cons_self i xs)

/-- Building a sorted set by repeated insertion of fresh elements yields the
sorted permutation of those elements. -/
theorem foldl_fsInsert_sortedOf (data : PData α) (j : Nat) :
    ∀ (xs acc : List Nat), Sortedj data j acc → acc.Nodup →
      (∀ x ∈ xs, x ∉ acc) → xs.Nodup →
      SortedOf data j (acc ++ xs)
        (xs.foldl (fun s i => fsInsert data j i s) acc) := by
  intro xs
  induction xs with
  | nil => intro acc hs hnd _ _; simpa [SortedOf] using hs
  | cons x xs ih =>
      intro acc hs hnd hfresh hxs
      have hxacc : x ∉ acc := hfresh x (List.mem_cons_self x xs)
      have hperm : (fsInsert data j x acc).Perm (x :: acc) := fsInsert_perm data j x acc hxacc
      have hsort : Sortedj data j (fsInsert data j x acc) := fsInsert_sorted data j x acc hs hxacc
      have hnd' : (fsInsert data j x acc).Nodup :=
        hperm.nodup_iff.mpr (List.nodup_cons.mpr ⟨hxacc, hnd⟩)
      have hfresh' : ∀ y ∈ xs, y ∉ fsInsert data j x acc := by
        intro y hy hmem
        rcases List.mem_cons.mp (hperm.mem_iff.mp hmem) with rfl | hmem'
        · exact (List.nodup_cons.mp hxs).1 hy
        · exact hfresh y (List.mem_cons_of_mem _ hy) hmem'
      have := ih (fsInsert data j x acc) hsort hnd' hfresh' (List.nodup_cons.mp hxs).2
      refine ⟨this.1, this.2.trans ?_⟩
      refine (hperm.append_right xs).trans ?_
      simp only [List.cons_append]
      exact List.perm_middle.symm

/-- `create_sorted_sets` produces a coherent family over `0, …, N−1`. -/
theorem create_sorted_sets_coherent (data : PData α) :
    Coherent data (List.range data.numRows) (create_sorted_sets data) := by
  constructor
  · simp [create_sorted_sets]
  · intro j hj
    have hgd : (create_sorted_sets data).getD j [] =
        (List.range data.numRows).foldl (fun s i => fsInsert data j i s) [] := by
      unfold create_sorted_sets
      rw [List.getD_eq_getElem?_getD, List.getElem?_map, List.getElem?_range hj]
      rfl
    rw [hgd]
    have := foldl_fsInsert_sortedOf data j (List.range data.numRows) []
      (by simp [Sortedj]) (by simp) (by simp) (List.nodup_range data.numRows)
    simpa using this


/-!  ## Componentwise characterization of the family operations  -/

theorem famInsertFrom_length (data : PData α) (i : Nat) :
    ∀ (fam : Family) (base : Nat), (famInsertFrom data i base fam).length = fam.length := by
  intro fam
  induction fam with
  | nil => intro base; rfl
  | cons s rest ih => intro base; simp [famInsertFrom, ih]

theorem famInsertFrom_getD (data : PData α) (i : Nat) :
    ∀ (fam : Family) (base k : Nat), k < fam.length →
      (famInsertFrom data i base fam).getD k [] =
        fsInsert data (base + k) i (fam.getD k []) := by
  intro fam
  induction fam with
  | nil => intro base k h; simp at h
  | cons s rest ih =>
      intro base k h
      cases k with
      | zero => simp [famInsertFrom]
      | succ k' =>
          have h' : k' < rest.length := by simpa using h
          have := ih (base + 1) k' h'
          simp only [famInsertFrom, List.getD_cons_succ]
          rw [this]
          congr 1
          omega

theorem famInsert_length (data : PData α) (i : Nat) (fam : Family) :
    (famInsert data i fam).length = fam.length :=
  famInsertFrom_length data i fam 0

theorem famInsert_getD (data : PData α) (i : Nat) (fam : Family) (k : Nat)
    (h : k < fam.length) :
    (famInsert data i fam).getD k [] = fsInsert data k i (fam.getD k []) := by
  have := famInsertFrom_getD data i fam 0 k h
  simpa using this

theorem famErase_length (i : Nat) (fam : Family) :
    (famErase i fam).length = fam.length := by
  simp [famErase]

theorem famErase_getD (i : Nat) (fam : Family) (k : Nat) (h : k < fam.length) :
    (famErase i fam).getD k [] = (fam.getD k []).erase i := by
  unfold famErase
  rw [List.getD_eq_getElem?_getD, List.getElem?_map,
    List.getD_eq_getElem?_getD, List.getElem?_eq_getElem h]
  rfl

theorem leftState_length (data : PData α) :
    ∀ (pref : List Nat) (fam : Family),
      (leftState data pref fam).length = fam.length := by
  intro pref
  induction pref with
  | nil => intro fam; rfl
  | cons x xs ih =>
      intro fam
      show (leftState data xs (famInsert data x fam)).length = fam.length
      rw [ih, famInsert_length]

theorem rightState_length :
    ∀ (pref : List Nat) (fam : Family),
      (rightState pref fam).length = fam.length := by
  intro pref
  induction pref with
  | nil => intro fam; rfl
  | cons x xs ih =>
      intro fam
      show (rightState xs (famErase x fam)).length = fam.length
      rw [ih, famErase_length]

theorem leftState_append (data : PData α) (l₁ l₂ : List Nat) (fam : Family) :
    leftState data (l₁ ++ l₂) fam = leftState data l₂ (leftState data l₁ fam) := by
  simp [leftState, List.foldl_append]

theorem rightState_append (l₁ l₂ : List Nat) (fam : Family) :
    rightState (l₁ ++ l₂) fam = rightState l₂ (rightState l₁ fam) := by
  simp [rightState, List.foldl_append]

/-!  ## The move-state invariant (family coherence)  -/

/-- After `n` moves along the feature-`p` walk, every left set holds
exactly the walked prefix (sorted along its own dimension) and every right
set holds exactly the unwalked suffix. -/
theorem famMoveN_char (data : PData α) {S : List Nat} {sets : Family}
    (hco : Coherent data S sets) (hndS : S.Nodup) (p : Nat) (hp : p < data.numFeatures) :
    ∀ (n : Nat) (j : Nat), j < data.numFeatures →
      SortedOf data j ((sets.getD p []).take n)
        ((famMoveN data (sets.getD p []) n sets).1.getD j []) ∧
      SortedOf data j ((sets.getD p []).drop n)
        ((famMoveN data (sets.getD p []) n sets).2.getD j []) := by
  set pts := sets.getD p [] with hpts
  have hptsS : pts.Perm S := (hco.2 p hp).2
  have hptsnd : pts.Nodup := hptsS.nodup_iff.mpr hndS
  intro n
  induction n with
  | zero =>
      intro j hj
      constructor
      · constructor
        · have hgd : (List.replicate data.numFeatures ([] : List Nat)).getD j [] = [] := by
            rw [List.getD_eq_getElem?_getD, List.getElem?_replicate]
            simp [hj]
          simp [famMoveN, leftState, emptyFamily, Sortedj, hgd]
        · have : (List.replicate data.numFeatures ([] : List Nat)).getD j [] = [] := by
            rw [List.getD_eq_getElem?_getD, List.getElem?_replicate]
            simp [hj]
          simp [famMoveN, leftState, emptyFamily, this]
      · have h1 : (famMoveN data pts 0 sets).2 = sets := rfl
        rw [h1]
        refine ⟨(hco.2 j hj).1, ?_⟩
        simp only [List.drop_zero]
        exact (hco.2 j hj).2.trans hptsS.symm
  | succ n ih =>
      intro j hj
      by_cases hn : n < pts.length
      · have htake : pts.take (n + 1) = pts.take n ++ [pts.get ⟨n, hn⟩] := by
          rw [List.take_succ]
          simp [List.getElem?_eq_getElem hn]
        have hdrop : pts.drop n = pts.get ⟨n, hn⟩ :: pts.drop (n + 1) :=
          List.drop_eq_getElem_cons hn
        set x := pts.get ⟨n, hn⟩ with hx
        have hxtake : x ∉ pts.take n := by
          intro hmem
          have := List.Nodup.sublist (List.take_sublist n pts) hptsnd
          have hxd : x ∈ pts.drop n := by rw [hdrop]; exact List.mem_cons_self _ _
          have hnd2 := hptsnd
          rw [← List.take_append_drop n pts, List.nodup_append] at hnd2
          exact hnd2.2.2 hmem hxd
        have hL : (famMoveN data pts (n + 1) sets).1 =
            famInsert data x (famMoveN data pts n sets).1 := by
          simp only [famMoveN, htake, leftState_append]
          rfl
        have hR : (famMoveN data pts (n + 1) sets).2 =
            famErase x (famMoveN data pts n sets).2 := by
          simp only [famMoveN, htake, rightState_append]
          rfl
        have hlenL : (famMoveN data pts n sets).1.length = data.numFeatures := by
          simp only [famMoveN, leftState_length, emptyFamily, List.length_replicate]
        have hlenR : (famMoveN data pts n sets).2.length = data.numFeatures := by
          simp only [famMoveN, rightState_length]
          exact hco.1
        obtain ⟨⟨ihLs, ihLp⟩, ihRs, ihRp⟩ := ih j hj
        constructor
        · rw [hL, famInsert_getD data x _ j (by rw [hlenL]; exact hj)]
          have hxnotin : x ∉ (famMoveN data pts n sets).1.getD j [] := by
            intro hmem
            exact hxtake (ihLp.mem_iff.mp hmem)
          constructor
          · exact fsInsert_sorted data j x _ ihLs hxnotin
          · refine (fsInsert_perm data j x _ hxnotin).trans ?_
            rw [htake]
            exact (ihLp.cons x).trans (List.perm_append_singleton x _).symm
        · rw [hR, famErase_getD x _ j (by rw [hlenR]; exact hj)]
          constructor
          · exact List.Pairwise.sublist (List.erase_sublist x _) ihRs
          · have : ((famMoveN data pts n sets).2.getD j []).erase x |>.Perm
                ((pts.drop n).erase x) := ihRp.erase x
            refine this.trans ?_
            rw [hdrop, List.erase_cons_head]
      · have hstab : pts.take (n + 1) = pts.take n := by
          rw [List.take_of_length_le (by omega), List.take_of_length_le (by omega)]
        have hstab2 : pts.drop (n + 1) = pts.drop n := by
          rw [List.drop_of_length_le (by omega), List.drop_of_length_le (by omega)]
        have heq : famMoveN data pts (n + 1) sets = famMoveN data pts n sets := by
          simp only [famMoveN, hstab]
        rw [heq, hstab, hstab2]
        exact ih j hj

/-- The right set at the split feature is literally the unwalked suffix:
each move erases its first element. -/
theorem famMoveN_right_at_p (data : PData α) {S : List Nat} {sets : Family}
    (hco : Coherent data S sets) (hndS : S.Nodup) (p : Nat) (hp : p < data.numFeatures) :
    ∀ n : Nat,
      (famMoveN data (sets.getD p []) n sets).2.getD p [] = (sets.getD p []).drop n := by
  set pts := sets.getD p [] with hpts
  have hptsS : pts.Perm S := (hco.2 p hp).2
  have hptsnd : pts.Nodup := hptsS.nodup_iff.mpr hndS
  intro n
  induction n with
  | zero => rfl
  | succ n ih =>
      by_cases hn : n < pts.length
      · have htake : pts.take (n + 1) = pts.take n ++ [pts.get ⟨n, hn⟩] := by
          rw [List.take_succ]
          simp [List.getElem?_eq_getElem hn]
        have hdrop : pts.drop n = pts.get ⟨n, hn⟩ :: pts.drop (n + 1) :=
          List.drop_eq_getElem_cons hn
        have hR : (famMoveN data pts (n + 1) sets).2 =
            famErase (pts.get ⟨n, hn⟩) (famMoveN data pts n sets).2 := by
          simp only [famMoveN, htake, rightState_append]
          rfl
        have hlenR : (famMoveN data pts n sets).2.length = data.numFeatures := by
          simp only [famMoveN, rightState_length]
          exact hco.1
        rw [hR, famErase_getD _ _ p (by rw [hlenR]; exact hp), ih, hdrop,
          List.erase_cons_head]
      · have hstab : pts.take (n + 1) = pts.take n := by
          rw [List.take_of_length_le (by omega), List.take_of_length_le (by omega)]
        have heq : famMoveN data pts (n + 1) sets = famMoveN data pts n sets := by
          simp only [famMoveN, hstab]
        rw [heq, ih]
        rw [List.drop_of_length_le (by omega), List.drop_of_length_le (by omega)]



/-!  ## Sorted prefixes and suffixes  -/

theorem sorted_val_mono (data : PData α) (j : Nat) {l : List Nat} (hs : Sortedj data j l)
    {q q' : Nat} (hq' : q' < l.length) (hle : q ≤ q') :
    data.X (l.getD q 0) j ≤ data.X (l.getD q' 0) j := by
  have hq : q < l.length := lt_of_le_of_lt (le_of_eq rfl) (lt_of_le_of_lt hle hq')
  rcases Nat.lt_or_ge q q' with h | h
  · have := (List.pairwise_iff_getElem.mp hs) q q' hq hq' h
    rw [List.getD_eq_getElem _ _ hq, List.getD_eq_getElem _ _ hq']
    exact CmpLtP.le_val data j this
  · have : q = q' := le_antisymm hle h
    subst this
    exact le_rfl

/-- Every element of the sorted prefix of length `n` has value at most the
value at position `n − 1`. -/
theorem sorted_take_le (data : PData α) (j : Nat) {l : List Nat} (hs : Sortedj data j l)
    {n : Nat} (hn : 0 < n) (hnl : n ≤ l.length) :
    ∀ x ∈ l.take n, data.X x j ≤ data.X (l.getD (n - 1) 0) j := by
  intro x hx
  obtain ⟨q, hq, hqx⟩ := List.mem_iff_getElem.mp hx
  have hq' : q < n := by
    have := hq
    rw [List.length_take] at this
    omega
  have hql : q < l.length := by omega
  have hx' : x = l.getD q 0 := by
    rw [List.getD_eq_getElem _ _ hql]
    rw [← hqx, List.getElem_take]
  rw [hx']
  exact sorted_val_mono data j hs (by omega) (by omega)

/-- Every element of the sorted suffix from position `n` has value at least
the value at position `n`. -/
theorem sorted_drop_ge (data : PData α) (j : Nat) {l : List Nat} (hs : Sortedj data j l)
    {n : Nat} (hnl : n < l.length) :
    ∀ x ∈ l.drop n, data.X (l.getD n 0) j ≤ data.X x j := by
  intro x hx
  obtain ⟨q, hq, hqx⟩ := List.mem_iff_getElem.mp hx
  have hql : n + q < l.length := by
    have := hq
    rw [List.length_drop] at this
    omega
  have hx' : x = l.getD (n + q) 0 := by
    rw [List.getD_eq_getElem _ _ hql]
    rw [← hqx, List.getElem_drop]
  rw [hx']
  exact sorted_val_mono data j hs hql (by omega)

/-!  ## Sums over prefixes and suffixes  -/

theorem cumSum_all (data : PData α) (pts : List Nat) (a : Nat) :
    cumSum data pts a pts.length = rewardSum data pts a := by
  unfold cumSum rewardSum
  rw [List.take_length]

theorem rewardSum_take_drop (data : PData α) (pts : List Nat) (a n : Nat) :
    rewardSum data pts a = cumSum data pts a n + rewardSum data (pts.drop n) a := by
  unfold cumSum rewardSum
  rw [← List.sum_append, ← List.map_append, List.take_append_drop]

theorem cumSum_eq_rewardSum_take (data : PData α) (pts : List Nat) (a n : Nat) :
    cumSum data pts a n = rewardSum data (pts.take n) a := rfl

/-!  ## Policy values  -/

theorem policyValue_perm (data : PData α) {l₁ l₂ : List Nat} (h : l₁.Perm l₂)
    (nd : Node α) : policyValue data l₁ nd = policyValue data l₂ nd :=
  (h.map (fun i => data.Y i (nd.assigned data i))).sum_eq

theorem policyValue_leaf (data : PData α) (S : List Nat) (r : α) (a dd : Nat)
    (css : Family) : policyValue data S (Node.leaf r a dd css) = rewardSum data S a := rfl

/-- Splitting the policy value of an interior node along a position that
separates the observations routed left from those routed right. -/
theorem policyValue_node (data : PData α) (pts : List Nat) (n : Nat) (v : Nat) (vl : α)
    (rw : α) (dd hh : Nat) (l r : Node α) (css : Family)
    (hleft : ∀ i ∈ pts.take n, data.X i v ≤ vl)
    (hright : ∀ i ∈ pts.drop n, ¬ data.X i v ≤ vl) :
    policyValue data pts (Node.split v vl rw dd hh l r css) =
      policyValue data (pts.take n) l + policyValue data (pts.drop n) r := by
  unfold policyValue
  have hsplit : pts = pts.take n ++ pts.drop n := (List.take_append_drop n pts).symm
  conv_lhs => rw [hsplit]
  rw [List.map_append, List.sum_append]
  congr 1
  · apply congrArg
    apply List.map_congr_left
    intro i hi
    have ha : (Node.split v vl rw dd hh l r css).assigned data i = l.assigned data i := by
      show (if data.X i v ≤ vl then l.assigned data i else r.assigned data i) =
        l.assigned data i
      rw [if_pos (hleft i hi)]
    rw [ha]
  · apply congrArg
    apply List.map_congr_left
    intro i hi
    have ha : (Node.split v vl rw dd hh l r css).assigned data i = r.assigned data i := by
      show (if data.X i v ≤ vl then l.assigned data i else r.assigned data i) =
        r.assigned data i
      rw [if_neg (hright i hi)]
    rw [ha]

theorem policyValue2_perm (data : PData α) {l₁ l₂ : List Nat} (h : l₁.Perm l₂)
    (nd : SNode α) : policyValue2 data l₁ nd = policyValue2 data l₂ nd :=
  (h.map (fun i => data.Y i (nd.assigned data i))).sum_eq

theorem policyValue2_leaf (data : PData α) (S : List Nat) (r : α) (a : Nat) :
    policyValue2 data S (SNode.leaf r a) = rewardSum data S a := rfl

theorem policyValue2_node (data : PData α) (pts : List Nat) (n : Nat) (v : Nat) (vl : α)
    (rw : α) (l r : SNode α)
    (hleft : ∀ i ∈ pts.take n, data.X i v ≤ vl)
    (hright : ∀ i ∈ pts.drop n, ¬ data.X i v ≤ vl) :
    policyValue2 data pts (SNode.split v vl rw l r) =
      policyValue2 data (pts.take n) l + policyValue2 data (pts.drop n) r := by
  unfold policyValue2
  have hsplit : pts = pts.take n ++ pts.drop n := (List.take_append_drop n pts).symm
  conv_lhs => rw [hsplit]
  rw [List.map_append, List.sum_append]
  congr 1
  · apply congrArg
    apply List.map_congr_left
    intro i hi
    have ha : (SNode.split v vl rw l r).assigned data i = l.assigned data i := by
      show (if data.X i v ≤ vl then l.assigned data i else r.assigned data i) =
        l.assigned data i
      rw [if_pos (hleft i hi)]
    rw [ha]
  · apply congrArg
    apply List.map_congr_left
    intro i hi
    have ha : (SNode.split v vl rw l r).assigned data i = r.assigned data i := by
      show (if data.X i v ≤ vl then l.assigned data i else r.assigned data i) =
        r.assigned data i
      rw [if_neg (hright i hi)]
    rw [ha]


/-!  ## Soundness of the level-one walk  -/

theorem updL1_cases (best : Option (L1Cand α)) (c : L1Cand α) :
    updL1 best c = some c ∨ updL1 best c = best := by
  cases best with
  | none => exact Or.inl rfl
  | some b =>
      show (if b.bestReward < c.bestReward then some c else some b) = some c ∨
        (if b.bestReward < c.bestReward then some c else some b) = some b
      by_cases h : b.bestReward < c.bestReward
      · rw [if_pos h]; exact Or.inl rfl
      · rw [if_neg h]; exact Or.inr rfl

/-- Any candidate delivered by the level-one walk along feature `p` was
evaluated at an admissible boundary position: position `n'` (1-based count
of the left points) with distinct neighbouring values, both sides at least
`min_node_size`, split value the covariate at position `n' − 1`, and the
left/right best actions given by the cumulative-sum arg-maxima. -/
theorem l1Loop_sound (data : PData α) (p : Nat) (pts0 : List Nat) (m ss mns : Nat)
    (hm : pts0.length = m) (P : L1Cand α → Prop)
    (hP : ∀ n', 0 < n' → n' < m → mns ≤ n' → mns ≤ m - n' →
      data.X (pts0.getD (n' - 1) 0) p ≠ data.X (pts0.getD n' 0) p →
      ∀ la lb ra rb,
        bestOver data.numRewards (fun d => cumSum data pts0 d n') = some (la, lb) →
        bestOver data.numRewards
          (fun d => cumSum data pts0 d m - cumSum data pts0 d n') = some (ra, rb) →
        P ⟨lb + rb, lb, rb, la, ra, p, data.X (pts0.getD (n' - 1) 0) p⟩) :
    ∀ (walk : List Nat) (n sc : Nat) (best : Option (L1Cand α)),
      pts0.drop n = walk →
      (∀ c, best = some c → P c) →
      ∀ c, l1Loop data p pts0 m ss mns walk n sc best = some c → P c := by
  intro walk
  induction walk with
  | nil =>
      intro n sc best hdrop hbest c hc
      rw [l1Loop] at hc
      exact hbest c hc
  | cons i rest ih =>
      intro n sc best hdrop hbest c hc
      cases rest with
      | nil =>
          rw [l1Loop] at hc
          exact hbest c hc
      | cons nx rest' =>
          have hlen : n + 2 ≤ pts0.length := by
            have := congrArg List.length hdrop
            rw [List.length_drop] at this
            simp at this
            omega
          have hn : n < pts0.length := by omega
          have hn1 : n + 1 < pts0.length := by omega
          have hgi : pts0.getD n 0 = i := by
            have h1 := List.drop_eq_getElem_cons hn
            rw [hdrop] at h1
            rw [List.getD_eq_getElem _ _ hn]
            exact (List.cons.injEq _ _ _ _ ▸ h1).1.symm
          have htail : pts0.drop (n + 1) = nx :: rest' := by
            have h1 := List.drop_eq_getElem_cons hn
            rw [hdrop] at h1
            have := (List.cons.injEq _ _ _ _ ▸ h1).2
            exact this.symm
          have hgnx : pts0.getD (n + 1) 0 = nx := by
            have h1 := List.drop_eq_getElem_cons hn1
            rw [htail] at h1
            rw [List.getD_eq_getElem _ _ hn1]
            exact (List.cons.injEq _ _ _ _ ▸ h1).1.symm
          rw [l1Loop] at hc
          by_cases heq : data.X i p = data.X nx p
          · rw [if_pos heq] at hc
            exact ih (n + 1) (sc + 1) best htail hbest c hc
          · rw [if_neg heq] at hc
            by_cases hmnscond : n + 1 < mns ∨ m - (n + 1) < mns
            · rw [if_pos hmnscond] at hc
              exact ih (n + 1) (sc + 1) best htail hbest c hc
            · rw [if_neg hmnscond] at hc
              push_neg at hmnscond
              by_cases hss : ss ≤ sc + 1
              · rw [if_pos hss] at hc
                rcases hbl : bestOver data.numRewards
                    (fun d => cumSum data pts0 d (n + 1)) with _ | la_lb
                · simp only [hbl] at hc
                  exact ih (n + 1) 0 best htail hbest c hc
                · rcases hbr : bestOver data.numRewards
                      (fun d => cumSum data pts0 d m - cumSum data pts0 d (n + 1)) with
                    _ | ra_rb
                  · simp only [hbl, hbr] at hc
                    exact ih (n + 1) 0 best htail hbest c hc
                  · obtain ⟨la, lb⟩ := la_lb
                    obtain ⟨ra, rb⟩ := ra_rb
                    simp only [hbl, hbr] at hc
                    refine ih (n + 1) 0 _ htail ?_ c hc
                    intro c' hc'
                    rcases updL1_cases best
                        ⟨lb + rb, lb, rb, la, ra, p, data.X i p⟩ with he | he
                    · rw [he] at hc'
                      cases hc'
                      have hne' : data.X (pts0.getD (n + 1 - 1) 0) p ≠
                          data.X (pts0.getD (n + 1) 0) p := by
                        rw [show n + 1 - 1 = n from rfl, hgi, hgnx]
                        exact heq
                      have hres := hP (n + 1) (by omega) (by omega) hmnscond.1 hmnscond.2
                        hne' la lb ra rb hbl hbr
                      rw [show n + 1 - 1 = n from rfl, hgi] at hres
                      exact hres
                    · rw [he] at hc'
                      exact hbest c' hc'
              · rw [if_neg hss] at hc
                exact ih (n + 1) (sc + 1) best htail hbest c hc


/-!  ## Dominance of the level-one walk (split_step = 1)  -/

theorem updL1_ge_best (best : Option (L1Cand α)) (c : L1Cand α) :
    bestValL1 best ≤ bestValL1 (updL1 best c) := by
  cases best with
  | none => exact bot_le
  | some b =>
      show bestValL1 (some b) ≤
        bestValL1 (if b.bestReward < c.bestReward then some c else some b)
      by_cases h : b.bestReward < c.bestReward
      · rw [if_pos h]
        show (b.bestReward : WithBot α) ≤ (c.bestReward : WithBot α)
        exact_mod_cast le_of_lt h
      · rw [if_neg h]

theorem updL1_ge_cand (best : Option (L1Cand α)) (c : L1Cand α) :
    (c.bestReward : WithBot α) ≤ bestValL1 (updL1 best c) := by
  cases best with
  | none => exact le_rfl
  | some b =>
      show (c.bestReward : WithBot α) ≤
        bestValL1 (if b.bestReward < c.bestReward then some c else some b)
      by_cases h : b.bestReward < c.bestReward
      · rw [if_pos h]
        exact le_rfl
      · rw [if_neg h]
        show (c.bestReward : WithBot α) ≤ (b.bestReward : WithBot α)
        exact_mod_cast le_of_not_lt h

theorem l1Loop_ge_best (data : PData α) (p : Nat) (pts0 : List Nat) (m ss mns : Nat) :
    ∀ (walk : List Nat) (n sc : Nat) (best : Option (L1Cand α)),
      bestValL1 best ≤ bestValL1 (l1Loop data p pts0 m ss mns walk n sc best) := by
  intro walk
  induction walk with
  | nil => intro n sc best; rw [l1Loop]
  | cons i rest ih =>
      intro n sc best
      cases rest with
      | nil => rw [l1Loop]
      | cons nx rest' =>
          rw [l1Loop]
          split_ifs with h1 h2 h3
          · exact ih (n + 1) (sc + 1) best
          · exact ih (n + 1) (sc + 1) best
          · rcases hbl : bestOver data.numRewards
                (fun d => cumSum data pts0 d (n + 1)) with _ | lab
            · simp only [hbl]
              exact ih (n + 1) 0 best
            · rcases hbr : bestOver data.numRewards
                  (fun d => cumSum data pts0 d m - cumSum data pts0 d (n + 1)) with _ | rab
              · simp only [hbl, hbr]
                exact ih (n + 1) 0 best
              · obtain ⟨la, lb⟩ := lab
                obtain ⟨ra, rb⟩ := rab
                simp only [hbl, hbr]
                exact le_trans (updL1_ge_best best _) (ih (n + 1) 0 _)
          · exact ih (n + 1) (sc + 1) best

/-- With `split_step = 1`, every admissible boundary still ahead of the
walk is evaluated, so the final best reward dominates its candidate
reward. -/
theorem l1Loop_dominates (data : PData α) (p : Nat) (pts0 : List Nat) (m mns : Nat)
    (hm : pts0.length = m) :
    ∀ (walk : List Nat) (n sc : Nat) (best : Option (L1Cand α)),
      pts0.drop n = walk →
      ∀ n', n < n' → n' < m → mns ≤ n' → mns ≤ m - n' →
        data.X (pts0.getD (n' - 1) 0) p ≠ data.X (pts0.getD n' 0) p →
        ∀ la lb ra rb,
          bestOver data.numRewards (fun d => cumSum data pts0 d n') = some (la, lb) →
          bestOver data.numRewards
            (fun d => cumSum data pts0 d m - cumSum data pts0 d n') = some (ra, rb) →
          ((lb + rb : α) : WithBot α) ≤
            bestValL1 (l1Loop data p pts0 m 1 mns walk n sc best) := by
  intro walk
  induction walk with
  | nil =>
      intro n sc best hdrop n' hn' hn'm _ _ _ la lb ra rb _ _
      exfalso
      have := congrArg List.length hdrop
      rw [List.length_drop] at this
      simp at this
      omega
  | cons i rest ih =>
      intro n sc best hdrop n' hn' hn'm hmns1 hmns2 hne la lb ra rb hbl hbr
      cases rest with
      | nil =>
          exfalso
          have := congrArg List.length hdrop
          rw [List.length_drop] at this
          simp at this
          omega
      | cons nx rest' =>
          have hlen : n + 2 ≤ pts0.length := by
            have := congrArg List.length hdrop
            rw [List.length_drop] at this
            simp at this
            omega
          have hn : n < pts0.length := by omega
          have hn1 : n + 1 < pts0.length := by omega
          have hgi : pts0.getD n 0 = i := by
            have h1 := List.drop_eq_getElem_cons hn
            rw [hdrop] at h1
            rw [List.getD_eq_getElem _ _ hn]
            exact (List.cons.injEq _ _ _ _ ▸ h1).1.symm
          have htail : pts0.drop (n + 1) = nx :: rest' := by
            have h1 := List.drop_eq_getElem_cons hn
            rw [hdrop] at h1
            exact ((List.cons.injEq _ _ _ _ ▸ h1).2).symm
          have hgnx : pts0.getD (n + 1) 0 = nx := by
            have h1 := List.drop_eq_getElem_cons hn1
            rw [htail] at h1
            rw [List.getD_eq_getElem _ _ hn1]
            exact (List.cons.injEq _ _ _ _ ▸ h1).1.symm
          rw [l1Loop]
          by_cases hcase : n' = n + 1
          · subst hcase
            have hne' : ¬ data.X i p = data.X nx p := by
              rw [← hgi, ← hgnx]
              simpa using hne
            rw [if_neg hne']
            have hguard : ¬(n + 1 < mns ∨ m - (n + 1) < mns) := by
              push_neg
              omega
            rw [if_neg hguard, if_pos (by omega : 1 ≤ sc + 1)]
            simp only [hbl, hbr]
            exact le_trans (updL1_ge_cand best ⟨lb + rb, lb, rb, la, ra, p, data.X i p⟩)
              (l1Loop_ge_best data p pts0 m 1 mns _ _ _ _)
          · have hstep : ∀ sc' best', ((lb + rb : α) : WithBot α) ≤
                bestValL1 (l1Loop data p pts0 m 1 mns (nx :: rest') (n + 1) sc' best') := by
              intro sc' best'
              exact ih (n + 1) sc' best' htail n' (by omega) hn'm hmns1 hmns2 hne
                la lb ra rb hbl hbr
            split_ifs with h1 h2 h3
            · exact hstep (sc + 1) best
            · exact hstep (sc + 1) best
            · rcases hbl2 : bestOver data.numRewards
                  (fun d => cumSum data pts0 d (n + 1)) with _ | lab
              · simp only [hbl2]
                exact hstep 0 best
              · rcases hbr2 : bestOver data.numRewards
                    (fun d => cumSum data pts0 d m - cumSum data pts0 d (n + 1)) with _ | rab
                · simp only [hbl2, hbr2]
                  exact hstep 0 best
                · obtain ⟨la2, lb2⟩ := lab
                  obtain ⟨ra2, rb2⟩ := rab
                  simp only [hbl2, hbr2]
                  exact hstep 0 _
            · exact hstep (sc + 1) best

/-!  ## Lifting bounds through the feature fold  -/

theorem foldl_val_ge {β γ : Type} (f : γ → β → γ) (val : γ → WithBot α)
    (hmono : ∀ acc b, val acc ≤ val (f acc b)) :
    ∀ (l : List β) (acc : γ), val acc ≤ val (l.foldl f acc) := by
  intro l
  induction l with
  | nil => intro acc; exact le_rfl
  | cons b bs ih => intro acc; exact le_trans (hmono acc b) (ih (f acc b))

theorem foldl_le_of_mem {β γ : Type} (f : γ → β → γ) (val : γ → WithBot α)
    (x : WithBot α) (p : β)
    (hmono : ∀ acc b, val acc ≤ val (f acc b))
    (hp : ∀ acc, x ≤ val (f acc p)) :
    ∀ (l : List β) (acc : γ), p ∈ l → x ≤ val (l.foldl f acc) := by
  intro l
  induction l with
  | nil => intro acc h; cases h
  | cons b bs ih =>
      intro acc hmem
      rcases List.mem_cons.mp hmem with rfl | hmem'
      · exact le_trans (hp acc) (foldl_val_ge f val hmono bs (f acc p))
      · exact ih (f acc b) hmem'


/-!  ## Coherence helpers  -/

theorem foldl_preserve_mem {β γ : Type} (P : γ → Prop) (f : γ → β → γ) :
    ∀ (l : List β) (init : γ), P init → (∀ acc b, b ∈ l → P acc → P (f acc b)) →
      P (l.foldl f init) := by
  intro l
  induction l with
  | nil => intro init h0 _; exact h0
  | cons x xs ih =>
      intro init h0 hstep
      exact ih (f init x) (hstep init x (List.mem_cons_self x xs) h0)
        (fun acc b hb => hstep acc b (List.mem_cons_of_mem x hb))

theorem coherent_getD_len (data : PData α) {S : List Nat} {sets : Family}
    (hco : Coherent data S sets) {p : Nat} (hp : p < data.numFeatures) :
    (sets.getD p []).length = S.length :=
  (hco.2 p hp).2.length_eq

theorem coherent_headD (data : PData α) {S : List Nat} {sets : Family}
    (hco : Coherent data S sets) (hp : 0 < data.numFeatures) :
    sets.headD [] = sets.getD 0 [] := by
  cases hcs : sets with
  | nil =>
      exfalso
      have := hco.1
      rw [hcs] at this
      simp at this
      omega
  | cons s rest => rfl

/-- Neighbouring sorted values that differ are strictly increasing. -/
theorem sorted_ne_lt (data : PData α) (j : Nat) {l : List Nat} (hs : Sortedj data j l)
    {n' : Nat} (h0 : 0 < n') (hn : n' < l.length)
    (hne : data.X (l.getD (n' - 1) 0) j ≠ data.X (l.getD n' 0) j) :
    data.X (l.getD (n' - 1) 0) j < data.X (l.getD n' 0) j :=
  lt_of_le_of_ne (sorted_val_mono data j hs hn (by omega)) hne

theorem getD_mem_take {l : List Nat} {q n : Nat} (hq : q < n) (hn : n ≤ l.length) :
    l.getD q 0 ∈ l.take n := by
  have hql : q < l.length := by omega
  have hqt : q < (l.take n).length := by
    rw [List.length_take]
    omega
  have : (l.take n)[q] = l[q] := List.getElem_take l
  rw [List.getD_eq_getElem _ _ hql, ← this]
  exact List.getElem_mem _

theorem getD_mem_drop {l : List Nat} {n : Nat} (hn : n < l.length) :
    l.getD n 0 ∈ l.drop n := by
  rw [List.drop_eq_getElem_cons hn, List.getD_eq_getElem _ _ hn]
  exact List.mem_cons_self _ _

/-!  ## Trees of the brute-force space  -/

theorem PTree.depth_zero {T : PTree α} (h : T.depth = 0) : ∃ a, T = PTree.act a := by
  cases T with
  | act a => exact ⟨a, rfl⟩
  | branch j t l r => simp [PTree.depth] at h

theorem treeValue_perm (data : PData α) {l₁ l₂ : List Nat} (h : l₁.Perm l₂)
    (T : PTree α) : treeValue data l₁ T = treeValue data l₂ T :=
  (h.map (fun i => data.Y i (T.route data i))).sum_eq

theorem treeValue_act (data : PData α) (S : List Nat) (a : Nat) :
    treeValue data S (PTree.act a) = rewardSum data S a := rfl

theorem treeValue_branch (data : PData α) (pts : List Nat) (n : Nat) (j : Nat) (tq : α)
    (l r : PTree α)
    (hleft : ∀ i ∈ pts.take n, data.X i j ≤ tq)
    (hright : ∀ i ∈ pts.drop n, ¬ data.X i j ≤ tq) :
    treeValue data pts (PTree.branch j tq l r) =
      treeValue data (pts.take n) l + treeValue data (pts.drop n) r := by
  unfold treeValue
  have hsplit : pts = pts.take n ++ pts.drop n := (List.take_append_drop n pts).symm
  conv_lhs => rw [hsplit]
  rw [List.map_append, List.sum_append]
  congr 1
  · apply congrArg
    apply List.map_congr_left
    intro i hi
    have ha : (PTree.branch j tq l r).route data i = l.route data i := by
      show (if data.X i j ≤ tq then l.route data i else r.route data i) = l.route data i
      rw [if_pos (hleft i hi)]
    rw [ha]
  · apply congrArg
    apply List.map_congr_left
    intro i hi
    have ha : (PTree.branch j tq l r).route data i = r.route data i := by
      show (if data.X i j ≤ tq then l.route data i else r.route data i) = r.route data i
      rw [if_neg (hright i hi)]
    rw [ha]

theorem toPTree_route (data : PData α) (i : Nat) :
    ∀ nd : Node α, nd.toPTree.route data i = nd.assigned data i := by
  intro nd
  induction nd with
  | leaf r a dd css => rfl
  | split v vl r dd hh l rr css ihl ihr =>
      show (if data.X i v ≤ vl then l.toPTree.route data i else rr.toPTree.route data i) = _
      rw [ihl, ihr]
      rfl

theorem treeValue_toPTree (data : PData α) (S : List Nat) (nd : Node α) :
    treeValue data S nd.toPTree = policyValue data S nd := by
  unfold treeValue policyValue
  apply congrArg
  apply List.map_congr_left
  intro i _
  rw [toPTree_route]

theorem toPTree_route2 (data : PData α) (i : Nat) :
    ∀ nd : SNode α, nd.toPTree.route data i = nd.assigned data i := by
  intro nd
  induction nd with
  | leaf r a => rfl
  | split v vl r l rr ihl ihr =>
      show (if data.X i v ≤ vl then l.toPTree.route data i else rr.toPTree.route data i) = _
      rw [ihl, ihr]
      rfl

theorem treeValue_toPTree2 (data : PData α) (S : List Nat) (nd : SNode α) :
    treeValue data S nd.toPTree = policyValue2 data S nd := by
  unfold treeValue policyValue2
  apply congrArg
  apply List.map_congr_left
  intro i _
  rw [toPTree_route2]

/-- A sorted list splits at the count of elements satisfying a
threshold test: the prefix passes, the suffix fails. -/
theorem sorted_filter_take (data : PData α) (j : Nat) (tq : α) :
    ∀ l : List Nat, Sortedj data j l →
      (∀ x ∈ l.take (l.countP (fun i => decide (data.X i j ≤ tq))),
        data.X x j ≤ tq) ∧
      (∀ x ∈ l.drop (l.countP (fun i => decide (data.X i j ≤ tq))),
        ¬ data.X x j ≤ tq) := by
  intro l
  induction l with
  | nil => intro _; constructor <;> intro x hx <;> simp at hx
  | cons y ys ih =>
      intro hs
      have hys : Sortedj data j ys := hs.of_cons
      have hrel : ∀ z ∈ ys, CmpLtP data j y z := fun z hz => List.rel_of_pairwise_cons hs hz
      obtain ⟨ihT, ihD⟩ := ih hys
      by_cases hy : data.X y j ≤ tq
      · rw [List.countP_cons_of_pos _ _ (by simpa using hy)]
        constructor
        · intro x hx
          rw [List.take_succ_cons] at hx
          rcases List.mem_cons.mp hx with rfl | hx'
          · exact hy
          · exact ihT x hx'
        · intro x hx
          rw [List.drop_succ_cons] at hx
          exact ihD x hx
      · have hall : ∀ z ∈ ys, ¬ data.X z j ≤ tq := by
          intro z hz hle
          exact hy (le_trans (CmpLtP.le_val data j (hrel z hz)) hle)
        have hcnt : (y :: ys).countP (fun i => decide (data.X i j ≤ tq)) = 0 := by
          rw [List.countP_cons_of_neg _ _ (by simpa using hy)]
          rw [List.countP_eq_zero]
          intro z hz
          simpa using hall z hz
        rw [hcnt]
        constructor
        · intro x hx; simp at hx
        · intro x hx
          rw [List.drop_zero] at hx
          rcases List.mem_cons.mp hx with rfl | hx'
          · exact hy
          · exact hall x hx'



/-!  ## Assembly equations  -/

theorem l1Assemble_some (data : PData α) (sets : Family) (t : Nat) (c : L1Cand α) :
    l1Assemble data sets t (some c) =
      if c.leftA = c.rightA then Node.leaf c.bestReward c.leftA t []
      else Node.split c.var c.val c.bestReward t 1
        (Node.leaf c.leftR c.leftA (t + 1) [])
        (Node.leaf c.rightR c.rightA (t + 1) []) sets := rfl

theorem fbsAssemble_some (data : PData α) (sets : Family) (t : Nat) (c : FCand α) :
    fbsAssemble data sets t (some c) =
      if c.lch.isLeaf && c.rch.isLeaf && c.lch.action_id == c.rch.action_id then
        Node.leaf (c.lch.reward + c.rch.reward) c.lch.action_id t sets
      else Node.split c.var c.val (c.lch.reward + c.rch.reward) (t + 1)
        (max c.lch.hgt c.rch.hgt + 1) c.lch c.rch sets := rfl

theorem l1Assemble2_some (data : PData α) (sets : Family) (c : L1Cand α) :
    l1Assemble2 data sets (some c) =
      if c.leftA = c.rightA then SNode.leaf c.bestReward c.leftA
      else SNode.split c.var c.val c.bestReward
        (SNode.leaf c.leftR c.leftA) (SNode.leaf c.rightR c.rightA) := rfl

/-!  ## The running arg-max over actions  -/

theorem bestOver_spec (vals : Nat → α) :
    ∀ count : Nat,
      (count = 0 → bestOver count vals = none) ∧
      (∀ a r, bestOver count vals = some (a, r) →
        a < count ∧ vals a = r ∧ (∀ d, d < count → vals d ≤ r) ∧
          (∀ d, d < a → vals d < r)) ∧
      (0 < count → (bestOver count vals).isSome = true) := by
  intro count
  induction count with
  | zero =>
      refine ⟨fun _ => rfl, ?_, by omega⟩
      intro a r h
      cases h
  | succ n ih =>
      have hstep : bestOver (n + 1) vals =
          argmaxStep (bestOver n vals) n (vals n) := by
        unfold bestOver
        rw [List.range_succ, List.foldl_append]
        rfl
      refine ⟨by omega, ?_, ?_⟩
      · intro a r h
        rw [hstep] at h
        cases hb : bestOver n vals with
        | none =>
            have hn : n = 0 := by
              by_contra hne
              have := ih.2.2 (by omega)
              rw [hb] at this
              simp at this
            rw [hb] at h
            have h' : (some (n, vals n) : Option (Nat × α)) = some (a, r) := h
            simp only [Option.some.injEq, Prod.mk.injEq] at h'
            obtain ⟨ha, hr⟩ := h'
            subst ha hr
            subst hn
            exact ⟨by omega, rfl, by intro d hd; interval_cases d; exact le_rfl,
              by intro d hd; omega⟩
        | some br =>
            obtain ⟨ba, brv⟩ := br
            obtain ⟨hba, hbv, hble, hbfirst⟩ := ih.2.1 ba brv hb
            rw [hb] at h
            have h' : (if brv < vals n then some (n, vals n) else some (ba, brv)) =
                some (a, r) := h
            by_cases hlt : brv < vals n
            · rw [if_pos hlt] at h'
              simp only [Option.some.injEq, Prod.mk.injEq] at h'
              obtain ⟨ha, hr⟩ := h'
              subst ha hr
              refine ⟨by omega, rfl, ?_, ?_⟩
              · intro d hd
                rcases Nat.lt_succ_iff_lt_or_eq.mp hd with hd' | rfl
                · exact le_of_lt (lt_of_le_of_lt (hble d hd') hlt)
                · exact le_rfl
              · intro d hd
                exact lt_of_le_of_lt (hble d hd) hlt
            · rw [if_neg hlt] at h'
              simp only [Option.some.injEq, Prod.mk.injEq] at h'
              obtain ⟨ha, hr⟩ := h'
              subst ha hr
              refine ⟨by omega, hbv, ?_, hbfirst⟩
              intro d hd
              rcases Nat.lt_succ_iff_lt_or_eq.mp hd with hd' | rfl
              · exact hble d hd'
              · exact le_of_not_lt hlt
      · intro _
        rw [hstep]
        cases hb : bestOver n vals with
        | none => rfl
        | some br =>
            obtain ⟨ba, brv⟩ := br
            show (if brv < vals n then some (n, vals n) else some (ba, brv) :
              Option (Nat × α)).isSome = true
            by_cases hlt : brv < vals n
            · rw [if_pos hlt]; rfl
            · rw [if_neg hlt]; rfl

theorem rewardSum_perm (data : PData α) {l₁ l₂ : List Nat} (h : l₁.Perm l₂) (a : Nat) :
    rewardSum data l₁ a = rewardSum data l₂ a :=
  (h.map (fun i => data.Y i a)).sum_eq

/-- The leaf evaluator returns the first arg-max action over the column
sums of the active set, with its summed reward. -/
theorem level_zero_spec (data : PData α) (sets : Family) (t : Nat)
    (hd : 0 < data.numRewards) :
    (level_zero_learning data sets t).isLeaf = true ∧
    (level_zero_learning data sets t).dep = t ∧
    (level_zero_learning data sets t).action_id < data.numRewards ∧
    (level_zero_learning data sets t).reward =
      rewardSum data (sets.headD []) (level_zero_learning data sets t).action_id ∧
    (∀ a, a < data.numRewards →
      rewardSum data (sets.headD []) a ≤ (level_zero_learning data sets t).reward) ∧
    (∀ a, a < (level_zero_learning data sets t).action_id →
      rewardSum data (sets.headD []) a < (level_zero_learning data sets t).reward) := by
  unfold level_zero_learning
  cases hb : bestOver data.numRewards (rewardSum data (sets.headD [])) with
  | none =>
      have := (bestOver_spec (rewardSum data (sets.headD [])) data.numRewards).2.2 hd
      rw [hb] at this
      simp at this
  | some ar =>
      obtain ⟨a, r⟩ := ar
      obtain ⟨ha, hv, hle, hfirst⟩ :=
        (bestOver_spec (rewardSum data (sets.headD [])) data.numRewards).2.1 a r hb
      exact ⟨rfl, rfl, ha, hv.symm, hle, hfirst⟩

/-!  ## The value invariant at levels 0 and 1  -/

theorem level_zero_value (data : PData α) {S : List Nat} {sets : Family}
    (hco : Coherent data S sets) (hd : 0 < data.numRewards) (hp : 0 < data.numFeatures)
    (t : Nat) :
    policyValue data S (level_zero_learning data sets t) =
      (level_zero_learning data sets t).reward := by
  unfold level_zero_learning
  cases hb : bestOver data.numRewards (rewardSum data (sets.headD [])) with
  | none =>
      have := (bestOver_spec (rewardSum data (sets.headD [])) data.numRewards).2.2 hd
      rw [hb] at this
      simp at this
  | some ar =>
      obtain ⟨a, r⟩ := ar
      obtain ⟨_, hv, _, _⟩ :=
        (bestOver_spec (rewardSum data (sets.headD [])) data.numRewards).2.1 a r hb
      rw [policyValue_leaf]
      show rewardSum data S a = r
      rw [← hv, coherent_headD data hco hp]
      exact rewardSum_perm data (hco.2 0 hp).2.symm a

theorem l1Best_sound (data : PData α) {S : List Nat} {sets : Family}
    (hco : Coherent data S sets) (ss mns : Nat) (hp : 0 < data.numFeatures) :
    ∀ c, l1Best data sets ss mns = some c →
      L1CandOK data sets (sets.headD []).length mns c := by
  unfold l1Best
  refine foldl_preserve_mem
    (fun b : Option (L1Cand α) => ∀ c : L1Cand α,
      b = some c → L1CandOK data sets (sets.headD []).length mns c)
    _ _ _ (by intro c h; cases h) ?_
  intro acc p hpmem hacc
  have hplt : p < data.numFeatures := List.mem_range.mp hpmem
  have hm : (sets.getD p []).length = (sets.headD []).length := by
    rw [coherent_getD_len data hco hplt, coherent_headD data hco hp,
        coherent_getD_len data hco hp]
  refine l1Loop_sound data p (sets.getD p []) (sets.headD []).length ss mns hm
    (L1CandOK data sets (sets.headD []).length mns) ?_ (sets.getD p []) 0 0 acc rfl hacc
  intro n' h1 h2 h3 h4 h5 la lb ra rb hbl hbr
  exact ⟨p, n', hplt, h1, h2, h3, h4, h5, hbl, hbr, rfl, rfl, rfl⟩

/-- The depth-1 evaluator's reported reward is the total reward collected
when the active observations follow the returned tree. -/
theorem level_one_value (data : PData α) {S : List Nat} {sets : Family}
    (hco : Coherent data S sets) (hd : 0 < data.numRewards) (hp : 0 < data.numFeatures)
    (ss mns t : Nat) :
    policyValue data S (level_one_learning data sets ss mns t) =
      (level_one_learning data sets ss mns t).reward := by
  unfold level_one_learning
  cases hb : l1Best data sets ss mns with
  | none => exact level_zero_value data hco hd hp (t + 1)
  | some c =>
      obtain ⟨p, n', hplt, hn0, hnm, hmns1, hmns2, hne, hbl, hbr, hvar, hval, hbrw⟩ :=
        l1Best_sound data hco ss mns hp c hb
      have hsort : Sortedj data p (sets.getD p []) := (hco.2 p hplt).1
      have hperm : (sets.getD p []).Perm S := (hco.2 p hplt).2
      have hmlen : (sets.getD p []).length = (sets.headD []).length := by
        rw [coherent_getD_len data hco hplt, coherent_headD data hco hp,
            coherent_getD_len data hco hp]
      obtain ⟨hlaD, hlb, _, _⟩ :=
        (bestOver_spec (fun d => cumSum data (sets.getD p []) d n') data.numRewards).2.1
          _ _ hbl
      obtain ⟨hraD, hrb, _, _⟩ :=
        (bestOver_spec (fun d => cumSum data (sets.getD p []) d (sets.headD []).length -
          cumSum data (sets.getD p []) d n') data.numRewards).2.1 _ _ hbr
      rw [← hmlen, cumSum_all] at hrb
      rw [l1Assemble_some]
      by_cases hAA : c.leftA = c.rightA
      · rw [if_pos hAA]
        rw [policyValue_leaf]
        show rewardSum data S c.leftA = c.bestReward
        rw [hbrw, ← hlb, ← hrb, ← hAA]
        rw [rewardSum_perm data hperm.symm c.leftA]
        abel
      · rw [if_neg hAA]
        have hlt : data.X ((sets.getD p []).getD (n' - 1) 0) p <
            data.X ((sets.getD p []).getD n' 0) p :=
          sorted_ne_lt data p hsort hn0 (by omega : n' < (sets.getD p []).length) hne
        have hleft : ∀ i ∈ (sets.getD p []).take n', data.X i c.var ≤ c.val := by
          intro i hi
          rw [hvar, hval]
          exact sorted_take_le data p hsort hn0 (by omega) i hi
        have hright : ∀ i ∈ (sets.getD p []).drop n', ¬ data.X i c.var ≤ c.val := by
          intro i hi
          rw [hvar, hval]
          intro hle
          have := sorted_drop_ge data p hsort (by omega : n' < (sets.getD p []).length) i hi
          exact absurd (le_trans this hle) (not_le_of_lt hlt)
        rw [← policyValue_perm data hperm]
        rw [policyValue_node data (sets.getD p []) n' c.var c.val c.bestReward t 1
          (Node.leaf c.leftR c.leftA (t + 1) []) (Node.leaf c.rightR c.rightA (t + 1) [])
          sets hleft hright]
        rw [policyValue_leaf, policyValue_leaf]
        show rewardSum data ((sets.getD p []).take n') c.leftA +
          rewardSum data ((sets.getD p []).drop n') c.rightA = c.bestReward
        rw [hbrw, ← hlb, ← hrb]
        rw [← cumSum_eq_rewardSum_take]
        have hsplit := rewardSum_take_drop data (sets.getD p []) c.rightA n'
        have : rewardSum data ((sets.getD p []).drop n') c.rightA =
            rewardSum data (sets.getD p []) c.rightA -
              cumSum data (sets.getD p []) c.rightA n' := by
          rw [hsplit]
          abel
        rw [this]


/-!  ## Level-one optimality  -/

theorem level_zero_colsum_le (data : PData α) {S : List Nat} {sets : Family}
    (hco : Coherent data S sets) (hd : 0 < data.numRewards) (hp : 0 < data.numFeatures)
    (t : Nat) {a : Nat} (ha : a < data.numRewards) :
    rewardSum data S a ≤ (level_zero_learning data sets t).reward := by
  obtain ⟨_, _, _, _, h5, _⟩ := level_zero_spec data sets t hd
  have := h5 a ha
  rw [coherent_headD data hco hp] at this
  rwa [rewardSum_perm data (hco.2 0 hp).2 a] at this

theorem level_one_reward_some (data : PData α) (sets : Family) (ss mns t : Nat)
    (c : L1Cand α) (hb : l1Best data sets ss mns = some c) :
    (level_one_learning data sets ss mns t).reward = c.bestReward := by
  unfold level_one_learning
  rw [hb, l1Assemble_some]
  by_cases hAA : c.leftA = c.rightA
  · rw [if_pos hAA]; rfl
  · rw [if_neg hAA]; rfl

theorem level_one_colsum_le (data : PData α) {S : List Nat} {sets : Family}
    (hco : Coherent data S sets) (hd : 0 < data.numRewards) (hp : 0 < data.numFeatures)
    (ss mns t : Nat) {a : Nat} (ha : a < data.numRewards) :
    rewardSum data S a ≤ (level_one_learning data sets ss mns t).reward := by
  cases hb : l1Best data sets ss mns with
  | none =>
      have : level_one_learning data sets ss mns t = level_zero_learning data sets (t + 1) := by
        unfold level_one_learning
        rw [hb]
        rfl
      rw [this]
      exact level_zero_colsum_le data hco hd hp (t + 1) ha
  | some c =>
      rw [level_one_reward_some data sets ss mns t c hb]
      obtain ⟨p, n', hplt, hn0, hnm, hmns1, hmns2, hne, hbl, hbr, hvar, hval, hbrw⟩ :=
        l1Best_sound data hco ss mns hp c hb
      have hmlen : (sets.getD p []).length = (sets.headD []).length := by
        rw [coherent_getD_len data hco hplt, coherent_headD data hco hp,
            coherent_getD_len data hco hp]
      have hleb := (bestOver_spec (fun d => cumSum data (sets.getD p []) d n')
        data.numRewards).2.1 _ _ hbl
      have hreb := (bestOver_spec (fun d => cumSum data (sets.getD p []) d
        (sets.headD []).length - cumSum data (sets.getD p []) d n')
        data.numRewards).2.1 _ _ hbr
      have h1 : cumSum data (sets.getD p []) a n' ≤ c.leftR := hleb.2.2.1 a ha
      have h2 : cumSum data (sets.getD p []) a (sets.headD []).length -
          cumSum data (sets.getD p []) a n' ≤ c.rightR := hreb.2.2.1 a ha
      rw [← hmlen, cumSum_all] at h2
      have hsum : rewardSum data S a = rewardSum data (sets.getD p []) a :=
        rewardSum_perm data (hco.2 p hplt).2.symm a
      rw [hsum, hbrw]
      have : rewardSum data (sets.getD p []) a =
          cumSum data (sets.getD p []) a n' +
            (rewardSum data (sets.getD p []) a - cumSum data (sets.getD p []) a n') := by
        abel
      rw [this]
      exact add_le_add h1 h2

/-- With `split_step = 1`, the final best reward of the depth-1 feature
fold dominates the candidate reward of every admissible boundary. -/
theorem l1Best_dominates (data : PData α) {S : List Nat} {sets : Family}
    (hco : Coherent data S sets) (hp0 : 0 < data.numFeatures) (mns : Nat)
    (p n' : Nat) (hplt : p < data.numFeatures) (hn0 : 0 < n')
    (hnm : n' < (sets.headD []).length)
    (hmns1 : mns ≤ n') (hmns2 : mns ≤ (sets.headD []).length - n')
    (hne : data.X ((sets.getD p []).getD (n' - 1) 0) p ≠
      data.X ((sets.getD p []).getD n' 0) p)
    (la ra : Nat) (lb rb : α)
    (hbl : bestOver data.numRewards (fun d => cumSum data (sets.getD p []) d n') =
      some (la, lb))
    (hbr : bestOver data.numRewards (fun d => cumSum data (sets.getD p []) d
      (sets.headD []).length - cumSum data (sets.getD p []) d n') = some (ra, rb)) :
    ((lb + rb : α) : WithBot α) ≤ bestValL1 (l1Best data sets 1 mns) := by
  have hm : (sets.getD p []).length = (sets.headD []).length := by
    rw [coherent_getD_len data hco hplt, coherent_headD data hco hp0,
        coherent_getD_len data hco hp0]
  unfold l1Best
  refine foldl_le_of_mem _ bestValL1 _ p
    (fun acc b => l1Loop_ge_best data b (sets.getD b []) (sets.headD []).length 1 mns
      (sets.getD b []) 0 0 acc)
    ?_ (List.range data.numFeatures) none (List.mem_range.mpr hplt)
  intro acc
  exact l1Loop_dominates data p (sets.getD p []) (sets.headD []).length mns hm
    (sets.getD p []) 0 0 acc rfl n' hn0 hnm hmns1 hmns2 hne la lb ra rb hbl hbr

/-- The depth-1 evaluator at `split_step = 1`, `min_node_size = 1` is
optimal among valid policy trees of depth at most 1. -/
theorem level_one_upper (data : PData α) {S : List Nat} {sets : Family}
    (hco : Coherent data S sets) (hd : 0 < data.numRewards) (hp : 0 < data.numFeatures)
    (t : Nat) :
    ∀ T : PTree α, T.valid data → T.depth ≤ 1 →
      treeValue data S T ≤ (level_one_learning data sets 1 1 t).reward := by
  intro T hvalid hdep
  cases T with
  | act a => exact level_one_colsum_le data hco hd hp 1 1 t hvalid
  | branch j tq l r =>
      have hdl : l.depth = 0 := by
        have := hdep
        simp [PTree.depth] at this
        omega
      have hdr : r.depth = 0 := by
        have := hdep
        simp [PTree.depth] at this
        omega
      obtain ⟨aL, rfl⟩ := PTree.depth_zero hdl
      obtain ⟨aR, rfl⟩ := PTree.depth_zero hdr
      obtain ⟨hj, haL, haR⟩ := hvalid
      have hsort : Sortedj data j (sets.getD j []) := (hco.2 j hj).1
      have hperm : (sets.getD j []).Perm S := (hco.2 j hj).2
      have hmlen : (sets.getD j []).length = (sets.headD []).length := by
        rw [coherent_getD_len data hco hj, coherent_headD data hco hp,
            coherent_getD_len data hco hp]
      obtain ⟨htake, hdrop⟩ := sorted_filter_take data j tq (sets.getD j []) hsort
      set pts := sets.getD j [] with hpts
      set n₀ := pts.countP (fun i => decide (data.X i j ≤ tq)) with hn₀
      have hn₀le : n₀ ≤ pts.length := List.countP_le_length _
      rw [← treeValue_perm data hperm]
      rw [treeValue_branch data pts n₀ j tq _ _ htake hdrop]
      rw [treeValue_act, treeValue_act]
      by_cases hzero : n₀ = 0
      · rw [hzero]
        rw [List.take_zero, List.drop_zero]
        have h0 : rewardSum data ([] : List Nat) aL = 0 := rfl
        rw [h0, zero_add]
        calc rewardSum data pts aR = rewardSum data S aR :=
              rewardSum_perm data hperm aR
          _ ≤ _ := level_one_colsum_le data hco hd hp 1 1 t haR
      · by_cases hfull : n₀ = pts.length
        · rw [hfull, List.take_length, List.drop_length]
          have h0 : rewardSum data ([] : List Nat) aR = 0 := rfl
          rw [h0, add_zero]
          calc rewardSum data pts aL = rewardSum data S aL :=
                rewardSum_perm data hperm aL
            _ ≤ _ := level_one_colsum_le data hco hd hp 1 1 t haL
        · have hn₀pos : 0 < n₀ := Nat.pos_of_ne_zero hzero
          have hn₀lt : n₀ < pts.length := lt_of_le_of_ne hn₀le hfull
          have hbnd1 : data.X (pts.getD (n₀ - 1) 0) j ≤ tq :=
            htake _ (getD_mem_take (by omega) hn₀le)
          have hbnd2 : ¬ data.X (pts.getD n₀ 0) j ≤ tq :=
            hdrop _ (getD_mem_drop hn₀lt)
          have hne : data.X (pts.getD (n₀ - 1) 0) j ≠ data.X (pts.getD n₀ 0) j := by
            intro he
            rw [he] at hbnd1
            exact hbnd2 hbnd1
          obtain ⟨labv, hbl⟩ := Option.isSome_iff_exists.mp
            ((bestOver_spec (fun d => cumSum data pts d n₀) data.numRewards).2.2 hd)
          obtain ⟨rabv, hbr⟩ := Option.isSome_iff_exists.mp
            ((bestOver_spec (fun d => cumSum data pts d (sets.headD []).length -
              cumSum data pts d n₀) data.numRewards).2.2 hd)
          obtain ⟨la, lb⟩ := labv
          obtain ⟨ra, rb⟩ := rabv
          have hleb := (bestOver_spec (fun d => cumSum data pts d n₀)
            data.numRewards).2.1 _ _ hbl
          have hreb := (bestOver_spec (fun d => cumSum data pts d
            (sets.headD []).length - cumSum data pts d n₀) data.numRewards).2.1 _ _ hbr
          have hL : rewardSum data (pts.take n₀) aL ≤ lb := by
            rw [← cumSum_eq_rewardSum_take]
            exact hleb.2.2.1 aL haL
          have hR : rewardSum data (pts.drop n₀) aR ≤ rb := by
            have h1 : cumSum data pts aR (sets.headD []).length -
                cumSum data pts aR n₀ ≤ rb := hreb.2.2.1 aR haR
            rw [← hmlen, cumSum_all] at h1
            have h2 : rewardSum data (pts.drop n₀) aR =
                rewardSum data pts aR - cumSum data pts aR n₀ := by
              have := rewardSum_take_drop data pts aR n₀
              rw [this]
              abel
            rw [h2]
            exact h1
          have hdom := l1Best_dominates data hco hp 1 j n₀ hj hn₀pos
            (by omega) (by omega) (by omega) hne la ra lb rb hbl hbr
          cases hbest : l1Best data sets 1 1 with
          | none =>
              rw [hbest] at hdom
              exact absurd hdom (by simp [bestValL1])
          | some c =>
              rw [hbest] at hdom
              have hdom' : lb + rb ≤ c.bestReward := by
                have : bestValL1 (some c) = ((c.bestReward : α) : WithBot α) := rfl
                rw [this] at hdom
                exact_mod_cast hdom
              rw [level_one_reward_some data sets 1 1 t c hbest]
              calc rewardSum data (pts.take n₀) aL + rewardSum data (pts.drop n₀) aR ≤
                lb + rb := add_le_add hL hR
                _ ≤ c.bestReward := hdom'


/-!  ## The incremental move loop of the recursive case  -/

theorem famMoveN_succ_left (data : PData α) (pts : List Nat) (sets : Family) {n : Nat}
    (hn : n < pts.length) :
    (famMoveN data pts (n + 1) sets).1 =
      famInsert data (pts.getD n 0) (famMoveN data pts n sets).1 := by
  have htake : pts.take (n + 1) = pts.take n ++ [pts.getD n 0] := by
    rw [List.take_succ, List.getElem?_eq_getElem hn, List.getD_eq_getElem _ _ hn]
    rfl
  simp only [famMoveN, htake, leftState_append]
  rfl

theorem famMoveN_succ_right (data : PData α) (pts : List Nat) (sets : Family) {n : Nat}
    (hn : n < pts.length) :
    (famMoveN data pts (n + 1) sets).2 =
      famErase (pts.getD n 0) (famMoveN data pts n sets).2 := by
  have htake : pts.take (n + 1) = pts.take n ++ [pts.getD n 0] := by
    rw [List.take_succ, List.getElem?_eq_getElem hn, List.getD_eq_getElem _ _ hn]
    rfl
  simp only [famMoveN, htake, rightState_append]
  rfl

theorem famMoveN_left_length (data : PData α) (pts : List Nat) (n : Nat) (sets : Family) :
    (famMoveN data pts n sets).1.length = data.numFeatures := by
  simp only [famMoveN, leftState_length, emptyFamily, List.length_replicate]

theorem famMoveN_right_length (data : PData α) (pts : List Nat) (n : Nat)
    (sets : Family) : (famMoveN data pts n sets).2.length = sets.length := by
  simp only [famMoveN, rightState_length]

/-- After `n` moves along feature `p`, the left family is a coherent
sorted family of the walked prefix and the right family of the unwalked
suffix. -/
theorem famMoveN_coherent (data : PData α) {S : List Nat} {sets : Family}
    (hco : Coherent data S sets) (hndS : S.Nodup) {p : Nat} (hp : p < data.numFeatures)
    (n : Nat) :
    Coherent data ((sets.getD p []).take n) (famMoveN data (sets.getD p []) n sets).1 ∧
    Coherent data ((sets.getD p []).drop n) (famMoveN data (sets.getD p []) n sets).2 := by
  constructor
  · refine ⟨famMoveN_left_length data _ n sets, ?_⟩
    intro j hj
    exact (famMoveN_char data hco hndS p hp n j hj).1
  · refine ⟨by rw [famMoveN_right_length]; exact hco.1, ?_⟩
    intro j hj
    exact (famMoveN_char data hco hndS p hp n j hj).2

theorem updF_cases (best : Option (FCand α)) (c : FCand α) :
    updF best c = some c ∨ updF best c = best := by
  cases best with
  | none => exact Or.inl rfl
  | some b =>
      show (if b.lch.reward + b.rch.reward < c.lch.reward + c.rch.reward
          then some c else some b) = some c ∨
        (if b.lch.reward + b.rch.reward < c.lch.reward + c.rch.reward
          then some c else some b) = some b
      by_cases h : b.lch.reward + b.rch.reward < c.lch.reward + c.rch.reward
      · rw [if_pos h]; exact Or.inl rfl
      · rw [if_neg h]; exact Or.inr rfl

/-- Any candidate delivered by the recursive-case walk along feature `p`
was evaluated at an admissible boundary, with children the one-level-lower
searches of the walked-prefix and unwalked-suffix families. -/
theorem fbsLoop_sound (data : PData α) (rec : Family → Node α) {S : List Nat}
    {sets : Family} (hco : Coherent data S sets) (hndS : S.Nodup)
    (p : Nat) (hp : p < data.numFeatures) (m ss mns : Nat) (P : FCand α → Prop)
    (hP : ∀ n', 0 < n' → n' < m → mns ≤ n' → mns ≤ m - n' →
      ¬ data.X ((sets.getD p []).getD n' 0) p ≤
        data.X ((sets.getD p []).getD (n' - 1) 0) p →
      P ⟨p, data.X ((sets.getD p []).getD (n' - 1) 0) p,
          rec (famMoveN data (sets.getD p []) n' sets).1,
          rec (famMoveN data (sets.getD p []) n' sets).2⟩)
    (hm : (sets.getD p []).length = m) :
    ∀ (k n sc : Nat) (best : Option (FCand α)),
      (∀ c, best = some c → P c) →
      ∀ c, fbsLoop data rec p m ss mns k
          (famMoveN data (sets.getD p []) n sets).1
          (famMoveN data (sets.getD p []) n sets).2 n sc best = some c → P c := by
  intro k
  induction k with
  | zero => intro n sc best hbest c hc; exact hbest c hc
  | succ k ih =>
      intro n sc best hbest c hc
      rw [fbsLoop] at hc
      rw [famMoveN_right_at_p data hco hndS p hp n] at hc
      rcases hhead : ((sets.getD p []).drop n).head? with _ | i
      · rw [hhead] at hc
        exact hbest c hc
      · rw [hhead] at hc
        have hn : n < (sets.getD p []).length := by
          by_contra h
          rw [List.drop_of_length_le (by omega)] at hhead
          cases hhead
        have hgi : (sets.getD p []).getD n 0 = i := by
          rw [List.drop_eq_getElem_cons hn, List.head?_cons] at hhead
          rw [List.getD_eq_getElem _ _ hn]
          exact Option.some.inj hhead
        have hLs : famInsert data i (famMoveN data (sets.getD p []) n sets).1 =
            (famMoveN data (sets.getD p []) (n + 1) sets).1 := by
          rw [famMoveN_succ_left data _ sets hn, hgi]
        have hRs : famErase i (famMoveN data (sets.getD p []) n sets).2 =
            (famMoveN data (sets.getD p []) (n + 1) sets).2 := by
          rw [famMoveN_succ_right data _ sets hn, hgi]
        rcases hhead2 :
            ((famErase i (famMoveN data (sets.getD p []) n sets).2).getD p []).head?
            with _ | nx
        · simp only [hhead2] at hc
          exact hbest c hc
        · simp only [hhead2] at hc
          rw [hRs, famMoveN_right_at_p data hco hndS p hp (n + 1)] at hhead2
          have hn1 : n + 1 < (sets.getD p []).length := by
            by_contra h
            rw [List.drop_of_length_le (by omega)] at hhead2
            cases hhead2
          have hgnx : (sets.getD p []).getD (n + 1) 0 = nx := by
            rw [List.drop_eq_getElem_cons hn1, List.head?_cons] at hhead2
            rw [List.getD_eq_getElem _ _ hn1]
            exact Option.some.inj hhead2
          rw [hLs, hRs] at hc
          split_ifs at hc with h1 h2 h3
          · exact ih (n + 1) (sc + 1) best hbest c hc
          · exact ih (n + 1) (sc + 1) best hbest c hc
          · refine ih (n + 1) 0 _ ?_ c hc
            intro c' hc'
            rcases updF_cases best ⟨p, data.X i p,
                rec (famMoveN data (sets.getD p []) (n + 1) sets).1,
                rec (famMoveN data (sets.getD p []) (n + 1) sets).2⟩ with he | he
            · rw [he] at hc'
              cases hc'
              push_neg at h2
              have hne : ¬ data.X ((sets.getD p []).getD (n + 1) 0) p ≤
                  data.X ((sets.getD p []).getD (n + 1 - 1) 0) p := by
                rw [show n + 1 - 1 = n from rfl, hgi, hgnx]
                exact h1
              have hres := hP (n + 1) (by omega) (by omega) h2.1 h2.2 hne
              rw [show n + 1 - 1 = n from rfl, hgi] at hres
              exact hres
            · rw [he] at hc'
              exact hbest c' hc'
          · exact ih (n + 1) (sc + 1) best hbest c hc

theorem updF_ge_best (best : Option (FCand α)) (c : FCand α) :
    bestValF best ≤ bestValF (updF best c) := by
  cases best with
  | none => exact bot_le
  | some b =>
      show bestValF (some b) ≤ bestValF
        (if b.lch.reward + b.rch.reward < c.lch.reward + c.rch.reward
          then some c else some b)
      by_cases h : b.lch.reward + b.rch.reward < c.lch.reward + c.rch.reward
      · rw [if_pos h]
        show ((b.lch.reward + b.rch.reward : α) : WithBot α) ≤
          ((c.lch.reward + c.rch.reward : α) : WithBot α)
        exact_mod_cast le_of_lt h
      · rw [if_neg h]

theorem updF_ge_cand (best : Option (FCand α)) (c : FCand α) :
    ((c.lch.reward + c.rch.reward : α) : WithBot α) ≤ bestValF (updF best c) := by
  cases best with
  | none => exact le_rfl
  | some b =>
      show ((c.lch.reward + c.rch.reward : α) : WithBot α) ≤ bestValF
        (if b.lch.reward + b.rch.reward < c.lch.reward + c.rch.reward
          then some c else some b)
      by_cases h : b.lch.reward + b.rch.reward < c.lch.reward + c.rch.reward
      · rw [if_pos h]
        exact le_rfl
      · rw [if_neg h]
        show ((c.lch.reward + c.rch.reward : α) : WithBot α) ≤
          ((b.lch.reward + b.rch.reward : α) : WithBot α)
        exact_mod_cast le_of_not_lt h

theorem fbsLoop_ge_best (data : PData α) (rec : Family → Node α) (p m ss mns : Nat) :
    ∀ (k : Nat) (left right : Family) (n sc : Nat) (best : Option (FCand α)),
      bestValF best ≤ bestValF (fbsLoop data rec p m ss mns k left right n sc best) := by
  intro k
  induction k with
  | zero => intro left right n sc best; exact le_rfl
  | succ k ih =>
      intro left right n sc best
      rw [fbsLoop]
      rcases hhead : (right.getD p []).head? with _ | i
      · exact le_rfl
      · rcases hhead2 : ((famErase i right).getD p []).head? with _ | nx
        · simp only [hhead2]
          exact le_rfl
        · simp only [hhead2]
          split_ifs with h1 h2 h3
          · exact ih _ _ _ _ best
          · exact ih _ _ _ _ best
          · exact le_trans (updF_ge_best best _) (ih _ _ _ _ _)
          · exact ih _ _ _ _ best

/-- With `split_step = 1`, the final best pair of the recursive-case walk
dominates the summed child rewards of every admissible boundary still
ahead of the walk. -/
theorem fbsLoop_dominates (data : PData α) (rec : Family → Node α) {S : List Nat}
    {sets : Family} (hco : Coherent data S sets) (hndS : S.Nodup)
    (p : Nat) (hp : p < data.numFeatures) (m mns : Nat)
    (hm : (sets.getD p []).length = m) :
    ∀ (k n sc : Nat) (best : Option (FCand α)) (n' : Nat),
      n < n' → n' < m → n' ≤ n + k → mns ≤ n' → mns ≤ m - n' →
      ¬ data.X ((sets.getD p []).getD n' 0) p ≤
        data.X ((sets.getD p []).getD (n' - 1) 0) p →
      (((rec (famMoveN data (sets.getD p []) n' sets).1).reward +
        (rec (famMoveN data (sets.getD p []) n' sets).2).reward : α) : WithBot α) ≤
        bestValF (fbsLoop data rec p m 1 mns k
          (famMoveN data (sets.getD p []) n sets).1
          (famMoveN data (sets.getD p []) n sets).2 n sc best) := by
  intro k
  induction k with
  | zero =>
      intro n sc best n' h1 h2 h3 _ _ _
      omega
  | succ k ih =>
      intro n sc best n' hnn' hn'm hn'k hmns1 hmns2 hne
      have hn : n < (sets.getD p []).length := by omega
      have hn1 : n + 1 < (sets.getD p []).length := by omega
      have hsome : ((sets.getD p []).drop n).head? =
          some ((sets.getD p []).getD n 0) := by
        rw [List.drop_eq_getElem_cons hn, List.head?_cons,
          List.getD_eq_getElem _ _ hn]
      have hsome2 : ((sets.getD p []).drop (n + 1)).head? =
          some ((sets.getD p []).getD (n + 1) 0) := by
        rw [List.drop_eq_getElem_cons hn1, List.head?_cons,
          List.getD_eq_getElem _ _ hn1]
      have hLs : famInsert data ((sets.getD p []).getD n 0)
          (famMoveN data (sets.getD p []) n sets).1 =
          (famMoveN data (sets.getD p []) (n + 1) sets).1 :=
        (famMoveN_succ_left data _ sets hn).symm
      have hRs : famErase ((sets.getD p []).getD n 0)
          (famMoveN data (sets.getD p []) n sets).2 =
          (famMoveN data (sets.getD p []) (n + 1) sets).2 :=
        (famMoveN_succ_right data _ sets hn).symm
      rw [fbsLoop]
      rw [famMoveN_right_at_p data hco hndS p hp n]
      simp only [hsome]
      rw [hRs, famMoveN_right_at_p data hco hndS p hp (n + 1)]
      simp only [hsome2]
      rw [hLs]
      by_cases hcase : n' = n + 1
      · subst hcase
        have hcond : ¬ data.X ((sets.getD p []).getD (n + 1) 0) p ≤
            data.X ((sets.getD p []).getD n 0) p := by
          have := hne
          rw [show n + 1 - 1 = n from rfl] at this
          exact this
        rw [if_neg hcond]
        rw [if_neg (by push_neg; omega : ¬(n + 1 < mns ∨ m - (n + 1) < mns))]
        rw [if_pos (by omega : 1 ≤ sc + 1)]
        refine le_trans (updF_ge_cand best ⟨p, data.X ((sets.getD p []).getD n 0) p,
          rec (famMoveN data (sets.getD p []) (n + 1) sets).1,
          rec (famMoveN data (sets.getD p []) (n + 1) sets).2⟩) ?_
        exact fbsLoop_ge_best data rec p m 1 mns k _ _ (n + 1) 0 _
      · split_ifs with h1 h2 h3
        · exact ih (n + 1) (sc + 1) best n' (by omega) hn'm (by omega) hmns1 hmns2 hne
        · exact ih (n + 1) (sc + 1) best n' (by omega) hn'm (by omega) hmns1 hmns2 hne
        · exact le_trans
            (ih (n + 1) 0 _ n' (by omega) hn'm (by omega) hmns1 hmns2 hne) le_rfl
        · exact ih (n + 1) (sc + 1) best n' (by omega) hn'm (by omega) hmns1 hmns2 hne

theorem fbsBest_sound (data : PData α) (rec : Family → Node α) {S : List Nat}
    {sets : Family} (hco : Coherent data S sets) (hndS : S.Nodup)
    (hp : 0 < data.numFeatures) (ss mns : Nat) :
    ∀ c, fbsBest data rec sets ss mns = some c →
      FCandOK data sets (sets.headD []).length mns rec c := by
  unfold fbsBest
  refine foldl_preserve_mem
    (fun b : Option (FCand α) => ∀ c : FCand α,
      b = some c → FCandOK data sets (sets.headD []).length mns rec c)
    _ _ _ (by intro c h; cases h) ?_
  intro acc p hpmem hacc
  have hplt : p < data.numFeatures := List.mem_range.mp hpmem
  have hm : (sets.getD p []).length = (sets.headD []).length := by
    rw [coherent_getD_len data hco hplt, coherent_headD data hco hp,
        coherent_getD_len data hco hp]
  intro c hc
  refine fbsLoop_sound data rec hco hndS p hplt (sets.headD []).length ss mns
    (FCandOK data sets (sets.headD []).length mns rec) ?_ hm
    ((sets.headD []).length - 1) 0 0 acc hacc c hc
  intro n' h1 h2 h3 h4 h5
  exact ⟨p, n', hplt, h1, h2, h3, h4, h5, rfl⟩

theorem fbsBest_dominates (data : PData α) (rec : Family → Node α) {S : List Nat}
    {sets : Family} (hco : Coherent data S sets) (hndS : S.Nodup)
    (hp0 : 0 < data.numFeatures) (mns : Nat) (p n' : Nat)
    (hplt : p < data.numFeatures) (hn0 : 0 < n')
    (hnm : n' < (sets.headD []).length)
    (hmns1 : mns ≤ n') (hmns2 : mns ≤ (sets.headD []).length - n')
    (hne : ¬ data.X ((sets.getD p []).getD n' 0) p ≤
      data.X ((sets.getD p []).getD (n' - 1) 0) p) :
    (((rec (famMoveN data (sets.getD p []) n' sets).1).reward +
      (rec (famMoveN data (sets.getD p []) n' sets).2).reward : α) : WithBot α) ≤
      bestValF (fbsBest data rec sets 1 mns) := by
  have hm : (sets.getD p []).length = (sets.headD []).length := by
    rw [coherent_getD_len data hco hplt, coherent_headD data hco hp0,
        coherent_getD_len data hco hp0]
  unfold fbsBest
  refine foldl_le_of_mem _ bestValF _ p
    (fun acc b => fbsLoop_ge_best data rec b (sets.headD []).length 1 mns
      ((sets.headD []).length - 1) (emptyFamily data) sets 0 0 acc)
    ?_ (List.range data.numFeatures) none (List.mem_range.mpr hplt)
  intro acc
  exact fbsLoop_dominates data rec hco hndS p hplt (sets.headD []).length mns hm
    ((sets.headD []).length - 1) 0 0 acc n' hn0 hnm (by omega) hmns1 hmns2 hne

theorem fbsAssemble_reward_some (data : PData α) (sets : Family) (t : Nat)
    (c : FCand α) : (fbsAssemble data sets t (some c)).reward =
      c.lch.reward + c.rch.reward := by
  rw [fbsAssemble_some]
  by_cases h : (c.lch.isLeaf && c.rch.isLeaf &&
      c.lch.action_id == c.rch.action_id) = true
  · rw [if_pos h]
    rfl
  · rw [if_neg h]
    rfl

theorem find_best_split_succ (data : PData α) (ss mns l : Nat) (sets : Family)
    (t : Nat) : find_best_split data ss mns (l + 2) sets t =
      fbsAssemble data sets t
        (fbsBest data (fun fam => find_best_split data ss mns (l + 1) fam (t + 1))
          sets ss mns) := rfl


/-!  ## The value invariant at every level  -/

/-- The reported reward of every exact-search tree equals the total
reward collected when the frame's observations are routed through it. -/
theorem find_best_split_value (data : PData α) (ss mns : Nat)
    (hd : 0 < data.numRewards) (hp : 0 < data.numFeatures) :
    ∀ (level : Nat) {S : List Nat} {sets : Family}, Coherent data S sets → S.Nodup →
      ∀ t, policyValue data S (find_best_split data ss mns level sets t) =
        (find_best_split data ss mns level sets t).reward := by
  intro level
  induction level using Nat.twoStepInduction with
  | zero => intro S sets hco hndS t; exact level_zero_value data hco hd hp (t + 1)
  | one => intro S sets hco hndS t; exact level_one_value data hco hd hp ss mns (t + 1)
  | more l ih0 ih1 =>
      intro S sets hco hndS t
      rw [find_best_split_succ]
      cases hb : fbsBest data
          (fun fam => find_best_split data ss mns (l + 1) fam (t + 1)) sets ss mns with
      | none => exact level_zero_value data hco hd hp (t + 1)
      | some c =>
          obtain ⟨p, n', hplt, hn0, hnm, hmns1, hmns2, hne, hceq⟩ :=
            fbsBest_sound data _ hco hndS hp ss mns c hb
          have hsort : Sortedj data p (sets.getD p []) := (hco.2 p hplt).1
          have hperm : (sets.getD p []).Perm S := (hco.2 p hplt).2
          have hmlen : (sets.getD p []).length = (sets.headD []).length := by
            rw [coherent_getD_len data hco hplt, coherent_headD data hco hp,
                coherent_getD_len data hco hp]
          have hn'len : n' < (sets.getD p []).length := by omega
          have hndp : (sets.getD p []).Nodup := hperm.nodup_iff.mpr hndS
          have hndL : ((sets.getD p []).take n').Nodup :=
            List.Nodup.sublist (List.take_sublist n' _) hndp
          have hndR : ((sets.getD p []).drop n').Nodup :=
            List.Nodup.sublist (List.drop_sublist n' _) hndp
          obtain ⟨hcoL, hcoR⟩ := famMoveN_coherent data hco hndS hplt n'
          have hlch : c.lch = find_best_split data ss mns (l + 1)
              (famMoveN data (sets.getD p []) n' sets).1 (t + 1) := by
            rw [hceq]
          have hrch : c.rch = find_best_split data ss mns (l + 1)
              (famMoveN data (sets.getD p []) n' sets).2 (t + 1) := by
            rw [hceq]
          have hvar : c.var = p := by rw [hceq]
          have hval : c.val = data.X ((sets.getD p []).getD (n' - 1) 0) p := by
            rw [hceq]
          have hvL : policyValue data ((sets.getD p []).take n') c.lch =
              c.lch.reward := by
            rw [hlch]
            exact ih1 hcoL hndL (t + 1)
          have hvR : policyValue data ((sets.getD p []).drop n') c.rch =
              c.rch.reward := by
            rw [hrch]
            exact ih1 hcoR hndR (t + 1)
          rw [fbsAssemble_some]
          by_cases hpr : (c.lch.isLeaf && c.rch.isLeaf &&
              c.lch.action_id == c.rch.action_id) = true
          · rw [if_pos hpr]
            obtain ⟨⟨hlf1, hlf2⟩, hlf3⟩ : (c.lch.isLeaf = true ∧ c.rch.isLeaf = true) ∧
                c.lch.action_id = c.rch.action_id := by
              simpa using hpr
            rw [policyValue_leaf]
            show rewardSum data S c.lch.action_id = c.lch.reward + c.rch.reward
            cases hLc : c.lch with
            | split v vl r dd hh lx rx cs =>
                rw [hLc] at hlf1
                cases hlf1
            | leaf rL aL dL cL =>
                cases hRc : c.rch with
                | split v vl r dd hh lx rx cs =>
                    rw [hRc] at hlf2
                    cases hlf2
                | leaf rR aR dR cR =>
                    rw [hLc] at hvL hlf3
                    rw [hRc] at hvR hlf3
                    rw [policyValue_leaf] at hvL hvR
                    have haL : aL = aR := hlf3
                    show rewardSum data S aL = rL + rR
                    rw [rewardSum_perm data hperm.symm aL,
                      rewardSum_take_drop data (sets.getD p []) aL n',
                      cumSum_eq_rewardSum_take]
                    rw [hvL, haL, hvR]
                    rfl
          · rw [if_neg hpr]
            have hlt : data.X ((sets.getD p []).getD (n' - 1) 0) p <
                data.X ((sets.getD p []).getD n' 0) p := by
              have := sorted_val_mono data p hsort hn'len
                (by omega : n' - 1 ≤ n')
              rcases lt_or_eq_of_le this with h | h
              · exact h
              · exact absurd (le_of_eq h.symm) hne
            have hleft : ∀ i ∈ (sets.getD p []).take n', data.X i c.var ≤ c.val := by
              intro i hi
              rw [hvar, hval]
              exact sorted_take_le data p hsort hn0 (by omega) i hi
            have hright : ∀ i ∈ (sets.getD p []).drop n',
                ¬ data.X i c.var ≤ c.val := by
              intro i hi
              rw [hvar, hval]
              intro hle
              have := sorted_drop_ge data p hsort hn'len i hi
              exact absurd (le_trans this hle) (not_le_of_lt hlt)
            rw [← policyValue_perm data hperm]
            rw [policyValue_node data (sets.getD p []) n' c.var c.val
              (c.lch.reward + c.rch.reward) (t + 1) (max c.lch.hgt c.rch.hgt + 1)
              c.lch c.rch sets hleft hright]
            show policyValue data ((sets.getD p []).take n') c.lch +
              policyValue data ((sets.getD p []).drop n') c.rch =
              c.lch.reward + c.rch.reward
            rw [hvL, hvR]


/-- **C4** (amended: exact search only).  For every valid input with
`exact_search = true`, routing every row of `X` through the returned tree
(left iff `X[i, split_var] ≤ split_val`) and summing `Y[i, a_i]` over the
leaf actions reached equals the reward recorded at the returned tree's
root.  The `exact_search = false` path does not satisfy this (see the
counterexample): it returns the untouched placeholder with reward `0`. -/
theorem C4_prediction_training (data : PData α) (depth ss mns : Nat)
    (hd : 0 < data.numRewards) (hp : 0 < data.numFeatures) :
    policyValue data (List.range data.numRows) (tree_search data depth ss mns) =
      (tree_search data depth ss mns).reward :=
  find_best_split_value data ss mns hd hp depth
    (create_sorted_sets_coherent data) (List.nodup_range data.numRows) 0

/-- On scenario-1 data, the hybrid (`exact_search = false`) tree's routed
total reward is `2` while its recorded root reward is `0`. -/
theorem C4_hybrid_counterexample :
    ¬ policyValue exA (List.range exA.numRows)
        (tree_search_hybrid exA 2 2 1 0 1 1) =
      (tree_search_hybrid exA 2 2 1 0 1 1).reward := by decide

theorem C4_prediction_training_witness :
    0 < exA.numRewards ∧ 0 < exA.numFeatures ∧
      policyValue exA (List.range exA.numRows) (tree_search exA 2 1 1) =
        (tree_search exA 2 1 1).reward :=
  ⟨by decide, by decide, C4_prediction_training exA 2 1 1 (by decide) (by decide)⟩


/-!  ## Minimum node size  -/

theorem leavesSubtend_perm (data : PData α) (mns : Nat) :
    ∀ (nd : Node α) {S₁ S₂ : List Nat}, S₁.Perm S₂ →
      nd.leavesSubtend data mns S₁ → nd.leavesSubtend data mns S₂ := by
  intro nd
  induction nd with
  | leaf r a dd css =>
      intro S₁ S₂ h hs
      show mns ≤ S₂.length
      rw [← h.length_eq]
      exact hs
  | split v vl r dd hh l rr css ihl ihr =>
      intro S₁ S₂ h hs
      exact ⟨ihl (h.filter _) hs.1, ihr (h.filter _) hs.2⟩

/-- A position whose prefix passes a threshold test and whose suffix fails
it realizes both filters. -/
theorem filter_eq_take_of_bound (data : PData α) (j : Nat) (tq : α) (pts : List Nat)
    (n : Nat)
    (hleft : ∀ i ∈ pts.take n, data.X i j ≤ tq)
    (hright : ∀ i ∈ pts.drop n, ¬ data.X i j ≤ tq) :
    pts.filter (fun i => decide (data.X i j ≤ tq)) = pts.take n ∧
    pts.filter (fun i => decide (¬ data.X i j ≤ tq)) = pts.drop n := by
  constructor
  · conv_lhs => rw [← List.take_append_drop n pts]
    rw [List.filter_append]
    rw [List.filter_eq_self.mpr (by intro a ha; simpa using hleft a ha)]
    rw [List.filter_eq_nil_iff.mpr (by intro a ha; simpa using hright a ha),
      List.append_nil]
  · conv_lhs => rw [← List.take_append_drop n pts]
    rw [List.filter_append]
    rw [List.filter_eq_nil_iff.mpr (by intro a ha; simpa using hleft a ha)]
    rw [List.filter_eq_self.mpr (by intro a ha; simpa using hright a ha),
      List.nil_append]

theorem level_zero_subtend (data : PData α) (sets : Family) (t : Nat) (S : List Nat)
    (mns : Nat) (hmS : mns ≤ S.length) :
    (level_zero_learning data sets t).leavesSubtend data mns S := by
  unfold level_zero_learning
  cases bestOver data.numRewards (rewardSum data (sets.headD [])) with
  | none => exact hmS
  | some ar =>
      obtain ⟨a, r⟩ := ar
      exact hmS

theorem level_one_subtend (data : PData α) {S : List Nat} {sets : Family}
    (hco : Coherent data S sets) (hd : 0 < data.numRewards)
    (hp : 0 < data.numFeatures) (ss mns t : Nat) :
    (mns ≤ S.length →
      (level_one_learning data sets ss mns t).leavesSubtend data mns S) ∧
    ((level_one_learning data sets ss mns t).isLeaf = false →
      (level_one_learning data sets ss mns t).leavesSubtend data mns S) := by
  unfold level_one_learning
  cases hb : l1Best data sets ss mns with
  | none =>
      constructor
      · intro hmS
        exact level_zero_subtend data sets (t + 1) S mns hmS
      · intro hfalse
        have h1 : (level_zero_learning data sets (t + 1)).isLeaf = false := hfalse
        rw [(level_zero_spec data sets (t + 1) hd).1] at h1
        cases h1
  | some c =>
      obtain ⟨p, n', hplt, hn0, hnm, hmns1, hmns2, hne, hbl, hbr, hvar, hval, hbrw⟩ :=
        l1Best_sound data hco ss mns hp c hb
      rw [l1Assemble_some]
      by_cases hAA : c.leftA = c.rightA
      · rw [if_pos hAA]
        exact ⟨fun hmS => hmS, fun hfalse => by cases hfalse⟩
      · rw [if_neg hAA]
        have hsort : Sortedj data p (sets.getD p []) := (hco.2 p hplt).1
        have hperm : (sets.getD p []).Perm S := (hco.2 p hplt).2
        have hmlen : (sets.getD p []).length = (sets.headD []).length := by
          rw [coherent_getD_len data hco hplt, coherent_headD data hco hp,
              coherent_getD_len data hco hp]
        have hn'len : n' < (sets.getD p []).length := by omega
        have hlt : data.X ((sets.getD p []).getD (n' - 1) 0) p <
            data.X ((sets.getD p []).getD n' 0) p :=
          sorted_ne_lt data p hsort hn0 hn'len hne
        have hleft : ∀ i ∈ (sets.getD p []).take n', data.X i c.var ≤ c.val := by
          intro i hi
          rw [hvar, hval]
          exact sorted_take_le data p hsort hn0 (by omega) i hi
        have hright : ∀ i ∈ (sets.getD p []).drop n', ¬ data.X i c.var ≤ c.val := by
          intro i hi
          rw [hvar, hval]
          intro hle
          have := sorted_drop_ge data p hsort hn'len i hi
          exact absurd (le_trans this hle) (not_le_of_lt hlt)
        obtain ⟨htake, hdrop⟩ :=
          filter_eq_take_of_bound data c.var c.val (sets.getD p []) n' hleft hright
        have hfl : (S.filter (fun i => decide (data.X i c.var ≤ c.val))).length =
            n' := by
          rw [← (hperm.filter (fun i => decide (data.X i c.var ≤ c.val))).length_eq,
            htake, List.length_take]
          omega
        have hfr : (S.filter (fun i => decide (¬ data.X i c.var ≤ c.val))).length =
            (sets.headD []).length - n' := by
          rw [← (hperm.filter
              (fun i => decide (¬ data.X i c.var ≤ c.val))).length_eq,
            hdrop, List.length_drop, hmlen]
        have hsub : (Node.split c.var c.val c.bestReward t 1
            (Node.leaf c.leftR c.leftA (t + 1) [])
            (Node.leaf c.rightR c.rightA (t + 1) []) sets).leavesSubtend data mns S := by
          constructor
          · show mns ≤ (S.filter (fun i => decide (data.X i c.var ≤ c.val))).length
            rw [hfl]
            exact hmns1
          · show mns ≤ (S.filter (fun i => decide (¬ data.X i c.var ≤ c.val))).length
            rw [hfr]
            exact hmns2
        exact ⟨fun _ => hsub, fun _ => hsub⟩

/-- Leaves of the exact search subtend at least `min_node_size`
observations: unconditionally when the root is interior, and whenever the
frame itself is large enough when the root is a leaf. -/
theorem find_best_split_subtend (data : PData α) (ss mns : Nat)
    (hd : 0 < data.numRewards) (hp : 0 < data.numFeatures) :
    ∀ (level : Nat) {S : List Nat} {sets : Family}, Coherent data S sets → S.Nodup →
      ∀ t,
      (mns ≤ S.length →
        (find_best_split data ss mns level sets t).leavesSubtend data mns S) ∧
      ((find_best_split data ss mns level sets t).isLeaf = false →
        (find_best_split data ss mns level sets t).leavesSubtend data mns S) := by
  intro level
  induction level using Nat.twoStepInduction with
  | zero =>
      intro S sets hco hndS t
      constructor
      · intro hmS
        exact level_zero_subtend data sets (t + 1) S mns hmS
      · intro hfalse
        have h1 : (level_zero_learning data sets (t + 1)).isLeaf = false := hfalse
        rw [(level_zero_spec data sets (t + 1) hd).1] at h1
        cases h1
  | one =>
      intro S sets hco hndS t
      exact level_one_subtend data hco hd hp ss mns (t + 1)
  | more l ih0 ih1 =>
      intro S sets hco hndS t
      rw [find_best_split_succ]
      cases hb : fbsBest data
          (fun fam => find_best_split data ss mns (l + 1) fam (t + 1)) sets ss mns with
      | none =>
          constructor
          · intro hmS
            exact level_zero_subtend data sets (t + 1) S mns hmS
          · intro hfalse
            have h1 : (level_zero_learning data sets (t + 1)).isLeaf = false := hfalse
            rw [(level_zero_spec data sets (t + 1) hd).1] at h1
            cases h1
      | some c =>
          obtain ⟨p, n', hplt, hn0, hnm, hmns1, hmns2, hne, hceq⟩ :=
            fbsBest_sound data _ hco hndS hp ss mns c hb
          rw [fbsAssemble_some]
          by_cases hpr : (c.lch.isLeaf && c.rch.isLeaf &&
              c.lch.action_id == c.rch.action_id) = true
          · rw [if_pos hpr]
            exact ⟨fun hmS => hmS, fun hfalse => by cases hfalse⟩
          · rw [if_neg hpr]
            have hsort : Sortedj data p (sets.getD p []) := (hco.2 p hplt).1
            have hperm : (sets.getD p []).Perm S := (hco.2 p hplt).2
            have hmlen : (sets.getD p []).length = (sets.headD []).length := by
              rw [coherent_getD_len data hco hplt, coherent_headD data hco hp,
                  coherent_getD_len data hco hp]
            have hn'len : n' < (sets.getD p []).length := by omega
            have hndp : (sets.getD p []).Nodup := hperm.nodup_iff.mpr hndS
            have hlt : data.X ((sets.getD p []).getD (n' - 1) 0) p <
                data.X ((sets.getD p []).getD n' 0) p := by
              have := sorted_val_mono data p hsort hn'len (by omega : n' - 1 ≤ n')
              rcases lt_or_eq_of_le this with h | h
              · exact h
              · exact absurd (le_of_eq h.symm) hne
            have hvar : c.var = p := by rw [hceq]
            have hval : c.val = data.X ((sets.getD p []).getD (n' - 1) 0) p := by
              rw [hceq]
            have hleft : ∀ i ∈ (sets.getD p []).take n',
                data.X i c.var ≤ c.val := by
              intro i hi
              rw [hvar, hval]
              exact sorted_take_le data p hsort hn0 (by omega) i hi
            have hright : ∀ i ∈ (sets.getD p []).drop n',
                ¬ data.X i c.var ≤ c.val := by
              intro i hi
              rw [hvar, hval]
              intro hle
              have := sorted_drop_ge data p hsort hn'len i hi
              exact absurd (le_trans this hle) (not_le_of_lt hlt)
            obtain ⟨htake, hdrop⟩ :=
              filter_eq_take_of_bound data c.var c.val (sets.getD p []) n'
                hleft hright
            obtain ⟨hcoL, hcoR⟩ := famMoveN_coherent data hco hndS hplt n'
            have hndL : ((sets.getD p []).take n').Nodup :=
              List.Nodup.sublist (List.take_sublist n' _) hndp
            have hndR : ((sets.getD p []).drop n').Nodup :=
              List.Nodup.sublist (List.drop_sublist n' _) hndp
            have hlch : c.lch = find_best_split data ss mns (l + 1)
                (famMoveN data (sets.getD p []) n' sets).1 (t + 1) := by
              rw [hceq]
            have hrch : c.rch = find_best_split data ss mns (l + 1)
                (famMoveN data (sets.getD p []) n' sets).2 (t + 1) := by
              rw [hceq]
            have hfpL : ((sets.getD p []).take n').Perm
                (S.filter (fun i => decide (data.X i c.var ≤ c.val))) := by
              rw [← htake]
              exact hperm.filter _
            have hfpR : ((sets.getD p []).drop n').Perm
                (S.filter (fun i => decide (¬ data.X i c.var ≤ c.val))) := by
              rw [← hdrop]
              exact hperm.filter _
            have hfrL : c.lch.leavesSubtend data mns ((sets.getD p []).take n') := by
              rw [hlch]
              refine (ih1 hcoL hndL (t + 1)).1 ?_
              rw [List.length_take]
              omega
            have hfrR : c.rch.leavesSubtend data mns ((sets.getD p []).drop n') := by
              rw [hrch]
              refine (ih1 hcoR hndR (t + 1)).1 ?_
              rw [List.length_drop]
              omega
            have hsubL : c.lch.leavesSubtend data mns
                (S.filter (fun i => decide (data.X i c.var ≤ c.val))) :=
              leavesSubtend_perm data mns c.lch hfpL hfrL
            have hsubR : c.rch.leavesSubtend data mns
                (S.filter (fun i => decide (¬ data.X i c.var ≤ c.val))) :=
              leavesSubtend_perm data mns c.rch hfpR hfrR
            exact ⟨fun _ => ⟨hsubL, hsubR⟩, fun _ => ⟨hsubL, hsubR⟩⟩

/-- **C7**: in the tree returned by the exact search, either the root is
itself a leaf (no internal node exists), or every leaf subtends at least
`min_node_size` of the routed observations. -/
theorem C7_min_node_size (data : PData α) (depth ss mns : Nat)
    (hd : 0 < data.numRewards) (hp : 0 < data.numFeatures) :
    (tree_search data depth ss mns).isLeaf = true ∨
      (tree_search data depth ss mns).leavesSubtend data mns
        (List.range data.numRows) := by
  by_cases h : (tree_search data depth ss mns).isLeaf = true
  · exact Or.inl h
  · right
    exact (find_best_split_subtend data ss mns hd hp depth
      (create_sorted_sets_coherent data) (List.nodup_range data.numRows) 0).2
      (by simpa using h)

theorem C7_min_node_size_witness :
    0 < exA.numRewards ∧ 0 < exA.numFeatures ∧
      ((tree_search exA 2 1 2).isLeaf = true ∨
        (tree_search exA 2 1 2).leavesSubtend exA 2 (List.range exA.numRows)) :=
  ⟨by decide, by decide, C7_min_node_size exA 2 1 2 (by decide) (by decide)⟩


/-!  ## Optimality of the exact search (r-package)  -/

theorem treeValue_nil (data : PData α) (T : PTree α) : treeValue data [] T = 0 := rfl

theorem level_zero_valid (data : PData α) (sets : Family) (t : Nat)
    (hd : 0 < data.numRewards) :
    ((level_zero_learning data sets t).toPTree).valid data := by
  unfold level_zero_learning
  cases hb : bestOver data.numRewards (rewardSum data (sets.headD [])) with
  | none =>
      have := (bestOver_spec (rewardSum data (sets.headD [])) data.numRewards).2.2 hd
      rw [hb] at this
      simp at this
  | some ar =>
      obtain ⟨a, r⟩ := ar
      show a < data.numRewards
      exact ((bestOver_spec (rewardSum data (sets.headD []))
        data.numRewards).2.1 a r hb).1

theorem level_zero_toPTree_depth (data : PData α) (sets : Family) (t : Nat) :
    ((level_zero_learning data sets t).toPTree).depth = 0 := by
  unfold level_zero_learning
  cases bestOver data.numRewards (rewardSum data (sets.headD [])) with
  | none => rfl
  | some ar =>
      obtain ⟨a, r⟩ := ar
      rfl

theorem level_one_valid (data : PData α) {S : List Nat} {sets : Family}
    (hco : Coherent data S sets) (hd : 0 < data.numRewards)
    (hp : 0 < data.numFeatures) (ss mns t : Nat) :
    ((level_one_learning data sets ss mns t).toPTree).valid data := by
  unfold level_one_learning
  cases hb : l1Best data sets ss mns with
  | none => exact level_zero_valid data sets (t + 1) hd
  | some c =>
      obtain ⟨p, n', hplt, hn0, hnm, hmns1, hmns2, hne, hbl, hbr, hvar, hval, hbrw⟩ :=
        l1Best_sound data hco ss mns hp c hb
      have hla : c.leftA < data.numRewards :=
        ((bestOver_spec (fun d => cumSum data (sets.getD p []) d n')
          data.numRewards).2.1 _ _ hbl).1
      have hra : c.rightA < data.numRewards :=
        ((bestOver_spec (fun d => cumSum data (sets.getD p []) d
          (sets.headD []).length - cumSum data (sets.getD p []) d n')
          data.numRewards).2.1 _ _ hbr).1
      rw [l1Assemble_some]
      by_cases hAA : c.leftA = c.rightA
      · rw [if_pos hAA]
        exact hla
      · rw [if_neg hAA]
        exact ⟨by rw [hvar]; exact hplt, hla, hra⟩

theorem level_one_toPTree_depth (data : PData α) (sets : Family) (ss mns t : Nat) :
    ((level_one_learning data sets ss mns t).toPTree).depth ≤ 1 := by
  unfold level_one_learning
  cases hb : l1Best data sets ss mns with
  | none =>
      show ((level_zero_learning data sets (t + 1)).toPTree).depth ≤ 1
      rw [level_zero_toPTree_depth]
      omega
  | some c =>
      rw [l1Assemble_some]
      by_cases hAA : c.leftA = c.rightA
      · rw [if_pos hAA]
        exact Nat.zero_le 1
      · rw [if_neg hAA]
        exact le_rfl

theorem find_best_split_valid (data : PData α) (ss mns : Nat)
    (hd : 0 < data.numRewards) (hp : 0 < data.numFeatures) :
    ∀ (level : Nat) {S : List Nat} {sets : Family}, Coherent data S sets → S.Nodup →
      ∀ t, ((find_best_split data ss mns level sets t).toPTree).valid data := by
  intro level
  induction level using Nat.twoStepInduction with
  | zero => intro S sets hco hndS t; exact level_zero_valid data sets (t + 1) hd
  | one => intro S sets hco hndS t; exact level_one_valid data hco hd hp ss mns (t + 1)
  | more l ih0 ih1 =>
      intro S sets hco hndS t
      rw [find_best_split_succ]
      cases hb : fbsBest data
          (fun fam => find_best_split data ss mns (l + 1) fam (t + 1)) sets ss mns with
      | none => exact level_zero_valid data sets (t + 1) hd
      | some c =>
          obtain ⟨p, n', hplt, hn0, hnm, hmns1, hmns2, hne, hceq⟩ :=
            fbsBest_sound data _ hco hndS hp ss mns c hb
          have hndp : (sets.getD p []).Nodup :=
            ((hco.2 p hplt).2).nodup_iff.mpr hndS
          obtain ⟨hcoL, hcoR⟩ := famMoveN_coherent data hco hndS hplt n'
          have hndL : ((sets.getD p []).take n').Nodup :=
            List.Nodup.sublist (List.take_sublist n' _) hndp
          have hndR : ((sets.getD p []).drop n').Nodup :=
            List.Nodup.sublist (List.drop_sublist n' _) hndp
          have hlch : c.lch = find_best_split data ss mns (l + 1)
              (famMoveN data (sets.getD p []) n' sets).1 (t + 1) := by rw [hceq]
          have hrch : c.rch = find_best_split data ss mns (l + 1)
              (famMoveN data (sets.getD p []) n' sets).2 (t + 1) := by rw [hceq]
          have hvalidL : (c.lch.toPTree).valid data := by
            rw [hlch]
            exact ih1 hcoL hndL (t + 1)
          have hvalidR : (c.rch.toPTree).valid data := by
            rw [hrch]
            exact ih1 hcoR hndR (t + 1)
          rw [fbsAssemble_some]
          by_cases hpr : (c.lch.isLeaf && c.rch.isLeaf &&
              c.lch.action_id == c.rch.action_id) = true
          · rw [if_pos hpr]
            obtain ⟨⟨hlf1, hlf2⟩, hlf3⟩ : (c.lch.isLeaf = true ∧
                c.rch.isLeaf = true) ∧ c.lch.action_id = c.rch.action_id := by
              simpa using hpr
            cases hLc : c.lch with
            | split v vl r dd hh lx rx cs =>
                rw [hLc] at hlf1
                simp [Node.isLeaf] at hlf1
            | leaf rL aL dL cL =>
                rw [hLc] at hvalidL
                exact hvalidL
          · rw [if_neg hpr]
            exact ⟨by rw [hceq]; exact hplt, hvalidL, hvalidR⟩

theorem find_best_split_toPTree_depth (data : PData α) (ss mns : Nat)
    (hd : 0 < data.numRewards) (hp : 0 < data.numFeatures) :
    ∀ (level : Nat) {S : List Nat} {sets : Family}, Coherent data S sets → S.Nodup →
      ∀ t, ((find_best_split data ss mns level sets t).toPTree).depth ≤ level := by
  intro level
  induction level using Nat.twoStepInduction with
  | zero =>
      intro S sets hco hndS t
      show ((level_zero_learning data sets (t + 1)).toPTree).depth ≤ 0
      rw [level_zero_toPTree_depth]
  | one =>
      intro S sets hco hndS t
      exact level_one_toPTree_depth data sets ss mns (t + 1)
  | more l ih0 ih1 =>
      intro S sets hco hndS t
      rw [find_best_split_succ]
      cases hb : fbsBest data
          (fun fam => find_best_split data ss mns (l + 1) fam (t + 1)) sets ss mns with
      | none =>
          show ((level_zero_learning data sets (t + 1)).toPTree).depth ≤ l + 2
          rw [level_zero_toPTree_depth]
          omega
      | some c =>
          obtain ⟨p, n', hplt, hn0, hnm, hmns1, hmns2, hne, hceq⟩ :=
            fbsBest_sound data _ hco hndS hp ss mns c hb
          have hndp : (sets.getD p []).Nodup :=
            ((hco.2 p hplt).2).nodup_iff.mpr hndS
          obtain ⟨hcoL, hcoR⟩ := famMoveN_coherent data hco hndS hplt n'
          have hndL : ((sets.getD p []).take n').Nodup :=
            List.Nodup.sublist (List.take_sublist n' _) hndp
          have hndR : ((sets.getD p []).drop n').Nodup :=
            List.Nodup.sublist (List.drop_sublist n' _) hndp
          have hlch : c.lch = find_best_split data ss mns (l + 1)
              (famMoveN data (sets.getD p []) n' sets).1 (t + 1) := by rw [hceq]
          have hrch : c.rch = find_best_split data ss mns (l + 1)
              (famMoveN data (sets.getD p []) n' sets).2 (t + 1) := by rw [hceq]
          have hdL : (c.lch.toPTree).depth ≤ l + 1 := by
            rw [hlch]
            exact ih1 hcoL hndL (t + 1)
          have hdR : (c.rch.toPTree).depth ≤ l + 1 := by
            rw [hrch]
            exact ih1 hcoR hndR (t + 1)
          rw [fbsAssemble_some]
          by_cases hpr : (c.lch.isLeaf && c.rch.isLeaf &&
              c.lch.action_id == c.rch.action_id) = true
          · rw [if_pos hpr]
            exact Nat.zero_le _
          · rw [if_neg hpr]
            show max (c.lch.toPTree).depth (c.rch.toPTree).depth + 1 ≤ l + 2
            omega

/-- With `split_step = 1` and `min_node_size = 1`, the exact search's
reported reward bounds the value of every valid policy tree of depth at
most the level searched. -/
theorem find_best_split_optimal (data : PData α)
    (hd : 0 < data.numRewards) (hp : 0 < data.numFeatures) :
    ∀ (level : Nat) {S : List Nat} {sets : Family}, Coherent data S sets → S.Nodup →
      ∀ t, ∀ T : PTree α, T.valid data → T.depth ≤ level →
        treeValue data S T ≤ (find_best_split data 1 1 level sets t).reward := by
  intro level
  induction level using Nat.twoStepInduction with
  | zero =>
      intro S sets hco hndS t T hval hdep
      obtain ⟨a, rfl⟩ := PTree.depth_zero (Nat.le_zero.mp hdep)
      exact level_zero_colsum_le data hco hd hp (t + 1) hval
  | one =>
      intro S sets hco hndS t T hval hdep
      exact level_one_upper data hco hd hp (t + 1) T hval hdep
  | more l ih0 ih1 =>
      intro S sets hco hndS t T
      induction T with
      | act a =>
          intro hval hdep
          rw [find_best_split_succ, treeValue_act]
          cases hb : fbsBest data
              (fun fam => find_best_split data 1 1 (l + 1) fam (t + 1)) sets 1 1 with
          | none => exact level_zero_colsum_le data hco hd hp (t + 1) hval
          | some c =>
              obtain ⟨p, n', hplt, hn0, hnm, hmns1, hmns2, hne, hceq⟩ :=
                fbsBest_sound data _ hco hndS hp 1 1 c hb
              have hperm : (sets.getD p []).Perm S := (hco.2 p hplt).2
              obtain ⟨hcoL, hcoR⟩ := famMoveN_coherent data hco hndS hplt n'
              have hndp : (sets.getD p []).Nodup := hperm.nodup_iff.mpr hndS
              have hndL : ((sets.getD p []).take n').Nodup :=
                List.Nodup.sublist (List.take_sublist n' _) hndp
              have hndR : ((sets.getD p []).drop n').Nodup :=
                List.Nodup.sublist (List.drop_sublist n' _) hndp
              have hlch : c.lch = find_best_split data 1 1 (l + 1)
                  (famMoveN data (sets.getD p []) n' sets).1 (t + 1) := by rw [hceq]
              have hrch : c.rch = find_best_split data 1 1 (l + 1)
                  (famMoveN data (sets.getD p []) n' sets).2 (t + 1) := by rw [hceq]
              have h1 : rewardSum data ((sets.getD p []).take n') a ≤
                  c.lch.reward := by
                rw [hlch]
                have := ih1 hcoL hndL (t + 1) (PTree.act a) hval (Nat.zero_le _)
                rwa [treeValue_act] at this
              have h2 : rewardSum data ((sets.getD p []).drop n') a ≤
                  c.rch.reward := by
                rw [hrch]
                have := ih1 hcoR hndR (t + 1) (PTree.act a) hval (Nat.zero_le _)
                rwa [treeValue_act] at this
              rw [fbsAssemble_reward_some]
              calc rewardSum data S a
                  = rewardSum data (sets.getD p []) a :=
                    rewardSum_perm data hperm.symm a
                _ = rewardSum data ((sets.getD p []).take n') a +
                    rewardSum data ((sets.getD p []).drop n') a := by
                    rw [rewardSum_take_drop data (sets.getD p []) a n',
                      cumSum_eq_rewardSum_take]
                _ ≤ c.lch.reward + c.rch.reward := add_le_add h1 h2
      | branch j tq L R ihL ihR =>
          intro hval hdep
          obtain ⟨hj, hvL, hvR⟩ := hval
          have hmax : max L.depth R.depth + 1 ≤ l + 2 := hdep
          have hdepL : L.depth ≤ l + 1 := by
            have := le_max_left L.depth R.depth
            omega
          have hdepR : R.depth ≤ l + 1 := by
            have := le_max_right L.depth R.depth
            omega
          have hsort : Sortedj data j (sets.getD j []) := (hco.2 j hj).1
          have hperm : (sets.getD j []).Perm S := (hco.2 j hj).2
          have hmlen : (sets.getD j []).length = (sets.headD []).length := by
            rw [coherent_getD_len data hco hj, coherent_headD data hco hp,
                coherent_getD_len data hco hp]
          obtain ⟨htk, hdr⟩ := sorted_filter_take data j tq (sets.getD j []) hsort
          set pts := sets.getD j [] with hpts
          set n₀ := pts.countP (fun i => decide (data.X i j ≤ tq)) with hn₀
          have hn₀le : n₀ ≤ pts.length := List.countP_le_length _
          rw [← treeValue_perm data hperm]
          rw [treeValue_branch data pts n₀ j tq L R htk hdr]
          by_cases hzero : n₀ = 0
          · rw [hzero, List.take_zero, List.drop_zero, treeValue_nil, zero_add]
            rw [treeValue_perm data hperm R]
            exact ihR hvR (by omega)
          · by_cases hfull : n₀ = pts.length
            · rw [hfull, List.take_length, List.drop_length, treeValue_nil, add_zero]
              rw [treeValue_perm data hperm L]
              exact ihL hvL (by omega)
            · have hn₀pos : 0 < n₀ := Nat.pos_of_ne_zero hzero
              have hn₀lt : n₀ < pts.length := lt_of_le_of_ne hn₀le hfull
              have hbnd1 : data.X (pts.getD (n₀ - 1) 0) j ≤ tq :=
                htk _ (getD_mem_take (by omega) hn₀le)
              have hbnd2 : ¬ data.X (pts.getD n₀ 0) j ≤ tq :=
                hdr _ (getD_mem_drop hn₀lt)
              have hne' : ¬ data.X (pts.getD n₀ 0) j ≤
                  data.X (pts.getD (n₀ - 1) 0) j := by
                intro hle
                exact hbnd2 (le_trans hle hbnd1)
              obtain ⟨hcoL, hcoR⟩ := famMoveN_coherent data hco hndS hj n₀
              have hndp : pts.Nodup := hperm.nodup_iff.mpr hndS
              have hndL : (pts.take n₀).Nodup :=
                List.Nodup.sublist (List.take_sublist n₀ _) hndp
              have hndR' : (pts.drop n₀).Nodup :=
                List.Nodup.sublist (List.drop_sublist n₀ _) hndp
              have hL : treeValue data (pts.take n₀) L ≤
                  (find_best_split data 1 1 (l + 1)
                    (famMoveN data pts n₀ sets).1 (t + 1)).reward :=
                ih1 hcoL hndL (t + 1) L hvL hdepL
              have hR : treeValue data (pts.drop n₀) R ≤
                  (find_best_split data 1 1 (l + 1)
                    (famMoveN data pts n₀ sets).2 (t + 1)).reward :=
                ih1 hcoR hndR' (t + 1) R hvR hdepR
              have hdom := fbsBest_dominates data
                (fun fam => find_best_split data 1 1 (l + 1) fam (t + 1))
                hco hndS hp 1 j n₀ hj hn₀pos (by omega) (by omega) (by omega) hne'
              rw [find_best_split_succ]
              cases hfb : fbsBest data
                  (fun fam => find_best_split data 1 1 (l + 1) fam (t + 1))
                  sets 1 1 with
              | none =>
                  rw [hfb] at hdom
                  exact absurd hdom (by simp [bestValF])
              | some c =>
                  rw [hfb] at hdom
                  have hdom' : (find_best_split data 1 1 (l + 1)
                        (famMoveN data pts n₀ sets).1 (t + 1)).reward +
                      (find_best_split data 1 1 (l + 1)
                        (famMoveN data pts n₀ sets).2 (t + 1)).reward ≤
                      c.lch.reward + c.rch.reward := by
                    have hbv : bestValF (some c) =
                        ((c.lch.reward + c.rch.reward : α) : WithBot α) := rfl
                    rw [hbv] at hdom
                    exact_mod_cast hdom
                  rw [fbsAssemble_reward_some]
                  calc treeValue data (pts.take n₀) L + treeValue data (pts.drop n₀) R
                      ≤ (find_best_split data 1 1 (l + 1)
                          (famMoveN data pts n₀ sets).1 (t + 1)).reward +
                        (find_best_split data 1 1 (l + 1)
                          (famMoveN data pts n₀ sets).2 (t + 1)).reward :=
                        add_le_add hL hR
                    _ ≤ c.lch.reward + c.rch.reward := hdom'

/-- The search's reported reward is attained by a valid tree of the
searched depth: its own returned policy. -/
theorem find_best_split_achieved (data : PData α) (ss mns : Nat)
    (hd : 0 < data.numRewards) (hp : 0 < data.numFeatures)
    (level : Nat) {S : List Nat} {sets : Family} (hco : Coherent data S sets)
    (hndS : S.Nodup) (t : Nat) :
    ∃ T : PTree α, T.valid data ∧ T.depth ≤ level ∧
      treeValue data S T = (find_best_split data ss mns level sets t).reward := by
  refine ⟨(find_best_split data ss mns level sets t).toPTree,
    find_best_split_valid data ss mns hd hp level hco hndS t,
    find_best_split_toPTree_depth data ss mns hd hp level hco hndS t, ?_⟩
  rw [treeValue_toPTree]
  exact find_best_split_value data ss mns hd hp level hco hndS t


/-!  ## The src leaf and depth-1 evaluators  -/

theorem level_zero2_spec (data : PData α) (sets : Family) (hd : 0 < data.numRewards) :
    ∃ a, a < data.numRewards ∧
      level_zero_learning2 data sets =
        SNode.leaf (rewardSum data (sets.headD []) a) a ∧
      ∀ b, b < data.numRewards →
        rewardSum data (sets.headD []) b ≤ rewardSum data (sets.headD []) a := by
  unfold level_zero_learning2
  cases hb : bestOver data.numRewards (rewardSum data (sets.headD [])) with
  | none =>
      have := (bestOver_spec (rewardSum data (sets.headD [])) data.numRewards).2.2 hd
      rw [hb] at this
      simp at this
  | some ar =>
      obtain ⟨a, r⟩ := ar
      obtain ⟨ha, hv, hle, _⟩ :=
        (bestOver_spec (rewardSum data (sets.headD [])) data.numRewards).2.1 a r hb
      refine ⟨a, ha, ?_, ?_⟩
      · rw [hv]
      · intro b hbb
        rw [hv]
        exact hle b hbb

theorem coherent_colsum (data : PData α) {S : List Nat} {sets : Family}
    (hco : Coherent data S sets) (hp : 0 < data.numFeatures) (b : Nat) :
    rewardSum data (sets.headD []) b = rewardSum data S b := by
  rw [coherent_headD data hco hp]
  exact rewardSum_perm data (hco.2 0 hp).2 b

theorem level_zero2_value (data : PData α) {S : List Nat} {sets : Family}
    (hco : Coherent data S sets) (hd : 0 < data.numRewards)
    (hp : 0 < data.numFeatures) :
    policyValue2 data S (level_zero_learning2 data sets) =
      (level_zero_learning2 data sets).reward := by
  obtain ⟨a, ha, heq, hdom⟩ := level_zero2_spec data sets hd
  rw [heq, policyValue2_leaf]
  show rewardSum data S a = rewardSum data (sets.headD []) a
  rw [coherent_colsum data hco hp a]

theorem level_zero2_colsum_le (data : PData α) {S : List Nat} {sets : Family}
    (hco : Coherent data S sets) (hd : 0 < data.numRewards)
    (hp : 0 < data.numFeatures) {b : Nat} (hb : b < data.numRewards) :
    rewardSum data S b ≤ (level_zero_learning2 data sets).reward := by
  obtain ⟨a, ha, heq, hdom⟩ := level_zero2_spec data sets hd
  rw [heq]
  show rewardSum data S b ≤ rewardSum data (sets.headD []) a
  rw [← coherent_colsum data hco hp b]
  exact hdom b hb

theorem level_zero2_leafDesc (data : PData α) {S : List Nat} {sets : Family}
    (hco : Coherent data S sets) (hd : 0 < data.numRewards)
    (hp : 0 < data.numFeatures) :
    LeafDesc data S (level_zero_learning2 data sets) := by
  obtain ⟨a, ha, heq, hdom⟩ := level_zero2_spec data sets hd
  refine ⟨a, ha, ?_, ?_⟩
  · rw [heq, coherent_colsum data hco hp a]
  · intro b hbb
    rw [← coherent_colsum data hco hp b, ← coherent_colsum data hco hp a]
    exact hdom b hbb

theorem level_zero2_valid (data : PData α) (sets : Family)
    (hd : 0 < data.numRewards) :
    ((level_zero_learning2 data sets).toPTree).valid data := by
  obtain ⟨a, ha, heq, _⟩ := level_zero2_spec data sets hd
  rw [heq]
  exact ha

theorem level_zero2_toPTree_depth (data : PData α) (sets : Family)
    (hd : 0 < data.numRewards) :
    ((level_zero_learning2 data sets).toPTree).depth = 0 := by
  obtain ⟨a, _, heq, _⟩ := level_zero2_spec data sets hd
  rw [heq]
  rfl

/-- Candidate soundness for the src depth-1 walk (no guards: every
boundary between distinct neighbouring values is evaluated). -/
theorem l1Loop2_sound (data : PData α) (p : Nat) (pts0 : List Nat) (m : Nat)
    (hm : pts0.length = m) (P : L1Cand α → Prop)
    (hP : ∀ n', 0 < n' → n' < m →
      data.X (pts0.getD (n' - 1) 0) p ≠ data.X (pts0.getD n' 0) p →
      ∀ la lb ra rb,
        bestOver data.numRewards (fun d => cumSum data pts0 d n') = some (la, lb) →
        bestOver data.numRewards
          (fun d => cumSum data pts0 d m - cumSum data pts0 d n') = some (ra, rb) →
        P ⟨lb + rb, lb, rb, la, ra, p, data.X (pts0.getD (n' - 1) 0) p⟩) :
    ∀ (walk : List Nat) (n : Nat) (best : Option (L1Cand α)),
      pts0.drop n = walk →
      (∀ c, best = some c → P c) →
      ∀ c, l1Loop2 data p pts0 m walk n best = some c → P c := by
  intro walk
  induction walk with
  | nil =>
      intro n best hdrop hbest c hc
      rw [l1Loop2] at hc
      exact hbest c hc
  | cons i rest ih =>
      intro n best hdrop hbest c hc
      cases rest with
      | nil =>
          rw [l1Loop2] at hc
          exact hbest c hc
      | cons nx rest' =>
          have hlen : n + 2 ≤ pts0.length := by
            have := congrArg List.length hdrop
            rw [List.length_drop] at this
            simp at this
            omega
          have hn : n < pts0.length := by omega
          have hn1 : n + 1 < pts0.length := by omega
          have hgi : pts0.getD n 0 = i := by
            have h1 := List.drop_eq_getElem_cons hn
            rw [hdrop] at h1
            rw [List.getD_eq_getElem _ _ hn]
            exact (List.cons.injEq _ _ _ _ ▸ h1).1.symm
          have htail : pts0.drop (n + 1) = nx :: rest' := by
            have h1 := List.drop_eq_getElem_cons hn
            rw [hdrop] at h1
            exact ((List.cons.injEq _ _ _ _ ▸ h1).2).symm
          have hgnx : pts0.getD (n + 1) 0 = nx := by
            have h1 := List.drop_eq_getElem_cons hn1
            rw [htail] at h1
            rw [List.getD_eq_getElem _ _ hn1]
            exact (List.cons.injEq _ _ _ _ ▸ h1).1.symm
          rw [l1Loop2] at hc
          by_cases heq : data.X i p = data.X nx p
          · rw [if_pos heq] at hc
            exact ih (n + 1) best htail hbest c hc
          · rw [if_neg heq] at hc
            rcases hbl : bestOver data.numRewards
                (fun d => cumSum data pts0 d (n + 1)) with _ | la_lb
            · simp only [hbl] at hc
              exact ih (n + 1) best htail hbest c hc
            · rcases hbr : bestOver data.numRewards
                  (fun d => cumSum data pts0 d m - cumSum data pts0 d (n + 1)) with
                _ | ra_rb
              · simp only [hbl, hbr] at hc
                exact ih (n + 1) best htail hbest c hc
              · obtain ⟨la, lb⟩ := la_lb
                obtain ⟨ra, rb⟩ := ra_rb
                simp only [hbl, hbr] at hc
                refine ih (n + 1) _ htail ?_ c hc
                intro c' hc'
                rcases updL1_cases best
                    ⟨lb + rb, lb, rb, la, ra, p, data.X i p⟩ with he | he
                · rw [he] at hc'
                  cases hc'
                  have hne' : data.X (pts0.getD (n + 1 - 1) 0) p ≠
                      data.X (pts0.getD (n + 1) 0) p := by
                    rw [show n + 1 - 1 = n from rfl, hgi, hgnx]
                    exact heq
                  have hres := hP (n + 1) (by omega) (by omega) hne' la lb ra rb hbl hbr
                  rw [show n + 1 - 1 = n from rfl, hgi] at hres
                  exact hres
                · rw [he] at hc'
                  exact hbest c' hc'

theorem l1Loop2_ge_best (data : PData α) (p : Nat) (pts0 : List Nat) (m : Nat) :
    ∀ (walk : List Nat) (n : Nat) (best : Option (L1Cand α)),
      bestValL1 best ≤ bestValL1 (l1Loop2 data p pts0 m walk n best) := by
  intro walk
  induction walk with
  | nil =>
      intro n best
      rw [l1Loop2]
  | cons i rest ih =>
      intro n best
      cases rest with
      | nil => rw [l1Loop2]
      | cons nx rest' =>
          rw [l1Loop2]
          by_cases heq : data.X i p = data.X nx p
          · rw [if_pos heq]
            exact ih (n + 1) best
          · rw [if_neg heq]
            rcases hbl : bestOver data.numRewards
                (fun d => cumSum data pts0 d (n + 1)) with _ | lab
            · simp only [hbl]
              exact ih (n + 1) best
            · rcases hbr : bestOver data.numRewards
                  (fun d => cumSum data pts0 d m - cumSum data pts0 d (n + 1)) with
                _ | rab
              · simp only [hbl, hbr]
                exact ih (n + 1) best
              · obtain ⟨la, lb⟩ := lab
                obtain ⟨ra, rb⟩ := rab
                simp only [hbl, hbr]
                exact le_trans (updL1_ge_best best _) (ih (n + 1) _)

theorem l1Loop2_dominates (data : PData α) (p : Nat) (pts0 : List Nat) (m : Nat)
    (hm : pts0.length = m) :
    ∀ (walk : List Nat) (n : Nat) (best : Option (L1Cand α)),
      pts0.drop n = walk →
      ∀ n', n < n' → n' < m →
        data.X (pts0.getD (n' - 1) 0) p ≠ data.X (pts0.getD n' 0) p →
        ∀ la lb ra rb,
          bestOver data.numRewards (fun d => cumSum data pts0 d n') = some (la, lb) →
          bestOver data.numRewards
            (fun d => cumSum data pts0 d m - cumSum data pts0 d n') = some (ra, rb) →
          ((lb + rb : α) : WithBot α) ≤
            bestValL1 (l1Loop2 data p pts0 m walk n best) := by
  intro walk
  induction walk with
  | nil =>
      intro n best hdrop n' hn' hn'm _ la lb ra rb _ _
      exfalso
      have := congrArg List.length hdrop
      rw [List.length_drop] at this
      simp at this
      omega
  | cons i rest ih =>
      intro n best hdrop n' hn' hn'm hne la lb ra rb hbl hbr
      cases rest with
      | nil =>
          exfalso
          have := congrArg List.length hdrop
          rw [List.length_drop] at this
          simp at this
          omega
      | cons nx rest' =>
          have hlen : n + 2 ≤ pts0.length := by
            have := congrArg List.length hdrop
            rw [List.length_drop] at this
            simp at this
            omega
          have hn : n < pts0.length := by omega
          have hn1 : n + 1 < pts0.length := by omega
          have hgi : pts0.getD n 0 = i := by
            have h1 := List.drop_eq_getElem_cons hn
            rw [hdrop] at h1
            rw [List.getD_eq_getElem _ _ hn]
            exact (List.cons.injEq _ _ _ _ ▸ h1).1.symm
          have htail : pts0.drop (n + 1) = nx :: rest' := by
            have h1 := List.drop_eq_getElem_cons hn
            rw [hdrop] at h1
            exact ((List.cons.injEq _ _ _ _ ▸ h1).2).symm
          have hgnx : pts0.getD (n + 1) 0 = nx := by
            have h1 := List.drop_eq_getElem_cons hn1
            rw [htail] at h1
            rw [List.getD_eq_getElem _ _ hn1]
            exact (List.cons.injEq _ _ _ _ ▸ h1).1.symm
          rw [l1Loop2]
          by_cases hcase : n' = n + 1
          · subst hcase
            have hne' : ¬ data.X i p = data.X nx p := by
              rw [← hgi, ← hgnx]
              simpa using hne
            rw [if_neg hne']
            simp only [hbl, hbr]
            exact le_trans (updL1_ge_cand best ⟨lb + rb, lb, rb, la, ra, p, data.X i p⟩)
              (l1Loop2_ge_best data p pts0 m _ _ _)
          · have hstep : ∀ best', ((lb + rb : α) : WithBot α) ≤
                bestValL1 (l1Loop2 data p pts0 m (nx :: rest') (n + 1) best') := by
              intro best'
              exact ih (n + 1) best' htail n' (by omega) hn'm hne la lb ra rb hbl hbr
            by_cases heq : data.X i p = data.X nx p
            · rw [if_pos heq]
              exact hstep best
            · rw [if_neg heq]
              rcases hbl2 : bestOver data.numRewards
                  (fun d => cumSum data pts0 d (n + 1)) with _ | lab
              · simp only [hbl2]
                exact hstep best
              · rcases hbr2 : bestOver data.numRewards
                    (fun d => cumSum data pts0 d m - cumSum data pts0 d (n + 1)) with
                  _ | rab
                · simp only [hbl2, hbr2]
                  exact hstep best
                · obtain ⟨la2, lb2⟩ := lab
                  obtain ⟨ra2, rb2⟩ := rab
                  simp only [hbl2, hbr2]
                  exact hstep _

theorem l1Best2_sound (data : PData α) {S : List Nat} {sets : Family}
    (hco : Coherent data S sets) (hp : 0 < data.numFeatures) :
    ∀ c, l1Best2 data sets = some c →
      L1CandOK data sets (sets.headD []).length 1 c := by
  unfold l1Best2
  refine foldl_preserve_mem
    (fun b : Option (L1Cand α) => ∀ c : L1Cand α,
      b = some c → L1CandOK data sets (sets.headD []).length 1 c)
    _ _ _ (by intro c h; cases h) ?_
  intro acc p hpmem hacc
  have hplt : p < data.numFeatures := List.mem_range.mp hpmem
  have hm : (sets.getD p []).length = (sets.headD []).length := by
    rw [coherent_getD_len data hco hplt, coherent_headD data hco hp,
        coherent_getD_len data hco hp]
  refine l1Loop2_sound data p (sets.getD p []) (sets.headD []).length hm
    (L1CandOK data sets (sets.headD []).length 1) ?_ (sets.getD p []) 0 acc rfl hacc
  intro n' h1 h2 h5 la lb ra rb hbl hbr
  exact ⟨p, n', hplt, h1, h2, by omega, by omega, h5, hbl, hbr, rfl, rfl, rfl⟩

theorem l1Best2_dominates (data : PData α) {S : List Nat} {sets : Family}
    (hco : Coherent data S sets) (hp0 : 0 < data.numFeatures)
    (p n' : Nat) (hplt : p < data.numFeatures) (hn0 : 0 < n')
    (hnm : n' < (sets.headD []).length)
    (hne : data.X ((sets.getD p []).getD (n' - 1) 0) p ≠
      data.X ((sets.getD p []).getD n' 0) p)
    (la ra : Nat) (lb rb : α)
    (hbl : bestOver data.numRewards (fun d => cumSum data (sets.getD p []) d n') =
      some (la, lb))
    (hbr : bestOver data.numRewards (fun d => cumSum data (sets.getD p []) d
      (sets.headD []).length - cumSum data (sets.getD p []) d n') = some (ra, rb)) :
    ((lb + rb : α) : WithBot α) ≤ bestValL1 (l1Best2 data sets) := by
  have hm : (sets.getD p []).length = (sets.headD []).length := by
    rw [coherent_getD_len data hco hplt, coherent_headD data hco hp0,
        coherent_getD_len data hco hp0]
  unfold l1Best2
  refine foldl_le_of_mem _ bestValL1 _ p
    (fun acc b => l1Loop2_ge_best data b (sets.getD b []) (sets.headD []).length
      (sets.getD b []) 0 acc)
    ?_ (List.range data.numFeatures) none (List.mem_range.mpr hplt)
  intro acc
  exact l1Loop2_dominates data p (sets.getD p []) (sets.headD []).length hm
    (sets.getD p []) 0 acc rfl n' hn0 hnm hne la lb ra rb hbl hbr

theorem level_one2_reward_some (data : PData α) (sets : Family) (c : L1Cand α)
    (hb : l1Best2 data sets = some c) :
    (level_one_learning2 data sets).reward = c.bestReward := by
  unfold level_one_learning2
  rw [hb, l1Assemble2_some]
  by_cases hAA : c.leftA = c.rightA
  · rw [if_pos hAA]
    rfl
  · rw [if_neg hAA]
    rfl

theorem level_one2_colsum_le (data : PData α) {S : List Nat} {sets : Family}
    (hco : Coherent data S sets) (hd : 0 < data.numRewards)
    (hp : 0 < data.numFeatures) {a : Nat} (ha : a < data.numRewards) :
    rewardSum data S a ≤ (level_one_learning2 data sets).reward := by
  cases hb : l1Best2 data sets with
  | none =>
      have : level_one_learning2 data sets = level_zero_learning2 data sets := by
        unfold level_one_learning2
        rw [hb]
        rfl
      rw [this]
      exact level_zero2_colsum_le data hco hd hp ha
  | some c =>
      rw [level_one2_reward_some data sets c hb]
      obtain ⟨p, n', hplt, hn0, hnm, _, _, hne, hbl, hbr, hvar, hval, hbrw⟩ :=
        l1Best2_sound data hco hp c hb
      have hmlen : (sets.getD p []).length = (sets.headD []).length := by
        rw [coherent_getD_len data hco hplt, coherent_headD data hco hp,
            coherent_getD_len data hco hp]
      have h1 : cumSum data (sets.getD p []) a n' ≤ c.leftR :=
        ((bestOver_spec (fun d => cumSum data (sets.getD p []) d n')
          data.numRewards).2.1 _ _ hbl).2.2.1 a ha
      have h2 : cumSum data (sets.getD p []) a (sets.headD []).length -
          cumSum data (sets.getD p []) a n' ≤ c.rightR :=
        ((bestOver_spec (fun d => cumSum data (sets.getD p []) d
          (sets.headD []).length - cumSum data (sets.getD p []) d n')
          data.numRewards).2.1 _ _ hbr).2.2.1 a ha
      rw [← hmlen, cumSum_all] at h2
      rw [rewardSum_perm data ((hco.2 p hplt).2).symm a, hbrw]
      have hsp : rewardSum data (sets.getD p []) a =
          cumSum data (sets.getD p []) a n' +
            (rewardSum data (sets.getD p []) a -
              cumSum data (sets.getD p []) a n') := by
        abel
      rw [hsp]
      exact add_le_add h1 h2

theorem level_one2_value (data : PData α) {S : List Nat} {sets : Family}
    (hco : Coherent data S sets) (hd : 0 < data.numRewards)
    (hp : 0 < data.numFeatures) :
    policyValue2 data S (level_one_learning2 data sets) =
      (level_one_learning2 data sets).reward := by
  unfold level_one_learning2
  cases hb : l1Best2 data sets with
  | none => exact level_zero2_value data hco hd hp
  | some c =>
      obtain ⟨p, n', hplt, hn0, hnm, _, _, hne, hbl, hbr, hvar, hval, hbrw⟩ :=
        l1Best2_sound data hco hp c hb
      have hsort : Sortedj data p (sets.getD p []) := (hco.2 p hplt).1
      have hperm : (sets.getD p []).Perm S := (hco.2 p hplt).2
      have hmlen : (sets.getD p []).length = (sets.headD []).length := by
        rw [coherent_getD_len data hco hplt, coherent_headD data hco hp,
            coherent_getD_len data hco hp]
      obtain ⟨hlaD, hlb, _, _⟩ :=
        (bestOver_spec (fun d => cumSum data (sets.getD p []) d n')
          data.numRewards).2.1 _ _ hbl
      obtain ⟨hraD, hrb, _, _⟩ :=
        (bestOver_spec (fun d => cumSum data (sets.getD p []) d
          (sets.headD []).length - cumSum data (sets.getD p []) d n')
          data.numRewards).2.1 _ _ hbr
      rw [← hmlen, cumSum_all] at hrb
      rw [l1Assemble2_some]
      by_cases hAA : c.leftA = c.rightA
      · rw [if_pos hAA]
        rw [policyValue2_leaf]
        show rewardSum data S c.leftA = c.bestReward
        rw [hbrw, ← hlb, ← hrb, ← hAA]
        rw [rewardSum_perm data hperm.symm c.leftA]
        abel
      · rw [if_neg hAA]
        have hlt : data.X ((sets.getD p []).getD (n' - 1) 0) p <
            data.X ((sets.getD p []).getD n' 0) p :=
          sorted_ne_lt data p hsort hn0 (by omega) hne
        have hleft : ∀ i ∈ (sets.getD p []).take n', data.X i c.var ≤ c.val := by
          intro i hi
          rw [hvar, hval]
          exact sorted_take_le data p hsort hn0 (by omega) i hi
        have hright : ∀ i ∈ (sets.getD p []).drop n', ¬ data.X i c.var ≤ c.val := by
          intro i hi
          rw [hvar, hval]
          intro hle
          have := sorted_drop_ge data p hsort (by omega) i hi
          exact absurd (le_trans this hle) (not_le_of_lt hlt)
        rw [← policyValue2_perm data hperm]
        rw [policyValue2_node data (sets.getD p []) n' c.var c.val c.bestReward
          (SNode.leaf c.leftR c.leftA) (SNode.leaf c.rightR c.rightA) hleft hright]
        rw [policyValue2_leaf, policyValue2_leaf]
        show rewardSum data ((sets.getD p []).take n') c.leftA +
          rewardSum data ((sets.getD p []).drop n') c.rightA = c.bestReward
        rw [hbrw, ← hlb, ← hrb]
        rw [← cumSum_eq_rewardSum_take]
        have hsplit := rewardSum_take_drop data (sets.getD p []) c.rightA n'
        have hform : rewardSum data ((sets.getD p []).drop n') c.rightA =
            rewardSum data (sets.getD p []) c.rightA -
              cumSum data (sets.getD p []) c.rightA n' := by
          rw [hsplit]
          abel
        rw [hform]

theorem level_one2_valid (data : PData α) {S : List Nat} {sets : Family}
    (hco : Coherent data S sets) (hd : 0 < data.numRewards)
    (hp : 0 < data.numFeatures) :
    ((level_one_learning2 data sets).toPTree).valid data := by
  unfold level_one_learning2
  cases hb : l1Best2 data sets with
  | none => exact level_zero2_valid data sets hd
  | some c =>
      obtain ⟨p, n', hplt, hn0, hnm, _, _, hne, hbl, hbr, hvar, hval, hbrw⟩ :=
        l1Best2_sound data hco hp c hb
      have hla : c.leftA < data.numRewards :=
        ((bestOver_spec (fun d => cumSum data (sets.getD p []) d n')
          data.numRewards).2.1 _ _ hbl).1
      have hra : c.rightA < data.numRewards :=
        ((bestOver_spec (fun d => cumSum data (sets.getD p []) d
          (sets.headD []).length - cumSum data (sets.getD p []) d n')
          data.numRewards).2.1 _ _ hbr).1
      rw [l1Assemble2_some]
      by_cases hAA : c.leftA = c.rightA
      · rw [if_pos hAA]
        exact hla
      · rw [if_neg hAA]
        exact ⟨by rw [hvar]; exact hplt, hla, hra⟩

theorem level_one2_toPTree_depth (data : PData α) (sets : Family)
    (hd : 0 < data.numRewards) :
    ((level_one_learning2 data sets).toPTree).depth ≤ 1 := by
  unfold level_one_learning2
  cases hb : l1Best2 data sets with
  | none =>
      show ((level_zero_learning2 data sets).toPTree).depth ≤ 1
      rw [level_zero2_toPTree_depth data sets hd]
      omega
  | some c =>
      rw [l1Assemble2_some]
      by_cases hAA : c.leftA = c.rightA
      · rw [if_pos hAA]
        exact Nat.zero_le 1
      · rw [if_neg hAA]
        exact le_rfl

/-- When the src depth-1 evaluator returns a leaf, the leaf carries a
full-frame column sum of its own action. -/
theorem level_one2_leaf_reward (data : PData α) {S : List Nat} {sets : Family}
    (hco : Coherent data S sets) (hd : 0 < data.numRewards)
    (hp : 0 < data.numFeatures) :
    (level_one_learning2 data sets).isLeaf = true →
    ∃ a, a < data.numRewards ∧
      level_one_learning2 data sets = SNode.leaf (rewardSum data S a) a := by
  unfold level_one_learning2
  cases hb : l1Best2 data sets with
  | none =>
      intro _
      obtain ⟨a, ha, heq, _⟩ := level_zero2_spec data sets hd
      refine ⟨a, ha, ?_⟩
      show level_zero_learning2 data sets = SNode.leaf (rewardSum data S a) a
      rw [heq, coherent_colsum data hco hp a]
  | some c =>
      obtain ⟨p, n', hplt, hn0, hnm, _, _, hne, hbl, hbr, hvar, hval, hbrw⟩ :=
        l1Best2_sound data hco hp c hb
      rw [l1Assemble2_some]
      by_cases hAA : c.leftA = c.rightA
      · rw [if_pos hAA]
        intro _
        have hla : c.leftA < data.numRewards :=
          ((bestOver_spec (fun d => cumSum data (sets.getD p []) d n')
            data.numRewards).2.1 _ _ hbl).1
        obtain ⟨_, hlb, _, _⟩ :=
          (bestOver_spec (fun d => cumSum data (sets.getD p []) d n')
            data.numRewards).2.1 _ _ hbl
        obtain ⟨_, hrb, _, _⟩ :=
          (bestOver_spec (fun d => cumSum data (sets.getD p []) d
            (sets.headD []).length - cumSum data (sets.getD p []) d n')
            data.numRewards).2.1 _ _ hbr
        have hmlen : (sets.getD p []).length = (sets.headD []).length := by
          rw [coherent_getD_len data hco hplt, coherent_headD data hco hp,
              coherent_getD_len data hco hp]
        rw [← hmlen, cumSum_all] at hrb
        refine ⟨c.leftA, hla, ?_⟩
        have hrw : rewardSum data S c.leftA = c.bestReward := by
          rw [hbrw, ← hlb, ← hrb, ← hAA]
          rw [rewardSum_perm data ((hco.2 p hplt).2).symm c.leftA]
          abel
        rw [hrw]
      · rw [if_neg hAA]
        intro hfalse
        simp [SNode.isLeaf] at hfalse

theorem level_one2_upper (data : PData α) {S : List Nat} {sets : Family}
    (hco : Coherent data S sets) (hd : 0 < data.numRewards)
    (hp : 0 < data.numFeatures) :
    ∀ T : PTree α, T.valid data → T.depth ≤ 1 →
      treeValue data S T ≤ (level_one_learning2 data sets).reward := by
  intro T hvalid hdep
  cases T with
  | act a => exact level_one2_colsum_le data hco hd hp hvalid
  | branch j tq l r =>
      have hdl : l.depth = 0 := by
        have h1 : max l.depth r.depth + 1 ≤ 1 := hdep
        omega
      have hdr : r.depth = 0 := by
        have h1 : max l.depth r.depth + 1 ≤ 1 := hdep
        have h2 := le_max_right l.depth r.depth
        omega
      obtain ⟨aL, rfl⟩ := PTree.depth_zero hdl
      obtain ⟨aR, rfl⟩ := PTree.depth_zero hdr
      obtain ⟨hj, haL, haR⟩ := hvalid
      have hsort : Sortedj data j (sets.getD j []) := (hco.2 j hj).1
      have hperm : (sets.getD j []).Perm S := (hco.2 j hj).2
      have hmlen : (sets.getD j []).length = (sets.headD []).length := by
        rw [coherent_getD_len data hco hj, coherent_headD data hco hp,
            coherent_getD_len data hco hp]
      obtain ⟨htake, hdrop⟩ := sorted_filter_take data j tq (sets.getD j []) hsort
      set pts := sets.getD j [] with hpts
      set n₀ := pts.countP (fun i => decide (data.X i j ≤ tq)) with hn₀
      have hn₀le : n₀ ≤ pts.length := List.countP_le_length _
      rw [← treeValue_perm data hperm]
      rw [treeValue_branch data pts n₀ j tq _ _ htake hdrop]
      rw [treeValue_act, treeValue_act]
      by_cases hzero : n₀ = 0
      · rw [hzero, List.take_zero, List.drop_zero]
        have h0 : rewardSum data ([] : List Nat) aL = 0 := rfl
        rw [h0, zero_add]
        calc rewardSum data pts aR = rewardSum data S aR :=
              rewardSum_perm data hperm aR
          _ ≤ _ := level_one2_colsum_le data hco hd hp haR
      · by_cases hfull : n₀ = pts.length
        · rw [hfull, List.take_length, List.drop_length]
          have h0 : rewardSum data ([] : List Nat) aR = 0 := rfl
          rw [h0, add_zero]
          calc rewardSum data pts aL = rewardSum data S aL :=
                rewardSum_perm data hperm aL
            _ ≤ _ := level_one2_colsum_le data hco hd hp haL
        · have hn₀pos : 0 < n₀ := Nat.pos_of_ne_zero hzero
          have hn₀lt : n₀ < pts.length := lt_of_le_of_ne hn₀le hfull
          have hbnd1 : data.X (pts.getD (n₀ - 1) 0) j ≤ tq :=
            htake _ (getD_mem_take (by omega) hn₀le)
          have hbnd2 : ¬ data.X (pts.getD n₀ 0) j ≤ tq :=
            hdrop _ (getD_mem_drop hn₀lt)
          have hne : data.X (pts.getD (n₀ - 1) 0) j ≠ data.X (pts.getD n₀ 0) j := by
            intro he
            rw [he] at hbnd1
            exact hbnd2 hbnd1
          obtain ⟨labv, hbl⟩ := Option.isSome_iff_exists.mp
            ((bestOver_spec (fun d => cumSum data pts d n₀) data.numRewards).2.2 hd)
          obtain ⟨rabv, hbr⟩ := Option.isSome_iff_exists.mp
            ((bestOver_spec (fun d => cumSum data pts d (sets.headD []).length -
              cumSum data pts d n₀) data.numRewards).2.2 hd)
          obtain ⟨la, lb⟩ := labv
          obtain ⟨ra, rb⟩ := rabv
          have hleb := (bestOver_spec (fun d => cumSum data pts d n₀)
            data.numRewards).2.1 _ _ hbl
          have hreb := (bestOver_spec (fun d => cumSum data pts d
            (sets.headD []).length - cumSum data pts d n₀) data.numRewards).2.1 _ _ hbr
          have hL : rewardSum data (pts.take n₀) aL ≤ lb := by
            rw [← cumSum_eq_rewardSum_take]
            exact hleb.2.2.1 aL haL
          have hR : rewardSum data (pts.drop n₀) aR ≤ rb := by
            have h1 : cumSum data pts aR (sets.headD []).length -
                cumSum data pts aR n₀ ≤ rb := hreb.2.2.1 aR haR
            rw [← hmlen, cumSum_all] at h1
            have h2 : rewardSum data (pts.drop n₀) aR =
                rewardSum data pts aR - cumSum data pts aR n₀ := by
              have := rewardSum_take_drop data pts aR n₀
              rw [this]
              abel
            rw [h2]
            exact h1
          have hdom := l1Best2_dominates data hco hp j n₀ hj hn₀pos
            (by omega) hne la ra lb rb hbl hbr
          cases hbest : l1Best2 data sets with
          | none =>
              rw [hbest] at hdom
              exact absurd hdom (by simp [bestValL1])
          | some c =>
              rw [hbest] at hdom
              have hdom' : lb + rb ≤ c.bestReward := by
                have hbv : bestValL1 (some c) = ((c.bestReward : α) : WithBot α) := rfl
                rw [hbv] at hdom
                exact_mod_cast hdom
              rw [level_one2_reward_some data sets c hbest]
              calc rewardSum data (pts.take n₀) aL + rewardSum data (pts.drop n₀) aR ≤
                lb + rb := add_le_add hL hR
                _ ≤ c.bestReward := hdom'


/-!  ## The src recursive case: tracking-state machinery  -/

theorem pairValF_eq (st : FState2 α) (c : SFCand α) (h : st.pair = some c) :
    pairValF st = ((c.lch.reward + c.rch.reward : α) : WithBot α) := by
  unfold pairValF
  rw [h]

theorem pairValF_none (st : FState2 α) (h : st.pair = none) :
    pairValF st = ⊥ := by
  unfold pairValF
  rw [h]

theorem leafValF_eq (st : FState2 α) (lf : SNode α) (h : st.leafAns = some lf) :
    leafValF st = (lf.reward : WithBot α) := by
  unfold leafValF
  rw [h]

theorem leafValF_none (st : FState2 α) (h : st.leafAns = none) :
    leafValF st = ⊥ := by
  unfold leafValF
  rw [h]

theorem improves2_some (st : FState2 α) (L R : SNode α) (b : SFCand α)
    (hp2 : st.pair = some b) (h1 : improves2 st L R = true) :
    b.lch.reward + b.rch.reward < L.reward + R.reward := by
  unfold improves2 at h1
  rw [hp2] at h1
  exact of_decide_eq_true h1

theorem actionId_isSome_isLeaf (nd : SNode α) (h : nd.actionId.isSome = true) :
    nd.isLeaf = true := by
  cases nd with
  | leaf r a => rfl
  | split v vl r l rr => simp [SNode.actionId] at h

/-- Every evaluated candidate's summed child reward is below the
tracking state's value right after its update. -/
theorem updF2_ge_cand (st : FState2 α) (p : Nat) (v : α) (L R : SNode α) :
    ((L.reward + R.reward : α) : WithBot α) ≤ sValF (updF2 st p v L R) := by
  unfold updF2
  split_ifs with h1 h2
  · show ((L.reward + R.reward : α) : WithBot α) ≤ max _ _
    exact le_max_of_le_right le_rfl
  · show ((L.reward + R.reward : α) : WithBot α) ≤ max _ _
    exact le_max_of_le_left le_rfl
  · cases hp2 : st.pair with
    | none =>
        exfalso
        apply h1
        unfold improves2
        rw [hp2]
    | some b =>
        have hle : L.reward + R.reward ≤ b.lch.reward + b.rch.reward := by
          by_contra hlt
          apply h1
          unfold improves2
          rw [hp2]
          exact decide_eq_true (lt_of_not_le hlt)
        refine le_trans ?_ (le_max_left (pairValF st) (leafValF st))
        rw [pairValF_eq st b hp2]
        exact_mod_cast hle

/-- The update of the src tracking state preserves its invariant and
never decreases its value, provided every described candidate dominates
all column sums and prunable candidates collapse to full-frame column-sum
leaves. -/
theorem updF2_main (data : PData α) (S : List Nat) (sets : Family) (m : Nat)
    (rec : Family → SNode α) (st : FState2 α) (p : Nat) (v : α) (L R : SNode α)
    (hdom : ∀ c : SFCand α, SFCandOK data sets m rec c → ∀ b, b < data.numRewards →
      rewardSum data S b ≤ c.lch.reward + c.rch.reward)
    (hprune : (L.actionId.isSome && L.actionId == R.actionId) = true →
      LeafDesc data S (SNode.leaf (L.reward + R.reward) (L.actionId.getD 0)))
    (hcand : SFCandOK data sets m rec ⟨p, v, L, R⟩)
    (hst : SStOK data S sets m rec st) :
    SStOK data S sets m rec (updF2 st p v L R) ∧
      sValF st ≤ sValF (updF2 st p v L R) := by
  obtain ⟨hpair, hleaf⟩ := hst
  have hlfub : leafValF st ≤ ((L.reward + R.reward : α) : WithBot α) := by
    cases hlfc : st.leafAns with
    | none =>
        rw [leafValF_none st hlfc]
        exact bot_le
    | some lf =>
        rw [leafValF_eq st lf hlfc]
        obtain ⟨a, ha, hshape, _⟩ := hleaf lf hlfc
        rw [hshape]
        show ((rewardSum data S a : α) : WithBot α) ≤ _
        exact_mod_cast hdom ⟨p, v, L, R⟩ hcand a ha
  unfold updF2
  split_ifs with h1 h2
  · refine ⟨⟨?_, ?_⟩, ?_⟩
    · intro c hc
      simp at hc
    · intro lf hlf
      cases hlf
      exact hprune h2
    · have hub : sValF (⟨none, some (SNode.leaf (L.reward + R.reward)
          (L.actionId.getD 0))⟩ : FState2 α) =
          ((L.reward + R.reward : α) : WithBot α) := by
        show max ⊥ ((L.reward + R.reward : α) : WithBot α) = _
        simp
      rw [hub]
      show max (pairValF st) (leafValF st) ≤ _
      refine max_le ?_ hlfub
      cases hp2 : st.pair with
      | none =>
          rw [pairValF_none st hp2]
          exact bot_le
      | some b =>
          rw [pairValF_eq st b hp2]
          exact_mod_cast le_of_lt (improves2_some st L R b hp2 h1)
  · refine ⟨⟨?_, ?_⟩, ?_⟩
    · intro c hc
      cases hc
      exact hcand
    · intro lf hlf
      exact hleaf lf hlf
    · show max (pairValF st) (leafValF st) ≤
        max (pairValF ⟨some ⟨p, v, L, R⟩, st.leafAns⟩)
            (leafValF ⟨some ⟨p, v, L, R⟩, st.leafAns⟩)
      have hnp : pairValF (⟨some ⟨p, v, L, R⟩, st.leafAns⟩ : FState2 α) =
          ((L.reward + R.reward : α) : WithBot α) := rfl
      have hnl : leafValF (⟨some ⟨p, v, L, R⟩, st.leafAns⟩ : FState2 α) =
          leafValF st := rfl
      rw [hnp, hnl]
      refine max_le ?_ (le_max_right _ _)
      refine le_trans ?_ (le_max_left _ _)
      cases hp2 : st.pair with
      | none =>
          rw [pairValF_none st hp2]
          exact bot_le
      | some b =>
          rw [pairValF_eq st b hp2]
          exact_mod_cast le_of_lt (improves2_some st L R b hp2 h1)
  · exact ⟨⟨hpair, hleaf⟩, le_rfl⟩

/-- The src incremental walk preserves the tracking invariant and never
decreases the tracking value. -/
theorem fbsLoop2_main (data : PData α) (rec : Family → SNode α) {S : List Nat}
    {sets : Family} (hco : Coherent data S sets) (hndS : S.Nodup)
    (p : Nat) (hp : p < data.numFeatures) (m : Nat)
    (hm : (sets.getD p []).length = m)
    (hdom : ∀ c : SFCand α, SFCandOK data sets m rec c → ∀ b, b < data.numRewards →
      rewardSum data S b ≤ c.lch.reward + c.rch.reward)
    (hprune : ∀ c : SFCand α, SFCandOK data sets m rec c →
      (c.lch.actionId.isSome && c.lch.actionId == c.rch.actionId) = true →
      LeafDesc data S (SNode.leaf (c.lch.reward + c.rch.reward)
        (c.lch.actionId.getD 0))) :
    ∀ (k n : Nat) (st : FState2 α), SStOK data S sets m rec st →
      SStOK data S sets m rec (fbsLoop2 data rec p m k
        (famMoveN data (sets.getD p []) n sets).1
        (famMoveN data (sets.getD p []) n sets).2 st) ∧
      sValF st ≤ sValF (fbsLoop2 data rec p m k
        (famMoveN data (sets.getD p []) n sets).1
        (famMoveN data (sets.getD p []) n sets).2 st) := by
  intro k
  induction k with
  | zero => intro n st hst; exact ⟨hst, le_rfl⟩
  | succ k ih =>
      intro n st hst
      rw [fbsLoop2]
      rw [famMoveN_right_at_p data hco hndS p hp n]
      by_cases hn : n < (sets.getD p []).length
      · have hsome : ((sets.getD p []).drop n).head? =
            some ((sets.getD p []).getD n 0) := by
          rw [List.drop_eq_getElem_cons hn, List.head?_cons,
            List.getD_eq_getElem _ _ hn]
        simp only [hsome]
        have hLs : famInsert data ((sets.getD p []).getD n 0)
            (famMoveN data (sets.getD p []) n sets).1 =
            (famMoveN data (sets.getD p []) (n + 1) sets).1 :=
          (famMoveN_succ_left data _ sets hn).symm
        have hRs : famErase ((sets.getD p []).getD n 0)
            (famMoveN data (sets.getD p []) n sets).2 =
            (famMoveN data (sets.getD p []) (n + 1) sets).2 :=
          (famMoveN_succ_right data _ sets hn).symm
        rw [hRs, famMoveN_right_at_p data hco hndS p hp (n + 1)]
        by_cases hn1 : n + 1 < (sets.getD p []).length
        · have hsome2 : ((sets.getD p []).drop (n + 1)).head? =
              some ((sets.getD p []).getD (n + 1) 0) := by
            rw [List.drop_eq_getElem_cons hn1, List.head?_cons,
              List.getD_eq_getElem _ _ hn1]
          simp only [hsome2]
          rw [hLs]
          by_cases hskip : data.X ((sets.getD p []).getD (n + 1) 0) p ≤
              data.X ((sets.getD p []).getD n 0) p
          · rw [if_pos hskip]
            exact ih (n + 1) st hst
          · rw [if_neg hskip]
            have hcand : SFCandOK data sets m rec
                ⟨p, data.X ((sets.getD p []).getD n 0) p,
                  rec (famMoveN data (sets.getD p []) (n + 1) sets).1,
                  rec (famMoveN data (sets.getD p []) (n + 1) sets).2⟩ := by
              refine ⟨p, n + 1, hp, by omega, by omega, ?_, rfl⟩
              rw [show n + 1 - 1 = n from rfl]
              exact hskip
            obtain ⟨hstOK, hsv⟩ := updF2_main data S sets m rec st p
              (data.X ((sets.getD p []).getD n 0) p)
              (rec (famMoveN data (sets.getD p []) (n + 1) sets).1)
              (rec (famMoveN data (sets.getD p []) (n + 1) sets).2)
              hdom
              (hprune ⟨p, data.X ((sets.getD p []).getD n 0) p,
                rec (famMoveN data (sets.getD p []) (n + 1) sets).1,
                rec (famMoveN data (sets.getD p []) (n + 1) sets).2⟩ hcand)
              hcand hst
            obtain ⟨hst2, hsv2⟩ := ih (n + 1) _ hstOK
            exact ⟨hst2, le_trans hsv hsv2⟩
        · have hnil : (sets.getD p []).drop (n + 1) = [] :=
            List.drop_of_length_le (by omega)
          rw [hnil]
          exact ⟨hst, le_rfl⟩
      · have hnil : (sets.getD p []).drop n = [] :=
          List.drop_of_length_le (by omega)
        rw [hnil]
        exact ⟨hst, le_rfl⟩

/-- Every admissible boundary still ahead of the src walk is evaluated,
so the final tracking value dominates its candidate value. -/
theorem fbsLoop2_dominates (data : PData α) (rec : Family → SNode α) {S : List Nat}
    {sets : Family} (hco : Coherent data S sets) (hndS : S.Nodup)
    (p : Nat) (hp : p < data.numFeatures) (m : Nat)
    (hm : (sets.getD p []).length = m)
    (hdom : ∀ c : SFCand α, SFCandOK data sets m rec c → ∀ b, b < data.numRewards →
      rewardSum data S b ≤ c.lch.reward + c.rch.reward)
    (hprune : ∀ c : SFCand α, SFCandOK data sets m rec c →
      (c.lch.actionId.isSome && c.lch.actionId == c.rch.actionId) = true →
      LeafDesc data S (SNode.leaf (c.lch.reward + c.rch.reward)
        (c.lch.actionId.getD 0))) :
    ∀ (k n : Nat) (st : FState2 α), SStOK data S sets m rec st →
      ∀ n', n < n' → n' < m → n' ≤ n + k →
      ¬ data.X ((sets.getD p []).getD n' 0) p ≤
        data.X ((sets.getD p []).getD (n' - 1) 0) p →
      (((rec (famMoveN data (sets.getD p []) n' sets).1).reward +
        (rec (famMoveN data (sets.getD p []) n' sets).2).reward : α) : WithBot α) ≤
        sValF (fbsLoop2 data rec p m k
          (famMoveN data (sets.getD p []) n sets).1
          (famMoveN data (sets.getD p []) n sets).2 st) := by
  intro k
  induction k with
  | zero =>
      intro n st hst n' h1 h2 h3 _
      omega
  | succ k ih =>
      intro n st hst n' hnn' hn'm hn'k hne
      have hn : n < (sets.getD p []).length := by omega
      have hn1 : n + 1 < (sets.getD p []).length := by omega
      have hsome : ((sets.getD p []).drop n).head? =
          some ((sets.getD p []).getD n 0) := by
        rw [List.drop_eq_getElem_cons hn, List.head?_cons,
          List.getD_eq_getElem _ _ hn]
      have hsome2 : ((sets.getD p []).drop (n + 1)).head? =
          some ((sets.getD p []).getD (n + 1) 0) := by
        rw [List.drop_eq_getElem_cons hn1, List.head?_cons,
          List.getD_eq_getElem _ _ hn1]
      have hLs : famInsert data ((sets.getD p []).getD n 0)
          (famMoveN data (sets.getD p []) n sets).1 =
          (famMoveN data (sets.getD p []) (n + 1) sets).1 :=
        (famMoveN_succ_left data _ sets hn).symm
      have hRs : famErase ((sets.getD p []).getD n 0)
          (famMoveN data (sets.getD p []) n sets).2 =
          (famMoveN data (sets.getD p []) (n + 1) sets).2 :=
        (famMoveN_succ_right data _ sets hn).symm
      rw [fbsLoop2]
      rw [famMoveN_right_at_p data hco hndS p hp n]
      simp only [hsome]
      rw [hRs, famMoveN_right_at_p data hco hndS p hp (n + 1)]
      simp only [hsome2]
      rw [hLs]
      by_cases hcase : n' = n + 1
      · subst hcase
        have hcond : ¬ data.X ((sets.getD p []).getD (n + 1) 0) p ≤
            data.X ((sets.getD p []).getD n 0) p := by
          have := hne
          rw [show n + 1 - 1 = n from rfl] at this
          exact this
        rw [if_neg hcond]
        have hcand : SFCandOK data sets m rec
            ⟨p, data.X ((sets.getD p []).getD n 0) p,
              rec (famMoveN data (sets.getD p []) (n + 1) sets).1,
              rec (famMoveN data (sets.getD p []) (n + 1) sets).2⟩ := by
          refine ⟨p, n + 1, hp, by omega, by omega, hcond, rfl⟩
        obtain ⟨hstOK, _⟩ := updF2_main data S sets m rec st p
          (data.X ((sets.getD p []).getD n 0) p)
          (rec (famMoveN data (sets.getD p []) (n + 1) sets).1)
          (rec (famMoveN data (sets.getD p []) (n + 1) sets).2)
          hdom
          (hprune ⟨p, data.X ((sets.getD p []).getD n 0) p,
            rec (famMoveN data (sets.getD p []) (n + 1) sets).1,
            rec (famMoveN data (sets.getD p []) (n + 1) sets).2⟩ hcand)
          hcand hst
        refine le_trans (updF2_ge_cand st p
          (data.X ((sets.getD p []).getD n 0) p)
          (rec (famMoveN data (sets.getD p []) (n + 1) sets).1)
          (rec (famMoveN data (sets.getD p []) (n + 1) sets).2)) ?_
        exact (fbsLoop2_main data rec hco hndS p hp m hm hdom hprune k (n + 1)
          _ hstOK).2
      · by_cases hskip : data.X ((sets.getD p []).getD (n + 1) 0) p ≤
            data.X ((sets.getD p []).getD n 0) p
        · rw [if_pos hskip]
          exact ih (n + 1) st hst n' (by omega) hn'm (by omega) hne
        · rw [if_neg hskip]
          have hcand : SFCandOK data sets m rec
              ⟨p, data.X ((sets.getD p []).getD n 0) p,
                rec (famMoveN data (sets.getD p []) (n + 1) sets).1,
                rec (famMoveN data (sets.getD p []) (n + 1) sets).2⟩ := by
            refine ⟨p, n + 1, hp, by omega, by omega, ?_, rfl⟩
            rw [show n + 1 - 1 = n from rfl]
            exact hskip
          obtain ⟨hstOK, _⟩ := updF2_main data S sets m rec st p
            (data.X ((sets.getD p []).getD n 0) p)
            (rec (famMoveN data (sets.getD p []) (n + 1) sets).1)
            (rec (famMoveN data (sets.getD p []) (n + 1) sets).2)
            hdom
            (hprune ⟨p, data.X ((sets.getD p []).getD n 0) p,
              rec (famMoveN data (sets.getD p []) (n + 1) sets).1,
              rec (famMoveN data (sets.getD p []) (n + 1) sets).2⟩ hcand)
            hcand hst
          exact ih (n + 1) _ hstOK n' (by omega) hn'm (by omega) hne

theorem foldl_inv_mono {β γ : Type} (f : γ → β → γ) (I : γ → Prop)
    (val : γ → WithBot α)
    (hpres : ∀ acc b, I acc → I (f acc b))
    (hmono : ∀ acc b, I acc → val acc ≤ val (f acc b)) :
    ∀ (l : List β) (acc : γ), I acc → val acc ≤ val (l.foldl f acc) := by
  intro l
  induction l with
  | nil => intro acc _; exact le_rfl
  | cons b bs ih =>
      intro acc hI
      exact le_trans (hmono acc b hI) (ih (f acc b) (hpres acc b hI))

theorem foldl_inv_preserve {β γ : Type} (f : γ → β → γ) (I : γ → Prop)
    (hpres : ∀ acc b, I acc → I (f acc b)) :
    ∀ (l : List β) (acc : γ), I acc → I (l.foldl f acc) := by
  intro l
  induction l with
  | nil => intro acc h; exact h
  | cons b bs ih => intro acc hI; exact ih (f acc b) (hpres acc b hI)

theorem foldl_inv_le {β γ : Type} (f : γ → β → γ) (I : γ → Prop)
    (val : γ → WithBot α) (x : WithBot α) (p : β)
    (hpres : ∀ acc b, I acc → I (f acc b))
    (hmono : ∀ acc b, I acc → val acc ≤ val (f acc b))
    (hp : ∀ acc, I acc → x ≤ val (f acc p)) :
    ∀ (l : List β) (acc : γ), I acc → p ∈ l → x ≤ val (l.foldl f acc) := by
  intro l
  induction l with
  | nil => intro acc _ h; cases h
  | cons b bs ih =>
      intro acc hI hmem
      rcases List.mem_cons.mp hmem with rfl | hmem'
      · exact le_trans (hp acc hI)
          (foldl_inv_mono f I val hpres hmono bs (f acc p) (hpres acc p hI))
      · exact ih (f acc b) (hpres acc b hI) hmem'


theorem foldl_inv_mono_mem {β γ : Type} (f : γ → β → γ) (I : γ → Prop)
    (val : γ → WithBot α) :
    ∀ (l : List β) (acc : γ), I acc →
      (∀ acc b, b ∈ l → I acc → I (f acc b)) →
      (∀ acc b, b ∈ l → I acc → val acc ≤ val (f acc b)) →
      val acc ≤ val (l.foldl f acc) := by
  intro l
  induction l with
  | nil =>
      intro acc _ _ _
      exact le_rfl
  | cons b bs ih =>
      intro acc hI hpres hmono
      refine le_trans (hmono acc b (List.mem_cons_self b bs) hI) ?_
      exact ih (f acc b) (hpres acc b (List.mem_cons_self b bs) hI)
        (fun a c hc => hpres a c (List.mem_cons_of_mem b hc))
        (fun a c hc => hmono a c (List.mem_cons_of_mem b hc))

theorem foldl_inv_le_mem {β γ : Type} (f : γ → β → γ) (I : γ → Prop)
    (val : γ → WithBot α) (x : WithBot α) (p : β) :
    ∀ (l : List β) (acc : γ), I acc → p ∈ l →
      (∀ acc b, b ∈ l → I acc → I (f acc b)) →
      (∀ acc b, b ∈ l → I acc → val acc ≤ val (f acc b)) →
      (∀ acc, I acc → x ≤ val (f acc p)) →
      x ≤ val (l.foldl f acc) := by
  intro l
  induction l with
  | nil =>
      intro acc _ h _ _ _
      cases h
  | cons b bs ih =>
      intro acc hI hmem hpres hmono hp
      rcases List.mem_cons.mp hmem with rfl | hmem'
      · refine le_trans (hp acc hI) ?_
        exact foldl_inv_mono_mem f I val bs (f acc p)
          (hpres acc p (List.mem_cons_self p bs) hI)
          (fun a c hc => hpres a c (List.mem_cons_of_mem p hc))
          (fun a c hc => hmono a c (List.mem_cons_of_mem p hc))
      · exact ih (f acc b) (hpres acc b (List.mem_cons_self b bs) hI) hmem'
          (fun a c hc => hpres a c (List.mem_cons_of_mem b hc))
          (fun a c hc => hmono a c (List.mem_cons_of_mem b hc)) hp

/-- Column-sum dominance of described src level-2 candidates (children
are depth-1 searches of the walked frames). -/
theorem sfcand_dom (data : PData α) {S : List Nat} {sets : Family}
    (hco : Coherent data S sets) (hndS : S.Nodup) (hd : 0 < data.numRewards)
    (hp : 0 < data.numFeatures) :
    ∀ c : SFCand α, SFCandOK data sets (sets.headD []).length
        (fun fam => level_one_learning2 data fam) c →
      ∀ b, b < data.numRewards → rewardSum data S b ≤ c.lch.reward + c.rch.reward := by
  intro c hcok b hb
  obtain ⟨p, n', hplt, hn0, hnm, hne, hceq⟩ := hcok
  obtain ⟨hcoL, hcoR⟩ := famMoveN_coherent data hco hndS hplt n'
  have hlch : c.lch =
      level_one_learning2 data (famMoveN data (sets.getD p []) n' sets).1 := by
    rw [hceq]
  have hrch : c.rch =
      level_one_learning2 data (famMoveN data (sets.getD p []) n' sets).2 := by
    rw [hceq]
  have h1 : rewardSum data ((sets.getD p []).take n') b ≤ c.lch.reward := by
    rw [hlch]
    exact level_one2_colsum_le data hcoL hd hp hb
  have h2 : rewardSum data ((sets.getD p []).drop n') b ≤ c.rch.reward := by
    rw [hrch]
    exact level_one2_colsum_le data hcoR hd hp hb
  rw [rewardSum_perm data ((hco.2 p hplt).2).symm b,
    rewardSum_take_drop data (sets.getD p []) b n', cumSum_eq_rewardSum_take]
  exact add_le_add h1 h2

/-- Prunable described candidates collapse into full-frame column-sum
leaves. -/
theorem sfcand_prune (data : PData α) {S : List Nat} {sets : Family}
    (hco : Coherent data S sets) (hndS : S.Nodup) (hd : 0 < data.numRewards)
    (hp : 0 < data.numFeatures) :
    ∀ c : SFCand α, SFCandOK data sets (sets.headD []).length
        (fun fam => level_one_learning2 data fam) c →
      (c.lch.actionId.isSome && c.lch.actionId == c.rch.actionId) = true →
      LeafDesc data S (SNode.leaf (c.lch.reward + c.rch.reward)
        (c.lch.actionId.getD 0)) := by
  intro c hcok hpr
  obtain ⟨hisSome, hbeq⟩ : c.lch.actionId.isSome = true ∧
      (c.lch.actionId == c.rch.actionId) = true := by simpa using hpr
  have haeq : c.lch.actionId = c.rch.actionId := eq_of_beq hbeq
  obtain ⟨p, n', hplt, hn0, hnm, hne, hceq⟩ := hcok
  obtain ⟨hcoL, hcoR⟩ := famMoveN_coherent data hco hndS hplt n'
  have hlch : c.lch =
      level_one_learning2 data (famMoveN data (sets.getD p []) n' sets).1 := by
    rw [hceq]
  have hrch : c.rch =
      level_one_learning2 data (famMoveN data (sets.getD p []) n' sets).2 := by
    rw [hceq]
  have hlfL : c.lch.isLeaf = true := actionId_isSome_isLeaf c.lch hisSome
  have hlfR : c.rch.isLeaf = true := by
    refine actionId_isSome_isLeaf c.rch ?_
    rw [← haeq]
    exact hisSome
  obtain ⟨aL, haL, hLeq⟩ := level_one2_leaf_reward data hcoL hd hp
    (by rw [← hlch]; exact hlfL)
  obtain ⟨aR, haR, hReq⟩ := level_one2_leaf_reward data hcoR hd hp
    (by rw [← hrch]; exact hlfR)
  have hLc : c.lch = SNode.leaf (rewardSum data ((sets.getD p []).take n') aL) aL := by
    rw [hlch, hLeq]
  have hRc : c.rch = SNode.leaf (rewardSum data ((sets.getD p []).drop n') aR) aR := by
    rw [hrch, hReq]
  have haLR : aL = aR := by
    have h1 := haeq
    rw [hLc, hRc] at h1
    exact Option.some.inj h1
  have hsum : c.lch.reward + c.rch.reward = rewardSum data S aL := by
    rw [hLc, hRc, ← haLR]
    show rewardSum data ((sets.getD p []).take n') aL +
      rewardSum data ((sets.getD p []).drop n') aL = rewardSum data S aL
    rw [rewardSum_perm data ((hco.2 p hplt).2).symm aL,
      rewardSum_take_drop data (sets.getD p []) aL n', cumSum_eq_rewardSum_take]
  have hact : c.lch.actionId.getD 0 = aL := by
    rw [hLc]
    rfl
  refine ⟨aL, haL, ?_, ?_⟩
  · rw [hsum, hact]
  · intro b hbb
    rw [← hsum]
    exact sfcand_dom data hco hndS hd hp c ⟨p, n', hplt, hn0, hnm, hne, hceq⟩ b hbb

/-- The final src level-2 tracking state satisfies its invariant. -/
theorem fbsState2_spec (data : PData α) {S : List Nat} {sets : Family}
    (hco : Coherent data S sets) (hndS : S.Nodup) (hd : 0 < data.numRewards)
    (hp : 0 < data.numFeatures) :
    SStOK data S sets (sets.headD []).length
      (fun fam => level_one_learning2 data fam)
      (fbsState2 data (fun fam => level_one_learning2 data fam) sets) := by
  unfold fbsState2
  refine foldl_preserve_mem
    (SStOK data S sets (sets.headD []).length
      (fun fam => level_one_learning2 data fam))
    _ (List.range data.numFeatures) ⟨none, none⟩
    ⟨(by intro c hc; cases hc), (by intro lf hlf; cases hlf)⟩ ?_
  intro acc b hbmem hacc
  have hblt : b < data.numFeatures := List.mem_range.mp hbmem
  have hmb : (sets.getD b []).length = (sets.headD []).length := by
    rw [coherent_getD_len data hco hblt, coherent_headD data hco hp,
        coherent_getD_len data hco hp]
  exact (fbsLoop2_main data (fun fam => level_one_learning2 data fam) hco hndS b hblt
    (sets.headD []).length hmb (sfcand_dom data hco hndS hd hp)
    (sfcand_prune data hco hndS hd hp) ((sets.headD []).length - 1) 0 acc hacc).1

/-- The final src level-2 tracking value dominates every admissible
boundary's candidate value. -/
theorem fbsState2_dominates (data : PData α) {S : List Nat} {sets : Family}
    (hco : Coherent data S sets) (hndS : S.Nodup) (hd : 0 < data.numRewards)
    (hp : 0 < data.numFeatures) (p n' : Nat) (hplt : p < data.numFeatures)
    (hn0 : 0 < n') (hnm : n' < (sets.headD []).length)
    (hne : ¬ data.X ((sets.getD p []).getD n' 0) p ≤
      data.X ((sets.getD p []).getD (n' - 1) 0) p) :
    (((level_one_learning2 data (famMoveN data (sets.getD p []) n' sets).1).reward +
      (level_one_learning2 data
        (famMoveN data (sets.getD p []) n' sets).2).reward : α) : WithBot α) ≤
      sValF (fbsState2 data (fun fam => level_one_learning2 data fam) sets) := by
  have hm : (sets.getD p []).length = (sets.headD []).length := by
    rw [coherent_getD_len data hco hplt, coherent_headD data hco hp,
        coherent_getD_len data hco hp]
  unfold fbsState2
  refine foldl_inv_le_mem _
    (SStOK data S sets (sets.headD []).length
      (fun fam => level_one_learning2 data fam)) sValF _ p
    (List.range data.numFeatures) ⟨none, none⟩
    ⟨(by intro c hc; cases hc), (by intro lf hlf; cases hlf)⟩
    (List.mem_range.mpr hplt) ?_ ?_ ?_
  · intro acc b hbmem hacc
    have hblt : b < data.numFeatures := List.mem_range.mp hbmem
    have hmb : (sets.getD b []).length = (sets.headD []).length := by
      rw [coherent_getD_len data hco hblt, coherent_headD data hco hp,
          coherent_getD_len data hco hp]
    exact (fbsLoop2_main data (fun fam => level_one_learning2 data fam) hco hndS
      b hblt (sets.headD []).length hmb (sfcand_dom data hco hndS hd hp)
      (sfcand_prune data hco hndS hd hp) ((sets.headD []).length - 1) 0 acc hacc).1
  · intro acc b hbmem hacc
    have hblt : b < data.numFeatures := List.mem_range.mp hbmem
    have hmb : (sets.getD b []).length = (sets.headD []).length := by
      rw [coherent_getD_len data hco hblt, coherent_headD data hco hp,
          coherent_getD_len data hco hp]
    exact (fbsLoop2_main data (fun fam => level_one_learning2 data fam) hco hndS
      b hblt (sets.headD []).length hmb (sfcand_dom data hco hndS hd hp)
      (sfcand_prune data hco hndS hd hp) ((sets.headD []).length - 1) 0 acc hacc).2
  · intro acc hacc
    exact fbsLoop2_dominates data (fun fam => level_one_learning2 data fam) hco hndS
      p hplt (sets.headD []).length hm (sfcand_dom data hco hndS hd hp)
      (sfcand_prune data hco hndS hd hp) ((sets.headD []).length - 1) 0 acc hacc
      n' hn0 hnm (by omega) hne

/-- The assembled src level-2 answer realizes at least the tracking
value. -/
theorem fbsAssemble2_reward_ge (data : PData α) {S : List Nat} {sets : Family}
    (hco : Coherent data S sets) (hndS : S.Nodup) (hd : 0 < data.numRewards)
    (hp : 0 < data.numFeatures) (st : FState2 α)
    (hst : SStOK data S sets (sets.headD []).length
      (fun fam => level_one_learning2 data fam) st) :
    sValF st ≤ (((fbsAssemble2 data sets st).reward : α) : WithBot α) := by
  obtain ⟨hpairOK, hleafOK⟩ := hst
  unfold fbsAssemble2
  cases hpp : st.pair with
  | some c =>
      show sValF st ≤ ((c.lch.reward + c.rch.reward : α) : WithBot α)
      unfold sValF
      refine max_le ?_ ?_
      · rw [pairValF_eq st c hpp]
      · cases hla : st.leafAns with
        | none =>
            rw [leafValF_none st hla]
            exact bot_le
        | some lf =>
            rw [leafValF_eq st lf hla]
            obtain ⟨a, ha, hshape, _⟩ := hleafOK lf hla
            rw [hshape]
            show ((rewardSum data S a : α) : WithBot α) ≤ _
            exact_mod_cast sfcand_dom data hco hndS hd hp c (hpairOK c hpp) a ha
  | none =>
      cases hla : st.leafAns with
      | some lf =>
          show sValF st ≤ ((lf.reward : α) : WithBot α)
          unfold sValF
          refine max_le ?_ ?_
          · rw [pairValF_none st hpp]
            exact bot_le
          · rw [leafValF_eq st lf hla]
      | none =>
          unfold sValF
          refine max_le ?_ ?_
          · rw [pairValF_none st hpp]
            exact bot_le
          · rw [leafValF_none st hla]
            exact bot_le

/-- Routed total reward equals the recorded reward for the src level-2
answer. -/
theorem fbsStep2_value (data : PData α) {S : List Nat} {sets : Family}
    (hco : Coherent data S sets) (hndS : S.Nodup) (hd : 0 < data.numRewards)
    (hp : 0 < data.numFeatures) :
    policyValue2 data S
        (fbsStep2 data (fun fam => level_one_learning2 data fam) sets) =
      (fbsStep2 data (fun fam => level_one_learning2 data fam) sets).reward := by
  obtain ⟨hpairOK, hleafOK⟩ := fbsState2_spec data hco hndS hd hp
  unfold fbsStep2 fbsAssemble2
  cases hpp : (fbsState2 data (fun fam => level_one_learning2 data fam) sets).pair with
  | some c =>
      obtain ⟨p, n', hplt, hn0, hnm, hne, hceq⟩ := hpairOK c hpp
      have hsort : Sortedj data p (sets.getD p []) := (hco.2 p hplt).1
      have hperm : (sets.getD p []).Perm S := (hco.2 p hplt).2
      have hmlen : (sets.getD p []).length = (sets.headD []).length := by
        rw [coherent_getD_len data hco hplt, coherent_headD data hco hp,
            coherent_getD_len data hco hp]
      have hn'len : n' < (sets.getD p []).length := by omega
      obtain ⟨hcoL, hcoR⟩ := famMoveN_coherent data hco hndS hplt n'
      have hlch : c.lch =
          level_one_learning2 data (famMoveN data (sets.getD p []) n' sets).1 := by
        rw [hceq]
      have hrch : c.rch =
          level_one_learning2 data (famMoveN data (sets.getD p []) n' sets).2 := by
        rw [hceq]
      have hvar : c.var = p := by rw [hceq]
      have hval : c.val = data.X ((sets.getD p []).getD (n' - 1) 0) p := by rw [hceq]
      have hvL : policyValue2 data ((sets.getD p []).take n') c.lch =
          c.lch.reward := by
        rw [hlch]
        exact level_one2_value data hcoL hd hp
      have hvR : policyValue2 data ((sets.getD p []).drop n') c.rch =
          c.rch.reward := by
        rw [hrch]
        exact level_one2_value data hcoR hd hp
      show policyValue2 data S
          (SNode.split c.var c.val (c.lch.reward + c.rch.reward) c.lch c.rch) =
        (SNode.split c.var c.val (c.lch.reward + c.rch.reward) c.lch c.rch).reward
      have hlt : data.X ((sets.getD p []).getD (n' - 1) 0) p <
          data.X ((sets.getD p []).getD n' 0) p := by
        have := sorted_val_mono data p hsort hn'len (by omega : n' - 1 ≤ n')
        rcases lt_or_eq_of_le this with h | h
        · exact h
        · exact absurd (le_of_eq h.symm) hne
      have hleft : ∀ i ∈ (sets.getD p []).take n', data.X i c.var ≤ c.val := by
        intro i hi
        rw [hvar, hval]
        exact sorted_take_le data p hsort hn0 (by omega) i hi
      have hright : ∀ i ∈ (sets.getD p []).drop n', ¬ data.X i c.var ≤ c.val := by
        intro i hi
        rw [hvar, hval]
        intro hle
        have := sorted_drop_ge data p hsort hn'len i hi
        exact absurd (le_trans this hle) (not_le_of_lt hlt)
      rw [← policyValue2_perm data hperm]
      rw [policyValue2_node data (sets.getD p []) n' c.var c.val
        (c.lch.reward + c.rch.reward) c.lch c.rch hleft hright]
      show policyValue2 data ((sets.getD p []).take n') c.lch +
        policyValue2 data ((sets.getD p []).drop n') c.rch =
        c.lch.reward + c.rch.reward
      rw [hvL, hvR]
  | none =>
      cases hla : (fbsState2 data
          (fun fam => level_one_learning2 data fam) sets).leafAns with
      | some lf =>
          obtain ⟨a, ha, hshape, _⟩ := hleafOK lf hla
          show policyValue2 data S lf = lf.reward
          rw [hshape, policyValue2_leaf]
          rfl
      | none => exact level_zero2_value data hco hd hp

theorem fbsStep2_colsum_le (data : PData α) {S : List Nat} {sets : Family}
    (hco : Coherent data S sets) (hndS : S.Nodup) (hd : 0 < data.numRewards)
    (hp : 0 < data.numFeatures) {b : Nat} (hb : b < data.numRewards) :
    rewardSum data S b ≤
      (fbsStep2 data (fun fam => level_one_learning2 data fam) sets).reward := by
  obtain ⟨hpairOK, hleafOK⟩ := fbsState2_spec data hco hndS hd hp
  unfold fbsStep2 fbsAssemble2
  cases hpp : (fbsState2 data (fun fam => level_one_learning2 data fam) sets).pair with
  | some c =>
      show rewardSum data S b ≤ c.lch.reward + c.rch.reward
      exact sfcand_dom data hco hndS hd hp c (hpairOK c hpp) b hb
  | none =>
      cases hla : (fbsState2 data
          (fun fam => level_one_learning2 data fam) sets).leafAns with
      | some lf =>
          obtain ⟨a, ha, hshape, hdomL⟩ := hleafOK lf hla
          show rewardSum data S b ≤ lf.reward
          rw [hshape]
          exact hdomL b hb
      | none => exact level_zero2_colsum_le data hco hd hp hb

theorem fbsStep2_upper (data : PData α) {S : List Nat} {sets : Family}
    (hco : Coherent data S sets) (hndS : S.Nodup) (hd : 0 < data.numRewards)
    (hp : 0 < data.numFeatures) :
    ∀ T : PTree α, T.valid data → T.depth ≤ 2 →
      treeValue data S T ≤
        (fbsStep2 data (fun fam => level_one_learning2 data fam) sets).reward := by
  intro T
  induction T with
  | act a =>
      intro hval _
      exact fbsStep2_colsum_le data hco hndS hd hp hval
  | branch j tq L R ihL ihR =>
      intro hval hdep
      obtain ⟨hj, hvL, hvR⟩ := hval
      have hmax : max L.depth R.depth + 1 ≤ 2 := hdep
      have hdepL : L.depth ≤ 1 := by
        have := le_max_left L.depth R.depth
        omega
      have hdepR : R.depth ≤ 1 := by
        have := le_max_right L.depth R.depth
        omega
      have hsort : Sortedj data j (sets.getD j []) := (hco.2 j hj).1
      have hperm : (sets.getD j []).Perm S := (hco.2 j hj).2
      have hmlen : (sets.getD j []).length = (sets.headD []).length := by
        rw [coherent_getD_len data hco hj, coherent_headD data hco hp,
            coherent_getD_len data hco hp]
      obtain ⟨htk, hdr⟩ := sorted_filter_take data j tq (sets.getD j []) hsort
      set pts := sets.getD j [] with hpts
      set n₀ := pts.countP (fun i => decide (data.X i j ≤ tq)) with hn₀
      have hn₀le : n₀ ≤ pts.length := List.countP_le_length _
      rw [← treeValue_perm data hperm]
      rw [treeValue_branch data pts n₀ j tq L R htk hdr]
      by_cases hzero : n₀ = 0
      · rw [hzero, List.take_zero, List.drop_zero, treeValue_nil, zero_add]
        rw [treeValue_perm data hperm R]
        exact ihR hvR (by omega)
      · by_cases hfull : n₀ = pts.length
        · rw [hfull, List.take_length, List.drop_length, treeValue_nil, add_zero]
          rw [treeValue_perm data hperm L]
          exact ihL hvL (by omega)
        · have hn₀pos : 0 < n₀ := Nat.pos_of_ne_zero hzero
          have hn₀lt : n₀ < pts.length := lt_of_le_of_ne hn₀le hfull
          have hbnd1 : data.X (pts.getD (n₀ - 1) 0) j ≤ tq :=
            htk _ (getD_mem_take (by omega) hn₀le)
          have hbnd2 : ¬ data.X (pts.getD n₀ 0) j ≤ tq :=
            hdr _ (getD_mem_drop hn₀lt)
          have hne' : ¬ data.X (pts.getD n₀ 0) j ≤
              data.X (pts.getD (n₀ - 1) 0) j := by
            intro hle
            exact hbnd2 (le_trans hle hbnd1)
          obtain ⟨hcoL, hcoR⟩ := famMoveN_coherent data hco hndS hj n₀
          have hL : treeValue data (pts.take n₀) L ≤
              (level_one_learning2 data (famMoveN data pts n₀ sets).1).reward :=
            level_one2_upper data hcoL hd hp L hvL hdepL
          have hR : treeValue data (pts.drop n₀) R ≤
              (level_one_learning2 data (famMoveN data pts n₀ sets).2).reward :=
            level_one2_upper data hcoR hd hp R hvR hdepR
          have hdom := fbsState2_dominates data hco hndS hd hp j n₀ hj hn₀pos
            (by omega) hne'
          have hge := fbsAssemble2_reward_ge data hco hndS hd hp
            (fbsState2 data (fun fam => level_one_learning2 data fam) sets)
            (fbsState2_spec data hco hndS hd hp)
          have hchain := le_trans hdom hge
          have hchain' : (level_one_learning2 data (famMoveN data pts n₀ sets).1).reward +
              (level_one_learning2 data (famMoveN data pts n₀ sets).2).reward ≤
              (fbsStep2 data (fun fam => level_one_learning2 data fam) sets).reward := by
            exact_mod_cast hchain
          calc treeValue data (pts.take n₀) L + treeValue data (pts.drop n₀) R
              ≤ (level_one_learning2 data (famMoveN data pts n₀ sets).1).reward +
                (level_one_learning2 data (famMoveN data pts n₀ sets).2).reward :=
                add_le_add hL hR
            _ ≤ _ := hchain'

theorem fbsStep2_valid (data : PData α) {S : List Nat} {sets : Family}
    (hco : Coherent data S sets) (hndS : S.Nodup) (hd : 0 < data.numRewards)
    (hp : 0 < data.numFeatures) :
    ((fbsStep2 data
        (fun fam => level_one_learning2 data fam) sets).toPTree).valid data := by
  obtain ⟨hpairOK, hleafOK⟩ := fbsState2_spec data hco hndS hd hp
  unfold fbsStep2 fbsAssemble2
  cases hpp : (fbsState2 data (fun fam => level_one_learning2 data fam) sets).pair with
  | some c =>
      obtain ⟨p, n', hplt, hn0, hnm, hne, hceq⟩ := hpairOK c hpp
      obtain ⟨hcoL, hcoR⟩ := famMoveN_coherent data hco hndS hplt n'
      have hlch : c.lch =
          level_one_learning2 data (famMoveN data (sets.getD p []) n' sets).1 := by
        rw [hceq]
      have hrch : c.rch =
          level_one_learning2 data (famMoveN data (sets.getD p []) n' sets).2 := by
        rw [hceq]
      show (PTree.branch c.var c.val c.lch.toPTree c.rch.toPTree).valid data
      refine ⟨by rw [hceq]; exact hplt, ?_, ?_⟩
      · rw [hlch]
        exact level_one2_valid data hcoL hd hp
      · rw [hrch]
        exact level_one2_valid data hcoR hd hp
  | none =>
      cases hla : (fbsState2 data
          (fun fam => level_one_learning2 data fam) sets).leafAns with
      | some lf =>
          obtain ⟨a, ha, hshape, _⟩ := hleafOK lf hla
          show (lf.toPTree).valid data
          rw [hshape]
          exact ha
      | none => exact level_zero2_valid data sets hd

theorem fbsStep2_toPTree_depth (data : PData α) {S : List Nat} {sets : Family}
    (hco : Coherent data S sets) (hndS : S.Nodup) (hd : 0 < data.numRewards)
    (hp : 0 < data.numFeatures) :
    ((fbsStep2 data
        (fun fam => level_one_learning2 data fam) sets).toPTree).depth ≤ 2 := by
  obtain ⟨hpairOK, hleafOK⟩ := fbsState2_spec data hco hndS hd hp
  unfold fbsStep2 fbsAssemble2
  cases hpp : (fbsState2 data (fun fam => level_one_learning2 data fam) sets).pair with
  | some c =>
      obtain ⟨p, n', hplt, hn0, hnm, hne, hceq⟩ := hpairOK c hpp
      have hlch : c.lch =
          level_one_learning2 data (famMoveN data (sets.getD p []) n' sets).1 := by
        rw [hceq]
      have hrch : c.rch =
          level_one_learning2 data (famMoveN data (sets.getD p []) n' sets).2 := by
        rw [hceq]
      have hdL : (c.lch.toPTree).depth ≤ 1 := by
        rw [hlch]
        exact level_one2_toPTree_depth data _ hd
      have hdR : (c.rch.toPTree).depth ≤ 1 := by
        rw [hrch]
        exact level_one2_toPTree_depth data _ hd
      show max (c.lch.toPTree).depth (c.rch.toPTree).depth + 1 ≤ 2
      omega
  | none =>
      cases hla : (fbsState2 data
          (fun fam => level_one_learning2 data fam) sets).leafAns with
      | some lf =>
          obtain ⟨a, _, hshape, _⟩ := hleafOK lf hla
          show (lf.toPTree).depth ≤ 2
          rw [hshape]
          exact Nat.zero_le 2
      | none =>
          show ((level_zero_learning2 data sets).toPTree).depth ≤ 2
          rw [level_zero2_toPTree_depth data sets hd]
          omega

theorem tree_search2_one (data : PData α) :
    tree_search2 data 1 = level_one_learning2 data (create_sorted_sets data) := by
  show find_best_split2 data (1 + data.numRows + 1) 1 (create_sorted_sets data) = _
  rw [find_best_split2, if_pos rfl]

theorem tree_search2_two (data : PData α) :
    tree_search2 data 2 = fbsStep2 data (fun fam => level_one_learning2 data fam)
      (create_sorted_sets data) := by
  show find_best_split2 data (2 + data.numRows + 1) 2 (create_sorted_sets data) = _
  rw [find_best_split2, if_neg (by omega)]
  have hrec : find_best_split2 data (2 + data.numRows) (2 - 1) =
      fun fam => level_one_learning2 data fam := by
    funext fam
    show find_best_split2 data (2 + data.numRows) 1 fam =
      level_one_learning2 data fam
    rw [show 2 + data.numRows = 1 + data.numRows + 1 from by omega]
    rw [find_best_split2, if_pos rfl]
  rw [hrec]


/-- **C3** (amended: the src implementation requires depth ≥ 1).  For
every finite input with `N ≥ 2`, depth at most 2, `split_step = 1` and
`min_node_size = 1`, the r-package exact search returns a tree whose
total reward is the maximum, over all axis-aligned binary decision trees
of at most that depth with one action per leaf, of the total reward of
the routed observations; the src implementation satisfies the same for
depth 1 and 2, but not for depth 0 (its `find_best_split` has no
`level == 0` base case — see the counterexample). -/
theorem C3_exact_optimality (data : PData α) (depth : Nat)
    (hd : 0 < data.numRewards) (hp : 0 < data.numFeatures)
    (hN : 2 ≤ data.numRows) (hdep : depth ≤ 2) :
    IsGreatest {v : α | ∃ T : PTree α, T.valid data ∧ T.depth ≤ depth ∧
        v = treeValue data (List.range data.numRows) T}
      (tree_search data depth 1 1).reward ∧
    (1 ≤ depth →
      IsGreatest {v : α | ∃ T : PTree α, T.valid data ∧ T.depth ≤ depth ∧
          v = treeValue data (List.range data.numRows) T}
        (tree_search2 data depth).reward) := by
  have hcoS := create_sorted_sets_coherent data
  have hndS := List.nodup_range data.numRows
  constructor
  · constructor
    · obtain ⟨T, h1, h2, h3⟩ := find_best_split_achieved data 1 1 hd hp depth
        hcoS hndS 0
      exact ⟨T, h1, h2, h3.symm⟩
    · rintro v ⟨T, h1, h2, rfl⟩
      exact find_best_split_optimal data hd hp depth hcoS hndS 0 T h1 h2
  · intro hdep1
    interval_cases depth
    · rw [tree_search2_one]
      constructor
      · refine ⟨(level_one_learning2 data (create_sorted_sets data)).toPTree,
          level_one2_valid data hcoS hd hp,
          level_one2_toPTree_depth data (create_sorted_sets data) hd, ?_⟩
        rw [treeValue_toPTree2]
        exact (level_one2_value data hcoS hd hp).symm
      · rintro v ⟨T, h1, h2, rfl⟩
        exact level_one2_upper data hcoS hd hp T h1 h2
    · rw [tree_search2_two]
      constructor
      · refine ⟨(fbsStep2 data (fun fam => level_one_learning2 data fam)
            (create_sorted_sets data)).toPTree,
          fbsStep2_valid data hcoS hndS hd hp,
          fbsStep2_toPTree_depth data hcoS hndS hd hp, ?_⟩
        rw [treeValue_toPTree2]
        exact (fbsStep2_value data hcoS hndS hd hp).symm
      · rintro v ⟨T, h1, h2, rfl⟩
        exact fbsStep2_upper data hcoS hndS hd hp T h1 h2

/-- On scenario-1 data the src search at depth 0 returns an interior
tree of reward 4, which is not the best depth-0 value (both single-leaf
policies collect only 2): the claim fails for the src implementation at
depth 0. -/
theorem C3_src_depth_zero_counterexample :
    ¬ IsGreatest {v : ℤ | ∃ T : PTree ℤ, T.valid exA ∧ T.depth ≤ 0 ∧
        v = treeValue exA (List.range exA.numRows) T}
      (tree_search2 exA 0).reward := by
  intro h
  obtain ⟨⟨T, hv, hdepT, heq⟩, _⟩ := h
  obtain ⟨a, rfl⟩ := PTree.depth_zero (Nat.le_zero.mp hdepT)
  have ha : a < 2 := hv
  have hr : (tree_search2 exA 0).reward = 4 := by decide
  rw [hr] at heq
  interval_cases a
  · exact absurd heq (by decide)
  · exact absurd heq (by decide)

theorem C3_exact_optimality_witness :
    0 < exA.numRewards ∧ 0 < exA.numFeatures ∧ 2 ≤ exA.numRows ∧ (2 : Nat) ≤ 2 ∧
      (IsGreatest {v : ℤ | ∃ T : PTree ℤ, T.valid exA ∧ T.depth ≤ 2 ∧
          v = treeValue exA (List.range exA.numRows) T}
        (tree_search exA 2 1 1).reward ∧
      (1 ≤ 2 →
        IsGreatest {v : ℤ | ∃ T : PTree ℤ, T.valid exA ∧ T.depth ≤ 2 ∧
            v = treeValue exA (List.range exA.numRows) T}
          (tree_search2 exA 2).reward)) :=
  ⟨by decide, by decide, by decide, by decide,
    C3_exact_optimality exA 2 (by decide) (by decide) (by decide) (by decide)⟩

/-!  ## The hybrid loop never modifies the result tree  -/

/-- Every branch of the expansion loop returns `start` unchanged: the C++
never reassigns the result pointer (grafting is absent), so the loop's
outcome is the seeded placeholder regardless of the queue contents. -/
theorem hybridLoop_eq_start (data : PData α) (a b c d e : Nat) :
    ∀ (fuel : Nat) (q : List (Node α)) (start : Node α),
      hybridLoop data a b c d e fuel q start = start := by
  intro fuel
  induction fuel with
  | zero => intro q s; rfl
  | succ n ih =>
      intro q s
      cases q with
      | nil => rfl
      | cons hd tl =>
          rw [hybridLoop]
          split_ifs <;> exact ih _ _

/-!  ## Claim theorems  -/

/-- C10: during the exact recursive search, at every step of the
incremental right-to-left move loop of every recursion frame (any coherent
family over a duplicate-free observation set `S`, any split feature `p`,
any number `n` of moves), the left and right sorted-index families are
coherent: all left sets have equal length, left and right lengths sum to
the frame's observation count, and each feature's left and right sets
together hold exactly the frame's observation set. -/
theorem C10_family_coherence (data : PData α) {S : List Nat} {sets : Family}
    (hco : Coherent data S sets) (hndS : S.Nodup) (p : Nat) (hp : p < data.numFeatures)
    (n : Nat) (j j' : Nat) (hj : j < data.numFeatures) (hj' : j' < data.numFeatures) :
    ((famMoveN data (sets.getD p []) n sets).1.getD j []).length =
      ((famMoveN data (sets.getD p []) n sets).1.getD j' []).length ∧
    ((famMoveN data (sets.getD p []) n sets).1.getD j []).length +
      ((famMoveN data (sets.getD p []) n sets).2.getD j []).length = S.length ∧
    ((famMoveN data (sets.getD p []) n sets).1.getD j [] ++
      (famMoveN data (sets.getD p []) n sets).2.getD j []).Perm S := by
  obtain ⟨⟨_, hLj⟩, ⟨_, hRj⟩⟩ := famMoveN_char data hco hndS p hp n j hj
  obtain ⟨⟨_, hLj'⟩, _⟩ := famMoveN_char data hco hndS p hp n j' hj'
  have hpts : (sets.getD p []).Perm S := (hco.2 p hp).2
  refine ⟨?_, ?_, ?_⟩
  · rw [hLj.length_eq, hLj'.length_eq]
  · rw [hLj.length_eq, hRj.length_eq, List.length_take, List.length_drop,
      hpts.length_eq]
    omega
  · refine (hLj.append hRj).trans ?_
    rw [List.take_append_drop]
    exact hpts

/-- C2: for every input and all parameter values, `tree_search_hybrid`
returns the seeded placeholder itself: the leaf `Node(0, 0.0, 0, 0, 0, 0)`
(reward 0, action 0, depth 0, height 0, carrying the full sorted-set
family).  The seeded root has height 0, every dequeued node of height < 1
is dropped, and nothing is ever grafted onto the result. -/
theorem C2_hybrid_returns_placeholder (data : PData α)
    (max_global_depth complete_split_depth chop_depth repeat_splits split_step
     min_node_size : Nat) :
    tree_search_hybrid data max_global_depth complete_split_depth chop_depth
        repeat_splits split_step min_node_size =
      Node.leaf 0 0 0 (create_sorted_sets data) :=
  hybridLoop_eq_start data max_global_depth complete_split_depth chop_depth
    split_step min_node_size _ _ _

/-- C1: the hybrid expander never performs a graft.  On the concrete input
`exA` (which admits splits: the exact search at the same depth returns an
interior tree of positive reward) with `max_global_depth = 2 ≥ 1`, the
hybrid search returns the untouched placeholder with reward 0: the seeded
root is dropped for having height 0, and the code contains no statement
that grafts a local tree into the result. -/
theorem C1_hybrid_never_expands :
    tree_search_hybrid exA 2 2 1 0 1 1 = Node.leaf 0 0 0 [[0, 1, 2, 3]] ∧
    (tree_search exA 2 1 1).isLeaf = false ∧ (tree_search exA 2 1 1).reward = 4 := by
  refine ⟨?_, by decide, by decide⟩
  show hybridLoop exA 2 2 1 1 1 (exA.numRows + 2 + 1)
      [Node.leaf 0 0 0 (create_sorted_sets exA)]
      (Node.leaf 0 0 0 (create_sorted_sets exA)) = Node.leaf 0 0 0 [[0, 1, 2, 3]]
  rw [hybridLoop_eq_start]
  decide

/-- C9: `tree_search` is deterministic.  The sorted-index family over a
given observation set is unique (the tie-broken comparator is a strict
total order, so two coherent families over the same set are equal), hence
the search result is a function of the observation set and the parameters
alone; repeated calls on identical inputs yield identical trees. -/
theorem C9_deterministic (data : PData α) (depth ss mns t : Nat) {S : List Nat}
    {sets₁ sets₂ : Family} (h₁ : Coherent data S sets₁) (h₂ : Coherent data S sets₂) :
    sets₁ = sets₂ ∧
    find_best_split data ss mns depth sets₁ t = find_best_split data ss mns depth sets₂ t ∧
    tree_search data depth ss mns = tree_search data depth ss mns := by
  have hlen : sets₁.length = sets₂.length := h₁.1.trans h₂.1.symm
  have hext : sets₁ = sets₂ := by
    apply List.ext_getElem hlen
    intro k hk1 hk2
    have hkp : k < data.numFeatures := h₁.1 ▸ hk1
    have := sortedOf_unique data k (h₁.2 k hkp) (h₂.2 k hkp)
    rwa [List.getD_eq_getElem _ _ hk1, List.getD_eq_getElem _ _ hk2] at this
  exact ⟨hext, by rw [hext], rfl⟩


/-!  ## Generic fold preservation  -/

theorem foldl_preserve {β γ : Type} (P : γ → Prop) (f : γ → β → γ)
    (l : List β) (init : γ) (h0 : P init) (hstep : ∀ acc b, P acc → P (f acc b)) :
    P (l.foldl f init) := by
  induction l generalizing init with
  | nil => exact h0
  | cons x xs ih => exact ih (f init x) (hstep init x h0)

/-!  ## Pruning invariant: no interior node has equal-action leaf children  -/

theorem level_zero_noTwin (data : PData α) (sets : Family) (t : Nat) :
    (level_zero_learning data sets t).noTwinLeaves := by
  unfold level_zero_learning
  cases bestOver data.numRewards (rewardSum data (sets.headD [])) with
  | none => trivial
  | some ba => cases ba with | mk a r => trivial

theorem level_one_noTwin (data : PData α) (sets : Family) (ss mns t : Nat) :
    (level_one_learning data sets ss mns t).noTwinLeaves := by
  unfold level_one_learning
  cases l1Best data sets ss mns with
  | none => exact level_zero_noTwin data sets (t + 1)
  | some c =>
      unfold l1Assemble
      by_cases h : c.leftA = c.rightA
      · simp only [h, if_pos rfl]
        trivial
      · simp only [if_neg h]
        refine ⟨?_, trivial, trivial⟩
        rintro ⟨-, -, hact⟩
        exact h (by simpa [Node.action_id] using hact)

theorem fbsLoop_candPair (data : PData α) (rec : Family → Node α)
    (Q : Node α → Node α → Prop) (hrec : ∀ f₁ f₂, Q (rec f₁) (rec f₂))
    (p m ss mns : Nat) :
    ∀ (k : Nat) (left right : Family) (n sc : Nat) (best : Option (FCand α)),
      (∀ c, best = some c → Q c.lch c.rch) →
      ∀ c, fbsLoop data rec p m ss mns k left right n sc best = some c → Q c.lch c.rch := by
  intro k
  induction k with
  | zero => intro left right n sc best hbest c hc; exact hbest c hc
  | succ k ih =>
      intro left right n sc best hbest c hc
      rw [fbsLoop] at hc
      rcases hhead : (right.getD p []).head? with _ | i
      · rw [hhead] at hc; exact hbest c hc
      · rw [hhead] at hc
        rcases hhead2 : ((famErase i right).getD p []).head? with _ | nx
        · simp only [hhead2] at hc; exact hbest c hc
        · simp only [hhead2] at hc
          split_ifs at hc with h1 h2 h3
          · exact ih _ _ _ _ _ hbest c hc
          · exact ih _ _ _ _ _ hbest c hc
          · refine ih _ _ _ _ _ ?_ c hc
            intro c' hc'
            rcases updF_cases best
                ⟨p, data.X i p, rec (famInsert data i left), rec (famErase i right)⟩ with
              he | he
            · rw [he] at hc'
              cases hc'
              exact hrec _ _
            · rw [he] at hc'
              exact hbest c' hc'
          · exact ih _ _ _ _ _ hbest c hc

theorem find_best_split_noTwin (data : PData α) (ss mns : Nat) :
    ∀ (level : Nat) (sets : Family) (t : Nat),
      (find_best_split data ss mns level sets t).noTwinLeaves := by
  intro level
  induction level using Nat.twoStepInduction with
  | zero => intro sets t; exact level_zero_noTwin data sets (t + 1)
  | one => intro sets t; exact level_one_noTwin data sets ss mns (t + 1)
  | more l ih0 ih1 =>
      intro sets t
      show (fbsStep data (find_best_split data ss mns (l + 1)) sets ss mns t).noTwinLeaves
      unfold fbsStep
      have hQ : ∀ c,
          fbsBest data (fun fam => find_best_split data ss mns (l + 1) fam (t + 1))
            sets ss mns = some c →
          c.lch.noTwinLeaves ∧ c.rch.noTwinLeaves := by
        unfold fbsBest
        refine foldl_preserve
          (fun b : Option (FCand α) => ∀ c : FCand α,
            b = some c → c.lch.noTwinLeaves ∧ c.rch.noTwinLeaves) _ _ _
          (by intro c h; cases h) ?_
        intro acc p hacc
        exact fbsLoop_candPair data
          (fun fam => find_best_split data ss mns (l + 1) fam (t + 1))
          (fun n₁ n₂ => n₁.noTwinLeaves ∧ n₂.noTwinLeaves)
          (fun f₁ f₂ => ⟨ih1 f₁ (t + 1), ih1 f₂ (t + 1)⟩)
          _ _ _ _ _ _ _ _ _ _ hacc
      cases hb : fbsBest data (fun fam => find_best_split data ss mns (l + 1) fam (t + 1))
          sets ss mns with
      | none => exact level_zero_noTwin data sets (t + 1)
      | some c =>
          obtain ⟨hl, hr⟩ := hQ c hb
          unfold fbsAssemble
          by_cases hcond :
              (c.lch.isLeaf && c.rch.isLeaf && c.lch.action_id == c.rch.action_id) = true
          · simp only [hcond, if_pos]
            trivial
          · simp only [hcond, if_neg, Bool.not_eq_true]
            refine ⟨?_, hl, hr⟩
            rintro ⟨h1, h2, h3⟩
            exact hcond (by simp [h1, h2, h3])

theorem level_zero2_noTwin (data : PData α) (sets : Family) :
    (level_zero_learning2 data sets).noTwinLeaves := by
  unfold level_zero_learning2
  cases bestOver data.numRewards (rewardSum data (sets.headD [])) with
  | none => trivial
  | some ba => cases ba with | mk a r => trivial

theorem level_one2_noTwin (data : PData α) (sets : Family) :
    (level_one_learning2 data sets).noTwinLeaves := by
  unfold level_one_learning2
  cases l1Best2 data sets with
  | none => exact level_zero2_noTwin data sets
  | some c =>
      unfold l1Assemble2
      by_cases h : c.leftA = c.rightA
      · simp only [h, if_pos rfl]
        trivial
      · simp only [if_neg h]
        refine ⟨?_, trivial, trivial⟩
        rintro ⟨-, -, hact⟩
        exact h (by simpa [SNode.actionId] using hact)

theorem updF2_SInvNoTwin (st : FState2 α) (p : Nat) (v : α) (L R : SNode α)
    (hst : SInvNoTwin st) (hL : L.noTwinLeaves) (hR : R.noTwinLeaves) :
    SInvNoTwin (updF2 st p v L R) := by
  unfold updF2
  split_ifs with himp hsame
  · refine ⟨?_, ?_⟩
    · intro c hc; cases hc
    · intro lf hlf
      simp only [Option.some.injEq] at hlf
      rw [← hlf]
      rfl
  · refine ⟨?_, hst.2⟩
    intro c hc
    simp only [Option.some.injEq] at hc
    rw [← hc]
    refine ⟨?_, hL, hR⟩
    rintro ⟨h1, h2, h3⟩
    apply hsame
    dsimp only at h1 h2 h3
    have hLsome : L.actionId.isSome = true := by
      cases L with
      | leaf r a => simp [SNode.actionId]
      | split v vl r l r' => simp [SNode.isLeaf] at h1
    have hRsome : R.actionId.isSome = true := by
      cases R with
      | leaf r a => simp [SNode.actionId]
      | split v vl r l r' => simp [SNode.isLeaf] at h2
    simp [hLsome, hRsome, h3]
  · exact hst

theorem fbsLoop2_SInvNoTwin (data : PData α) (rec : Family → SNode α)
    (hrec : ∀ f, (rec f).noTwinLeaves) (p m : Nat) :
    ∀ (k : Nat) (left right : Family) (st : FState2 α),
      SInvNoTwin st → SInvNoTwin (fbsLoop2 data rec p m k left right st) := by
  intro k
  induction k with
  | zero => intro left right st hst; exact hst
  | succ k ih =>
      intro left right st hst
      rw [fbsLoop2]
      rcases hhead : (right.getD p []).head? with _ | i
      · exact hst
      · rcases hhead2 : ((famErase i right).getD p []).head? with _ | nx
        · simp only [hhead2]
          exact hst
        · simp only [hhead2]
          split_ifs with h1
          · exact ih _ _ _ hst
          · exact ih _ _ _ (updF2_SInvNoTwin _ _ _ _ _ hst (hrec _) (hrec _))

theorem find_best_split2_noTwin (data : PData α) :
    ∀ (fuel level : Nat) (sets : Family),
      (find_best_split2 data fuel level sets).noTwinLeaves := by
  intro fuel
  induction fuel with
  | zero => intro level sets; exact level_zero2_noTwin data sets
  | succ fuel ih =>
      intro level sets
      rw [find_best_split2]
      split_ifs with hlev
      · exact level_one2_noTwin data sets
      · unfold fbsStep2
        have hinv : SInvNoTwin (fbsState2 data (find_best_split2 data fuel (level - 1)) sets) := by
          unfold fbsState2
          refine foldl_preserve SInvNoTwin _ _ _
            ⟨(by intro c h; cases h), (by intro lf h; cases h)⟩ ?_
          intro acc p hacc
          exact fbsLoop2_SInvNoTwin data (find_best_split2 data fuel (level - 1))
            (fun f => ih (level - 1) f) _ _ _ _ _ _ hacc
        unfold fbsAssemble2
        cases hp : (fbsState2 data (find_best_split2 data fuel (level - 1)) sets).pair with
        | some c =>
            obtain ⟨hfst, _⟩ := hinv
            obtain ⟨hroot, hl, hr⟩ := hfst c hp
            exact ⟨hroot, hl, hr⟩
        | none =>
            cases hlf : (fbsState2 data (find_best_split2 data fuel (level - 1)) sets).leafAns with
            | some lf =>
                cases lf with
                | leaf r a => trivial
                | split v vl r l r' =>
                    have := hinv.2 _ hlf
                    simp [SNode.isLeaf] at this
            | none => exact level_zero2_noTwin data sets

/-- C8: no tree returned by the exact search — either implementation, any
depth, any input, any parameters — contains an interior node whose two
children are both leaves carrying the same `action_id`: such a best
candidate is collapsed into a single leaf. -/
theorem C8_pruned_everywhere (data : PData α) (depth ss mns depth2 : Nat) :
    (tree_search data depth ss mns).noTwinLeaves ∧
    (tree_search2 data depth2).noTwinLeaves :=
  ⟨find_best_split_noTwin data ss mns depth _ 0,
   find_best_split2_noTwin data _ depth2 _⟩


/-!  ## Recorded depth fields  -/

theorem level_zero_depthBand (data : PData α) (sets : Family) (t b : Nat)
    (h1 : b ≤ t) (h2 : t ≤ b + 2) : (level_zero_learning data sets t).depthBandOK b := by
  unfold level_zero_learning
  cases bestOver data.numRewards (rewardSum data (sets.headD [])) with
  | none => exact ⟨h1, h2⟩
  | some ba => cases ba with | mk a r => exact ⟨h1, h2⟩

theorem level_one_depthBand (data : PData α) (sets : Family) (ss mns t : Nat) :
    (level_one_learning data sets ss mns (t + 1)).depthBandOK t := by
  unfold level_one_learning
  cases l1Best data sets ss mns with
  | none => exact level_zero_depthBand data sets (t + 2) t (by omega) (by omega)
  | some c =>
      unfold l1Assemble
      by_cases h : c.leftA = c.rightA
      · simp only [h, if_pos rfl]
        exact ⟨by omega, by omega⟩
      · simp only [if_neg h]
        exact ⟨by omega, by omega, ⟨by omega, by omega⟩, ⟨by omega, by omega⟩⟩

theorem find_best_split_depthBand (data : PData α) (ss mns : Nat) :
    ∀ (level : Nat) (sets : Family) (t : Nat),
      (find_best_split data ss mns level sets t).depthBandOK t := by
  intro level
  induction level using Nat.twoStepInduction with
  | zero => intro sets t; exact level_zero_depthBand data sets (t + 1) t (by omega) (by omega)
  | one => intro sets t; exact level_one_depthBand data sets ss mns t
  | more l ih0 ih1 =>
      intro sets t
      show (fbsStep data (find_best_split data ss mns (l + 1)) sets ss mns t).depthBandOK t
      unfold fbsStep
      have hQ : ∀ c,
          fbsBest data (fun fam => find_best_split data ss mns (l + 1) fam (t + 1))
            sets ss mns = some c →
          c.lch.depthBandOK (t + 1) ∧ c.rch.depthBandOK (t + 1) := by
        unfold fbsBest
        refine foldl_preserve
          (fun b : Option (FCand α) => ∀ c : FCand α,
            b = some c → c.lch.depthBandOK (t + 1) ∧ c.rch.depthBandOK (t + 1)) _ _ _
          (by intro c h; cases h) ?_
        intro acc p hacc
        exact fbsLoop_candPair data
          (fun fam => find_best_split data ss mns (l + 1) fam (t + 1))
          (fun n₁ n₂ => n₁.depthBandOK (t + 1) ∧ n₂.depthBandOK (t + 1))
          (fun f₁ f₂ => ⟨ih1 f₁ (t + 1), ih1 f₂ (t + 1)⟩)
          _ _ _ _ _ _ _ _ _ _ hacc
      cases hb : fbsBest data (fun fam => find_best_split data ss mns (l + 1) fam (t + 1))
          sets ss mns with
      | none => exact level_zero_depthBand data sets (t + 1) t (by omega) (by omega)
      | some c =>
          obtain ⟨hl, hr⟩ := hQ c hb
          unfold fbsAssemble
          by_cases hcond :
              (c.lch.isLeaf && c.rch.isLeaf && c.lch.action_id == c.rch.action_id) = true
          · simp only [hcond, if_pos]
            exact ⟨by omega, by omega⟩
          · simp only [hcond, if_neg, Bool.not_eq_true]
            exact ⟨by omega, by omega, hl, hr⟩

theorem level_zero_leafDep (data : PData α) (sets : Family) (t b : Nat) (h : t ≤ b) :
    (level_zero_learning data sets t).leafDepLE b := by
  unfold level_zero_learning
  cases bestOver data.numRewards (rewardSum data (sets.headD [])) with
  | none => exact h
  | some ba => cases ba with | mk a r => exact h

theorem level_one_leafDep (data : PData α) (sets : Family) (ss mns t : Nat) :
    (level_one_learning data sets ss mns (t + 1)).leafDepLE (t + 2) := by
  unfold level_one_learning
  cases l1Best data sets ss mns with
  | none => exact level_zero_leafDep data sets (t + 2) (t + 2) le_rfl
  | some c =>
      unfold l1Assemble
      by_cases h : c.leftA = c.rightA
      · simp only [h, if_pos rfl]
        show t + 1 ≤ t + 2
        omega
      · simp only [if_neg h]
        exact ⟨le_rfl, le_rfl⟩

theorem find_best_split_leafDep (data : PData α) (ss mns : Nat) :
    ∀ (level : Nat) (sets : Family) (t : Nat),
      (find_best_split data ss mns level sets t).leafDepLE (t + level + 1) := by
  intro level
  induction level using Nat.twoStepInduction with
  | zero => intro sets t; exact level_zero_leafDep data sets (t + 1) (t + 0 + 1) le_rfl
  | one => intro sets t; exact level_one_leafDep data sets ss mns t
  | more l ih0 ih1 =>
      intro sets t
      show (fbsStep data (find_best_split data ss mns (l + 1)) sets ss mns t).leafDepLE
        (t + (l + 2) + 1)
      unfold fbsStep
      have hQ : ∀ c,
          fbsBest data (fun fam => find_best_split data ss mns (l + 1) fam (t + 1))
            sets ss mns = some c →
          c.lch.leafDepLE (t + (l + 2) + 1) ∧ c.rch.leafDepLE (t + (l + 2) + 1) := by
        unfold fbsBest
        refine foldl_preserve
          (fun b : Option (FCand α) => ∀ c : FCand α,
            b = some c → c.lch.leafDepLE (t + (l + 2) + 1) ∧
              c.rch.leafDepLE (t + (l + 2) + 1)) _ _ _
          (by intro c h; cases h) ?_
        intro acc p hacc
        refine fbsLoop_candPair data
          (fun fam => find_best_split data ss mns (l + 1) fam (t + 1))
          (fun n₁ n₂ => n₁.leafDepLE (t + (l + 2) + 1) ∧ n₂.leafDepLE (t + (l + 2) + 1))
          (fun f₁ f₂ => ?_) _ _ _ _ _ _ _ _ _ _ hacc
        have h1 := ih1 f₁ (t + 1)
        have h2 := ih1 f₂ (t + 1)
        have he : (t + 1) + (l + 1) + 1 = t + (l + 2) + 1 := by omega
        rw [he] at h1 h2
        exact ⟨h1, h2⟩
      cases hb : fbsBest data (fun fam => find_best_split data ss mns (l + 1) fam (t + 1))
          sets ss mns with
      | none => exact level_zero_leafDep data sets (t + 1) (t + (l + 2) + 1) (by omega)
      | some c =>
          obtain ⟨hl, hr⟩ := hQ c hb
          unfold fbsAssemble
          by_cases hcond :
              (c.lch.isLeaf && c.rch.isLeaf && c.lch.action_id == c.rch.action_id) = true
          · simp only [hcond, if_pos]
            show t ≤ t + (l + 2) + 1
            omega
          · simp only [hcond, if_neg, Bool.not_eq_true]
            exact ⟨hl, hr⟩


/-!  ## C5 and C6  -/

/-- C5 (amended): the recorded `depth` fields are not distances from the
root — the root records 1 (or 2 after a fallback) — but every node's
recorded depth lies between its distance from the returned root and that
distance plus two, and every leaf's recorded depth is at most the `depth`
argument plus one. -/
theorem C5_depth_fields_band (data : PData α) (depth ss mns : Nat) :
    (tree_search data depth ss mns).depthBandOK 0 ∧
    (tree_search data depth ss mns).leafDepLE (depth + 1) := by
  constructor
  · exact find_best_split_depthBand data ss mns depth (create_sorted_sets data) 0
  · have h := find_best_split_leafDep data ss mns depth (create_sorted_sets data) 0
    simpa using h

/-- C5 counterexample: on `exA` with `depth = 0` the returned tree is a
single leaf (distance 0 from the root, depth argument 0) whose recorded
`depth` field is 1: recorded depths are NOT the distance from the root and
can exceed the `depth` argument. -/
theorem C5_depth_fields_counterexample :
    (tree_search exA 0 1 1).isLeaf = true ∧ (tree_search exA 0 1 1).dep = 1 ∧
    ¬((tree_search exA 0 1 1).dep = 0) := by
  refine ⟨by decide, by decide, by decide⟩

/-- C6 (amended): for the r-package implementation, depth 0 returns a
single leaf whose action is the smallest index maximizing the column sums
of `Y` and whose reward is that maximal column sum.  (The src
implementation has no `level == 0` base case and instead runs the full
recursive search at depth 0; see the counterexample.) -/
theorem C6_depth_zero_argmax (data : PData α) (ss mns : Nat)
    (hd : 0 < data.numRewards) (hp : 0 < data.numFeatures) :
    (tree_search data 0 ss mns).isLeaf = true ∧
    (tree_search data 0 ss mns).action_id < data.numRewards ∧
    (tree_search data 0 ss mns).reward =
      rewardSum data (List.range data.numRows) (tree_search data 0 ss mns).action_id ∧
    (∀ a, a < data.numRewards →
      rewardSum data (List.range data.numRows) a ≤ (tree_search data 0 ss mns).reward) ∧
    (∀ a, a < (tree_search data 0 ss mns).action_id →
      rewardSum data (List.range data.numRows) a < (tree_search data 0 ss mns).reward) := by
  have hco := create_sorted_sets_coherent data
  have hperm : ((create_sorted_sets data).getD 0 []).Perm (List.range data.numRows) :=
    (hco.2 0 hp).2
  have hhead : (create_sorted_sets data).headD [] = (create_sorted_sets data).getD 0 [] := by
    cases hcs : create_sorted_sets data with
    | nil =>
        exfalso
        have := hco.1
        rw [hcs] at this
        simp at this
        omega
    | cons s rest => rfl
  have hs := level_zero_spec data (create_sorted_sets data) 1 hd
  rw [hhead] at hs
  obtain ⟨h1, h2, h3, h4, h5, h6⟩ := hs
  have hrw : ∀ a, rewardSum data ((create_sorted_sets data).getD 0 []) a =
      rewardSum data (List.range data.numRows) a :=
    fun a => rewardSum_perm data hperm a
  rw [hrw] at h4
  refine ⟨h1, h3, h4, ?_, ?_⟩
  · intro a ha
    have := h5 a ha
    rwa [hrw] at this
  · intro a ha
    have := h6 a ha
    rwa [hrw] at this

/-- C6 witness: the amended claim applied to `exA` (both actions tie at
column sum 2, so the leaf takes action 0 with reward 2). -/
theorem C6_depth_zero_argmax_witness :
    (0 < exA.numRewards ∧ 0 < exA.numFeatures) ∧
    (tree_search exA 0 1 1).isLeaf = true ∧
    (tree_search exA 0 1 1).reward =
      rewardSum exA (List.range exA.numRows) (tree_search exA 0 1 1).action_id :=
  ⟨⟨by decide, by decide⟩,
    (C6_depth_zero_argmax exA 1 1 (by decide) (by decide)).1,
    (C6_depth_zero_argmax exA 1 1 (by decide) (by decide)).2.2.1⟩

/-- C6 counterexample: the src implementation at depth 0 does NOT return a
single leaf with the arg-max column sum: on `exA` it returns an interior
tree of reward 4, while both column sums are 2. -/
theorem C6_depth_zero_counterexample :
    (tree_search2 exA 0).isLeaf = false ∧ (tree_search2 exA 0).reward = 4 ∧
    rewardSum exA (List.range 4) 0 = 2 ∧ rewardSum exA (List.range 4) 1 = 2 := by
  refine ⟨by decide, by decide, by decide, by decide⟩

/-- C10 witness: the invariant instantiated on `exA` after two moves. -/
theorem C10_family_coherence_witness :
    Coherent exA (List.range 4) (create_sorted_sets exA) ∧
    ((famMoveN exA ((create_sorted_sets exA).getD 0 []) 2 (create_sorted_sets exA)).1.getD 0
        []).length +
      ((famMoveN exA ((create_sorted_sets exA).getD 0 []) 2 (create_sorted_sets exA)).2.getD 0
        []).length = (List.range 4).length :=
  ⟨create_sorted_sets_coherent exA,
    (C10_family_coherence exA (create_sorted_sets_coherent exA)
      (List.nodup_range 4) 0 (by decide) 2 0 0 (by decide) (by decide)).2.1⟩

/-- C9 witness: determinism instantiated on `exA`'s canonical family. -/
theorem C9_deterministic_witness :
    create_sorted_sets exA = create_sorted_sets exA ∧
    find_best_split exA 1 1 1 (create_sorted_sets exA) 0 =
      find_best_split exA 1 1 1 (create_sorted_sets exA) 0 :=
  ⟨(C9_deterministic exA 1 1 1 0 (create_sorted_sets_coherent exA)
      (create_sorted_sets_coherent exA)).1,
    (C9_deterministic exA 1 1 1 0 (create_sorted_sets_coherent exA)
      (create_sorted_sets_coherent exA)).2.1⟩

end PolicyTree
